import Mathlib

/-! # gomove: board, group registry and dead-group resolution

A shallow embedding of `gomove.go`.

Modelling choices, all made to follow Go's semantics of the source:

* `Board` is passed by value in the source, but `Points`, `Groups`, `OfGroup` and every
  `Set[Location]` are reference types, every method returns the board and every caller
  stores the result back, so a single board value is threaded through.
* A `Group` struct holds a *reference* to its `Set[Location]`; copies of a `Group` (the
  locals `g1`, `g2` of `MergeNeighborsAt`, the slice `otherGroups` of `FlipOrRemoveAfter`)
  share the map with the registry.  The maps live in the store `Board.Sets`, a `Group`
  holds an index into it (`none` is the nil map of the zero `Group`).
* A run-time panic (index out of range, assignment to an entry of a nil map) and
  `log.Fatalf` are the result `none`.
* Go leaves the order of `range` over a map open.  Where the order cannot change the
  result the model ranges in list order; the two places where it can (the registry in
  `FlipOrRemoveAfter`, the second loop of `FlipGroup`) take the order from a `RangeOrder`.
-/

namespace Gomove

/-! ## Data model -/

/-- The type `FlipRemove` with its two constants. -/
inductive FlipRemove where
  | Flip
  | Remove
deriving DecidableEq, Repr

/-- The package-level variables `WallIsLiberty` and `FlipOrRemove`. -/
structure Config where
  WallIsLiberty : Bool
  FlipOrRemove : FlipRemove
deriving DecidableEq, Repr

/-- The type `Stone` with its three constants. -/
inductive Stone where
  | Empty
  | Black
  | White
deriving DecidableEq, Repr

/-- The struct `Location`. -/
structure Location where
  X : Int
  Y : Int
deriving DecidableEq, Repr

/-- The struct `Group`; `Members` is a reference into `Board.Sets`, `none` the nil map. -/
structure Group where
  Color : Stone
  TopLeft : Location
  Members : Option Nat
deriving DecidableEq, Repr

/-- The struct `Board`, with the store `Sets` of the `Set[Location]` maps made so far. -/
structure Board where
  Size : Int
  Points : List (List Stone)
  Groups : List (Location × Group)
  OfGroup : List (Location × Location)
  Sets : List (List Location)
deriving DecidableEq, Repr

/-! ## Go maps and slices -/

/-- Lookup `m[key]` with the comma-ok result as an option. -/
def mapGet {κ α : Type} [DecidableEq κ] : List (κ × α) → κ → Option α
  | [], _ => none
  | (k, v) :: m, key => if k = key then some v else mapGet m key

/-- The builtin `delete(m, key)`. -/
def mapDel {κ α : Type} [DecidableEq κ] (m : List (κ × α)) (key : κ) : List (κ × α) :=
  m.filter (fun p => decide (p.1 ≠ key))

/-- The assignment `m[key] = v`. -/
def mapSet {κ α : Type} [DecidableEq κ] (m : List (κ × α)) (key : κ) (v : α) : List (κ × α) :=
  (key, v) :: mapDel m key

/-- The assignment `s[loc] = true` on a `Set[Location]`. -/
def setAdd (s : List Location) (loc : Location) : List Location :=
  if loc ∈ s then s else loc :: s

/-- The read `pts[loc.Y][loc.X]`; `none` when an index is out of range. -/
def getPoint (pts : List (List Stone)) (loc : Location) : Option Stone :=
  if 0 ≤ loc.X ∧ 0 ≤ loc.Y then
    match pts[loc.Y.toNat]? with
    | some row => row[loc.X.toNat]?
    | none => none
  else none

/-- The write `pts[loc.Y][loc.X] = s`; `none` when an index is out of range. -/
def setPoint (pts : List (List Stone)) (loc : Location) (s : Stone) : Option (List (List Stone)) :=
  if 0 ≤ loc.X ∧ 0 ≤ loc.Y then
    match pts[loc.Y.toNat]? with
    | some row =>
      if loc.X.toNat < row.length then some (pts.set loc.Y.toNat (row.set loc.X.toNat s)) else none
    | none => none
  else none

/-! ## The program -/

/-- The method `Location.IsBefore`. -/
def Location.IsBefore (l other : Location) : Bool :=
  if l.X < other.X then true else decide (l.Y < other.Y)

/-- The function `NewBoard`; the size is a natural number, as `make` panics on a negative one. -/
def NewBoard (size : Nat) : Board :=
  { Size := (size : Int)
    Points := List.replicate size (List.replicate size Stone.Empty)
    Groups := []
    OfGroup := []
    Sets := [] }

/-- The zero value of `Group`, the result of `b.Groups[k]` on a missing key. -/
def zeroGroup : Group := ⟨Stone.Empty, ⟨0, 0⟩, none⟩

/-- The read `b.OfGroup[loc]`: the zero `Location` on a missing key. -/
def Board.ownerAt (b : Board) (loc : Location) : Location :=
  (mapGet b.OfGroup loc).getD ⟨0, 0⟩

/-- The read `b.Groups[k]`: the zero `Group` on a missing key. -/
def Board.groupAt (b : Board) (k : Location) : Group :=
  (mapGet b.Groups k).getD zeroGroup

/-- The keys of the map `g.Members`; the nil map has none. -/
def Board.members (b : Board) (g : Group) : List Location :=
  match g.Members with
  | some r => b.Sets.getD r []
  | none => []

/-- The assignment `g.Members[loc] = true`; a panic on the nil map. -/
def Board.addMember (b : Board) (g : Group) (loc : Location) : Option Board :=
  match g.Members with
  | some r => some { b with Sets := b.Sets.set r (setAdd (b.Sets.getD r []) loc) }
  | none => none

/-- The method `Board.IsValid`. -/
def Board.IsValid (b : Board) (loc : Location) : Bool :=
  decide (loc.X ≥ 0) && decide (loc.X < b.Size) && decide (loc.Y ≥ 0) && decide (loc.Y < b.Size)

/-- The method `Board.AllLocations`. -/
def Board.AllLocations (b : Board) : List Location :=
  (List.range b.Size.toNat).flatMap fun y => (List.range b.Size.toNat).map fun x => ⟨(x : Int), (y : Int)⟩

/-- The method `Board.NeighborLocations`. -/
def Board.NeighborLocations (b : Board) (loc : Location) : List Location :=
  ([⟨loc.X - 1, loc.Y⟩, ⟨loc.X + 1, loc.Y⟩, ⟨loc.X, loc.Y - 1⟩, ⟨loc.X, loc.Y + 1⟩] :
    List Location).filter fun n => b.IsValid n

/-- The method `Board.IsBesideWall`. -/
def Board.IsBesideWall (b : Board) (loc : Location) : Bool :=
  decide (loc.X = 0) || decide (loc.Y = 0) || decide (loc.X = b.Size - 1) ||
    decide (loc.Y = b.Size - 1)

/-- The method `Board.StoneAt`. -/
def Board.StoneAt (b : Board) (loc : Location) : Option Stone :=
  getPoint b.Points loc

/-- The write `b.Points[loc.Y][loc.X] = s`. -/
def Board.setStone (b : Board) (loc : Location) (s : Stone) : Option Board :=
  (setPoint b.Points loc s).map fun pts => { b with Points := pts }

/-- The body of the loop of `Merge`, for one key `loc` of `g2.Members`. -/
def Board.mergeStep (g1 : Group) (b : Board) (loc : Location) : Option Board :=
  (b.addMember g1 loc).map fun b1 => { b1 with OfGroup := mapSet b1.OfGroup loc g1.TopLeft }

/-- The method `Board.Merge` after the swap: `g1` survives, `g2` is discarded. -/
def Board.mergeInto (b : Board) (g1 g2 : Group) : Option Board :=
  ((b.members g2).foldlM (Board.mergeStep g1) b).map fun b1 =>
    { b1 with Groups := mapDel b1.Groups g2.TopLeft }

/-- The method `Board.Merge`. -/
def Board.Merge (b : Board) (g1 g2 : Group) : Option Board :=
  if g1.TopLeft = g2.TopLeft then some b
  else if g2.TopLeft.IsBefore g1.TopLeft then b.mergeInto g2 g1
  else b.mergeInto g1 g2

/-- The body of the loop of `MergeNeighborsAt`, for one neighbour `n`. -/
def Board.mergeNeighbor (thisStone : Stone) (loc : Location) (b : Board) (n : Location) :
    Option Board :=
  (b.StoneAt n).bind fun neighborStone =>
    if thisStone = neighborStone then
      b.Merge (b.groupAt (b.ownerAt loc)) (b.groupAt (b.ownerAt n))
    else some b

/-- The method `Board.MergeNeighborsAt`. -/
def Board.MergeNeighborsAt (b : Board) (loc : Location) : Option Board :=
  (b.StoneAt loc).bind fun thisStone =>
    if thisStone = Stone.Empty then some b
    else (b.NeighborLocations loc).foldlM (Board.mergeNeighbor thisStone loc) b

/-- The function `NewGroup`: the group and the store with its fresh member set. -/
def NewGroup (sets : List (List Location)) (loc : Location) (color : Stone) :
    Group × List (List Location) :=
  (⟨color, loc, some sets.length⟩, sets ++ [[loc]])

/-- The method `Board.Put`. -/
def Board.Put (b : Board) (stone : Stone) (loc : Location) : Option Board :=
  (setPoint b.Points loc stone).map fun pts =>
    { b with
      Points := pts
      Groups := mapSet b.Groups loc (NewGroup b.Sets loc stone).1
      OfGroup := mapSet b.OfGroup loc loc
      Sets := (NewGroup b.Sets loc stone).2 }

/-- The method `Board.PutAndMerge`. -/
def Board.PutAndMerge (b : Board) (stone : Stone) (loc : Location) : Option Board :=
  (b.Put stone loc).bind fun b1 => b1.MergeNeighborsAt loc

/-- The inner loop of `HasLiberty`: is some neighbour in `ns` Empty. -/
def Board.anyEmpty (b : Board) : List Location → Option Bool
  | [] => some false
  | n :: ns => (b.StoneAt n).bind fun s => if s = Stone.Empty then some true else b.anyEmpty ns

/-- The outer loop of `HasLiberty` over the members `ms`. -/
def Board.libertyOf (cfg : Config) (b : Board) : List Location → Option Bool
  | [] => some false
  | loc :: ms =>
    if cfg.WallIsLiberty && b.IsBesideWall loc then some true
    else (b.anyEmpty (b.NeighborLocations loc)).bind fun found =>
      if found then some true else b.libertyOf cfg ms

/-- The method `Board.HasLiberty`. -/
def Board.HasLiberty (cfg : Config) (b : Board) (g : Group) : Option Bool :=
  b.libertyOf cfg (b.members g)

/-- The order of the two ranges over a map whose order can change the result.
`groups l` is the order in which `range b.Groups` of `FlipOrRemoveAfter` yields the groups `l`;
`members g l` are the keys that the second `range g.Members` of `FlipGroup` yields when the
map holds the keys `l` as the loop starts. -/
structure RangeOrder where
  groups : List Group → List Group
  members : Group → List Location → List Location

/-- The range in list order that yields no entry added during the loop. -/
def RangeOrder.listOrder : RangeOrder := ⟨fun l => l, fun _ l => l⟩

/-- What Go allows a `RangeOrder` to be on the board `b`: the registry is yielded as a
permutation; the second loop of `FlipGroup` yields every key present when it starts and,
entries added during a range being yielded or not, possibly further locations of the board. -/
def RangeOrder.Allowed (ro : RangeOrder) (b : Board) : Prop :=
  (∀ l, (ro.groups l).Perm l) ∧
    ∀ g l, (∀ v ∈ l, v ∈ ro.members g l) ∧ ∀ v ∈ ro.members g l, v ∈ l ∨ b.IsValid v = true

/-- The method `Board.FlipGroup`. -/
def Board.FlipGroup (ro : RangeOrder) (b : Board) (g : Group) (otherColor : Stone) :
    Option Board :=
  ((b.members g).foldlM (fun (b1 : Board) loc => b1.setStone loc otherColor) b).bind fun b1 =>
    (ro.members g (b1.members g)).foldlM Board.MergeNeighborsAt b1

/-- The body of the loop of `RemoveGroup`, for one key `loc` of `g.Members`. -/
def Board.removeStep (b : Board) (loc : Location) : Option Board :=
  (b.setStone loc Stone.Empty).map fun b1 =>
    { b1 with OfGroup := mapSet b1.OfGroup loc ⟨-1, -1⟩ }

/-- The method `Board.RemoveGroup`. -/
def Board.RemoveGroup (b : Board) (g : Group) : Option Board :=
  ((b.members g).foldlM Board.removeStep b).map fun b1 =>
    { b1 with Groups := mapDel b1.Groups g.TopLeft }

/-- The first switch of `FlipOrRemoveAfter`; `none` is the call of `log.Fatalf`. -/
def otherColorOf : Stone → Option Stone
  | Stone.Black => some Stone.White
  | Stone.White => some Stone.Black
  | Stone.Empty => none

/-- The body of the second loop of `FlipOrRemoveAfter`, for one group of `otherGroups`. -/
def Board.resolveStep (cfg : Config) (ro : RangeOrder) (color : Stone) (b : Board)
    (group : Group) : Option Board :=
  (b.HasLiberty cfg group).bind fun lib =>
    if lib then some b
    else
      match cfg.FlipOrRemove with
      | FlipRemove.Flip => b.FlipGroup ro group color
      | FlipRemove.Remove => b.RemoveGroup group

/-- The slice `otherGroups` of `FlipOrRemoveAfter`. -/
def Board.otherGroups (ro : RangeOrder) (b : Board) (otherColor : Stone) : List Group :=
  (ro.groups (b.Groups.map Prod.snd)).filter fun group => decide (group.Color = otherColor)

/-- The method `Board.FlipOrRemoveAfter`. -/
def Board.FlipOrRemoveAfter (cfg : Config) (ro : RangeOrder) (b : Board) (color : Stone) :
    Option Board :=
  (otherColorOf color).bind fun otherColor =>
    (b.otherGroups ro otherColor).foldlM (Board.resolveStep cfg ro color) b

/-! ## Well-formedness and the invariants of reachable boards -/

/-- The grid `pts` has `n` rows of `n` cells. -/
def Dims (pts : List (List Stone)) (n : Nat) : Prop :=
  pts.length = n ∧ ∀ row ∈ pts, row.length = n

/-- The location lies on a grid of side `n`. -/
def InGrid (n : Nat) (loc : Location) : Prop :=
  0 ≤ loc.X ∧ loc.X < n ∧ 0 ≤ loc.Y ∧ loc.Y < n

/-- The entry of `loc` in the reverse index `OfGroup`, if there is one. -/
def Board.own (b : Board) (loc : Location) : Option Location :=
  mapGet b.OfGroup loc

/-- The entry of the key `k` in the registry `Groups`, if there is one. -/
def Board.grp (b : Board) (k : Location) : Option Group :=
  mapGet b.Groups k

/-- The keys of the member set stored at the reference `r`. -/
def Board.setAt (b : Board) (r : Nat) : List Location :=
  b.Sets.getD r []

/-- The cell of `loc` is on the board and holds a stone. -/
def Board.Occupied (b : Board) (loc : Location) : Prop :=
  ∃ s, b.StoneAt loc = some s ∧ s ≠ Stone.Empty

/-- The location `n` is one of the four orthogonal neighbours of `a`. -/
def Adj (a n : Location) : Prop :=
  n = ⟨a.X - 1, a.Y⟩ ∨ n = ⟨a.X + 1, a.Y⟩ ∨ n = ⟨a.X, a.Y - 1⟩ ∨ n = ⟨a.X, a.Y + 1⟩

/-- The locations `a` and `c` are joined by a path of 4-adjacent locations inside `ms`. -/
def Linked (ms : List Location) (a c : Location) : Prop :=
  Relation.ReflTransGen (fun x y => x ∈ ms ∧ y ∈ ms ∧ Adj x y) a c

/-- The adjacent locations `a`, `n` are in one group if they hold the same colour. -/
def Board.MaxPair (b : Board) (a n : Location) : Prop :=
  ∀ s, s ≠ Stone.Empty → b.StoneAt a = some s → b.StoneAt n = some s → Adj a n → b.own a = b.own n

/-- Groups are maximal: adjacent stones of one colour have one owning group key. -/
def Board.Maximal (b : Board) : Prop :=
  ∀ a n, b.MaxPair a n

/-- Well-formedness of a board: grid, registry, reverse index and member sets agree. -/
structure Board.WF (b : Board) : Prop where
  size_nonneg : 0 ≤ b.Size
  dims : Dims b.Points b.Size.toNat
  keys : (b.Groups.map Prod.fst).Nodup
  group : ∀ k g, b.grp k = some g →
    g.TopLeft = k ∧ ∃ r, g.Members = some r ∧ r < b.Sets.length ∧ k ∈ b.setAt r
  member : ∀ k g r, b.grp k = some g → g.Members = some r →
    ∀ m ∈ b.setAt r, b.own m = some k ∧ b.Occupied m
  owner : ∀ x, b.Occupied x →
    ∃ k g r, b.own x = some k ∧ b.grp k = some g ∧ g.Members = some r ∧ x ∈ b.setAt r
  uniform : ∀ k g r, b.grp k = some g → g.Members = some r →
    ∀ m ∈ b.setAt r, ∀ m' ∈ b.setAt r, b.StoneAt m = b.StoneAt m'
  linked : ∀ k g r, b.grp k = some g → g.Members = some r →
    ∀ m ∈ b.setAt r, ∀ m' ∈ b.setAt r, Linked (b.setAt r) m m'
  stale : ∀ x k, b.own x = some k → k ≠ ⟨-1, -1⟩ → b.Occupied x

/-- The board `b'` comes from `b` by merging groups of stones of colour `s`: the grid is the
same, registry entries are only deleted, member sets only grow, by stones of colour `s`. -/
structure MergedBy (s : Stone) (b b' : Board) : Prop where
  size : b'.Size = b.Size
  points : b'.Points = b.Points
  grp_sub : ∀ k g, b'.grp k = some g → b.grp k = some g
  grp_del : ∀ k g, b.grp k = some g → b'.grp k = some g ∨
    (b'.grp k = none ∧ ∀ m ∈ b.members g, b.StoneAt m = some s)
  set_mono : ∀ r x, x ∈ b.setAt r → x ∈ b'.setAt r
  set_grow : ∀ r x, x ∈ b'.setAt r → x ∈ b.setAt r ∨ b.StoneAt x = some s
  own_eq : ∀ a n, b.Occupied a → b.Occupied n → b.own a = b.own n → b'.own a = b'.own n

/-- The exact effect of merging the group keyed `kd` (member set `rd`) into the group keyed
`ks` (member set `rs`). -/
structure MergeEffect (b b' : Board) (ks kd : Location) (rs rd : Nat) : Prop where
  size : b'.Size = b.Size
  points : b'.Points = b.Points
  slen : b'.Sets.length = b.Sets.length
  grp : ∀ k, b'.grp k = if k = kd then none else b.grp k
  own : ∀ x, b'.own x = if x ∈ b.setAt rd then some ks else b.own x
  surv : ∀ x, x ∈ b'.setAt rs ↔ x ∈ b.setAt rs ∨ x ∈ b.setAt rd
  other : ∀ r, r ≠ rs → b'.setAt r = b.setAt r
  keys : (b.Groups.map Prod.fst).Nodup → (b'.Groups.map Prod.fst).Nodup

/-- The exact effect of `Put` of `stone` at `loc`. -/
structure PutEffect (b b' : Board) (stone : Stone) (loc : Location) : Prop where
  size : b'.Size = b.Size
  stoneAt : ∀ x, b'.StoneAt x = if x = loc then some stone else b.StoneAt x
  grp : ∀ k, b'.grp k = if k = loc then some ⟨stone, loc, some b.Sets.length⟩ else b.grp k
  own : ∀ x, b'.own x = if x = loc then some loc else b.own x
  fresh : b'.setAt b.Sets.length = [loc]
  other : ∀ r, r < b.Sets.length → b'.setAt r = b.setAt r
  slen : b'.Sets.length = b.Sets.length + 1

/-- The invariant of reachable boards: well-formed, with maximal groups. -/
def Board.Inv (b : Board) : Prop :=
  b.WF ∧ b.Maximal

/-- The exact effect of `RemoveGroup` of a group keyed `k` whose member set holds `L`. -/
structure RemoveEffect (b b' : Board) (k : Location) (L : List Location) : Prop where
  size : b'.Size = b.Size
  stoneAt : ∀ x, b'.StoneAt x = if x ∈ L then some Stone.Empty else b.StoneAt x
  own : ∀ x, b'.own x = if x ∈ L then some ⟨-1, -1⟩ else b.own x
  grp : ∀ k', b'.grp k' = if k' = k then none else b.grp k'
  sets : b'.Sets = b.Sets

/-- The liberty rule in the words of the specification, for a member set `ms`: the wall rule
is on and some member is on the boundary, or some member has an in-bounds orthogonal
neighbour whose cell is Empty. -/
def Board.LibertySpec (cfg : Config) (b : Board) (ms : List Location) : Prop :=
  (cfg.WallIsLiberty = true ∧
      ∃ m ∈ ms, m.X = 0 ∨ m.Y = 0 ∨ m.X = b.Size - 1 ∨ m.Y = b.Size - 1) ∨
    ∃ m ∈ ms, ∃ n, Adj m n ∧ b.IsValid n = true ∧ b.StoneAt n = some Stone.Empty

/-- The grid of the board has `Size` rows of `Size` cells. -/
def Board.Sized (b : Board) : Prop :=
  0 ≤ b.Size ∧ Dims b.Points b.Size.toNat

/-- The board `b'` comes from `b` by recolouring stones to `c` and merging groups of stones
of colour `c`: cells keep their stone or turn to `c`, registry entries are only deleted,
member sets only grow, by stones of colour `c`. -/
structure Recoloured (c : Stone) (b b' : Board) : Prop where
  size : b'.Size = b.Size
  cell : ∀ x, b'.StoneAt x = b.StoneAt x ∨ b'.StoneAt x = some c
  grp_sub : ∀ k g, b'.grp k = some g → b.grp k = some g
  grp_del : ∀ k g, b.grp k = some g → b'.grp k = some g ∨
    (b'.grp k = none ∧ ∀ m ∈ b.members g, b'.StoneAt m = some c)
  set_mono : ∀ r x, x ∈ b.setAt r → x ∈ b'.setAt r
  set_grow : ∀ r x, x ∈ b'.setAt r → x ∈ b.setAt r ∨ b'.StoneAt x = some c

/-- What holds of a group `g` of the slice `otherGroups` while the second loop of
`FlipOrRemoveAfter` flips to `c`: `g` is still the registry entry of its key, or its key was
deleted by a merge and all its stones hold `c` already. -/
def Snap (c : Stone) (b : Board) (g : Group) : Prop :=
  ∃ r, g.Members = some r ∧
    (b.grp g.TopLeft = some g ∨ ∀ m ∈ b.setAt r, b.StoneAt m = some c)

/-- The boards reachable from `NewBoard size` by `PutAndMerge` of a Black or White stone on a
valid, currently Empty cell and by `FlipOrRemoveAfter` of Black or White, each resolution
under settings that satisfy `allow` and under any range order that Go allows. -/
inductive Reachable (allow : Config → Prop) (size : Nat) : Board → Prop where
  | init : Reachable allow size (NewBoard size)
  | put {b b' : Board} (stone : Stone) (loc : Location) :
      Reachable allow size b → stone ≠ Stone.Empty → b.IsValid loc = true →
      b.StoneAt loc = some Stone.Empty → b.PutAndMerge stone loc = some b' →
      Reachable allow size b'
  | resolve {b b' : Board} (cfg : Config) (ro : RangeOrder) (color : Stone) :
      Reachable allow size b → allow cfg → ro.Allowed b → color ≠ Stone.Empty →
      b.FlipOrRemoveAfter cfg ro color = some b' → Reachable allow size b'

/-- Placements in sequence, as the claims admit them: each move is a `PutAndMerge` of a
Black or White stone on a valid location whose cell is Empty; `none` on any other move. -/
def Board.playMoves (b : Board) : List (Stone × Location) → Option Board
  | [] => some b
  | (stone, loc) :: moves =>
    if stone ≠ Stone.Empty ∧ b.IsValid loc = true ∧ b.StoneAt loc = some Stone.Empty then
      (b.PutAndMerge stone loc).bind fun b1 => b1.playMoves moves
    else none

/-- The member sets of the registry are pairwise disjoint and cover exactly the occupied
cells. -/
def Board.Partition (b : Board) : Prop :=
  (∀ k k' g g', b.grp k = some g → b.grp k' = some g' → k ≠ k' →
      ∀ x, x ∈ b.members g → x ∉ b.members g') ∧
    ∀ x, (∃ k g, b.grp k = some g ∧ x ∈ b.members g) ↔ b.Occupied x

/-- Two adjacent locations of one colour have one owning key in `OfGroup`, a key of the
registry whose member set holds both. -/
def Board.MaximalGroups (b : Board) : Prop :=
  ∀ a n s, b.IsValid a = true → b.IsValid n = true → Adj a n → s ≠ Stone.Empty →
    b.StoneAt a = some s → b.StoneAt n = some s →
    ∃ k g, b.own a = some k ∧ b.own n = some k ∧ b.grp k = some g ∧
      a ∈ b.members g ∧ n ∈ b.members g

/-- The locations `a` and `c` are joined by a path of 4-adjacent locations that are all in
`ms` and all hold the stone `s`. -/
def Board.Joined (b : Board) (ms : List Location) (s : Stone) (a c : Location) : Prop :=
  Relation.ReflTransGen
    (fun x y => x ∈ ms ∧ y ∈ ms ∧ Adj x y ∧ b.StoneAt x = some s ∧ b.StoneAt y = some s) a c

/-- Every group of the registry is connected: any two members are joined inside the group
by stones of one colour. -/
def Board.ConnectedGroups (b : Board) : Prop :=
  ∀ k g, b.grp k = some g → ∀ m ∈ b.members g, ∀ m' ∈ b.members g,
    ∃ s, s ≠ Stone.Empty ∧ b.StoneAt m = some s ∧ b.StoneAt m' = some s ∧
      b.Joined (b.members g) s m m'

/-- The `Color` field of every registry group is the stone at its anchor. -/
def Board.ColorOK (b : Board) : Prop :=
  ∀ k g, b.grp k = some g → b.StoneAt k = some g.Color

/-! ## Scenario boards -/

/-- Size 3, after Black at (0,0) and (1,0). -/
def mergeScenario : Board :=
  { Size := 3
    Points := [[.Black, .Black, .Empty], [.Empty, .Empty, .Empty], [.Empty, .Empty, .Empty]]
    Groups := [(⟨0, 0⟩, ⟨.Black, ⟨0, 0⟩, some 0⟩)]
    OfGroup := [(⟨1, 0⟩, ⟨0, 0⟩), (⟨0, 0⟩, ⟨0, 0⟩)]
    Sets := [[⟨1, 0⟩, ⟨0, 0⟩], [⟨1, 0⟩]] }

/-- Size 3, after Black at the centre (1,1). -/
def centreScenario : Board :=
  { Size := 3
    Points := [[.Empty, .Empty, .Empty], [.Empty, .Black, .Empty], [.Empty, .Empty, .Empty]]
    Groups := [(⟨1, 1⟩, ⟨.Black, ⟨1, 1⟩, some 0⟩)]
    OfGroup := [(⟨1, 1⟩, ⟨1, 1⟩)]
    Sets := [[⟨1, 1⟩]] }

/-- The moves of `cornerScenario`. -/
def cornerMoves : List (Stone × Location) :=
  [(.White, ⟨0, 0⟩), (.Black, ⟨1, 0⟩), (.Black, ⟨0, 1⟩)]

/-- Size 3, after White at the corner (0,0) and Black at its neighbours (1,0), (0,1). -/
def cornerScenario : Board :=
  { Size := 3
    Points := [[.White, .Black, .Empty], [.Black, .Empty, .Empty], [.Empty, .Empty, .Empty]]
    Groups := [(⟨0, 1⟩, ⟨.Black, ⟨0, 1⟩, some 2⟩), (⟨1, 0⟩, ⟨.Black, ⟨1, 0⟩, some 1⟩),
      (⟨0, 0⟩, ⟨.White, ⟨0, 0⟩, some 0⟩)]
    OfGroup := [(⟨0, 1⟩, ⟨0, 1⟩), (⟨1, 0⟩, ⟨1, 0⟩), (⟨0, 0⟩, ⟨0, 0⟩)]
    Sets := [[⟨0, 0⟩], [⟨1, 0⟩], [⟨0, 1⟩]] }

/-- The board `cornerScenario` after `FlipOrRemoveAfter Black` under Remove, the wall no
liberty. -/
def cornerRemoved : Board :=
  { Size := 3
    Points := [[.Empty, .Black, .Empty], [.Black, .Empty, .Empty], [.Empty, .Empty, .Empty]]
    Groups := [(⟨0, 1⟩, ⟨.Black, ⟨0, 1⟩, some 2⟩), (⟨1, 0⟩, ⟨.Black, ⟨1, 0⟩, some 1⟩)]
    OfGroup := [(⟨0, 0⟩, ⟨-1, -1⟩), (⟨0, 1⟩, ⟨0, 1⟩), (⟨1, 0⟩, ⟨1, 0⟩)]
    Sets := [[⟨0, 0⟩], [⟨1, 0⟩], [⟨0, 1⟩]] }

/-- The board `cornerScenario` after `FlipOrRemoveAfter Black` under Flip, the wall no
liberty: the three stones are Black, in one group whose `Color` field is still White. -/
def cornerFlipped : Board :=
  { Size := 3
    Points := [[.Black, .Black, .Empty], [.Black, .Empty, .Empty], [.Empty, .Empty, .Empty]]
    Groups := [(⟨0, 0⟩, ⟨.White, ⟨0, 0⟩, some 0⟩)]
    OfGroup := [(⟨0, 1⟩, ⟨0, 0⟩), (⟨1, 0⟩, ⟨0, 0⟩), (⟨0, 0⟩, ⟨0, 0⟩)]
    Sets := [[⟨0, 1⟩, ⟨1, 0⟩, ⟨0, 0⟩], [⟨1, 0⟩], [⟨0, 1⟩]] }

/-- The board `cornerFlipped` after White at (2,0), (1,1), (0,2): the Black group of the
corner has no Empty neighbour. -/
def staleScenario : Board :=
  { Size := 3
    Points := [[.Black, .Black, .White], [.Black, .White, .Empty], [.White, .Empty, .Empty]]
    Groups := [(⟨0, 2⟩, ⟨.White, ⟨0, 2⟩, some 5⟩), (⟨1, 1⟩, ⟨.White, ⟨1, 1⟩, some 4⟩),
      (⟨2, 0⟩, ⟨.White, ⟨2, 0⟩, some 3⟩), (⟨0, 0⟩, ⟨.White, ⟨0, 0⟩, some 0⟩)]
    OfGroup := [(⟨0, 2⟩, ⟨0, 2⟩), (⟨1, 1⟩, ⟨1, 1⟩), (⟨2, 0⟩, ⟨2, 0⟩), (⟨0, 1⟩, ⟨0, 0⟩),
      (⟨1, 0⟩, ⟨0, 0⟩), (⟨0, 0⟩, ⟨0, 0⟩)]
    Sets := [[⟨0, 1⟩, ⟨1, 0⟩, ⟨0, 0⟩], [⟨1, 0⟩], [⟨0, 1⟩], [⟨2, 0⟩], [⟨1, 1⟩], [⟨0, 2⟩]] }

/-- The moves of `captureScenario`. -/
def captureMoves : List (Stone × Location) :=
  [(.White, ⟨1, 1⟩), (.White, ⟨1, 2⟩), (.White, ⟨2, 2⟩), (.Black, ⟨0, 1⟩), (.Black, ⟨0, 2⟩),
    (.Black, ⟨1, 0⟩), (.Black, ⟨2, 1⟩), (.Black, ⟨1, 3⟩), (.Black, ⟨2, 3⟩), (.Black, ⟨3, 2⟩)]

/-- The capture scenario on a board of size 4: White at (1,1), (1,2), (2,2), surrounded by
Black at (0,1), (0,2), (1,0), (2,1), (1,3), (2,3), (3,2). -/
def captureScenario : Board :=
  { Size := 4
    Points := [[.Empty, .Black, .Empty, .Empty], [.Black, .White, .Black, .Empty],
      [.Black, .White, .White, .Black], [.Empty, .Black, .Black, .Empty]]
    Groups := [(⟨3, 2⟩, ⟨.Black, ⟨3, 2⟩, some 9⟩), (⟨1, 3⟩, ⟨.Black, ⟨1, 3⟩, some 7⟩),
      (⟨2, 1⟩, ⟨.Black, ⟨2, 1⟩, some 6⟩), (⟨1, 0⟩, ⟨.Black, ⟨1, 0⟩, some 5⟩),
      (⟨0, 1⟩, ⟨.Black, ⟨0, 1⟩, some 3⟩), (⟨1, 1⟩, ⟨.White, ⟨1, 1⟩, some 0⟩)]
    OfGroup := [(⟨3, 2⟩, ⟨3, 2⟩), (⟨2, 3⟩, ⟨1, 3⟩), (⟨1, 3⟩, ⟨1, 3⟩), (⟨2, 1⟩, ⟨2, 1⟩),
      (⟨1, 0⟩, ⟨1, 0⟩), (⟨0, 2⟩, ⟨0, 1⟩), (⟨0, 1⟩, ⟨0, 1⟩), (⟨2, 2⟩, ⟨1, 1⟩),
      (⟨1, 2⟩, ⟨1, 1⟩), (⟨1, 1⟩, ⟨1, 1⟩)]
    Sets := [[⟨2, 2⟩, ⟨1, 2⟩, ⟨1, 1⟩], [⟨1, 2⟩], [⟨2, 2⟩], [⟨0, 2⟩, ⟨0, 1⟩], [⟨0, 2⟩],
      [⟨1, 0⟩], [⟨2, 1⟩], [⟨2, 3⟩, ⟨1, 3⟩], [⟨2, 3⟩], [⟨3, 2⟩]] }

/-- Size 3, after Black at (1,0) and (1,1): one group, keyed (1,0). -/
def anchorScenario : Board :=
  { Size := 3
    Points := [[.Empty, .Black, .Empty], [.Empty, .Black, .Empty], [.Empty, .Empty, .Empty]]
    Groups := [(⟨1, 0⟩, ⟨.Black, ⟨1, 0⟩, some 0⟩)]
    OfGroup := [(⟨1, 1⟩, ⟨1, 0⟩), (⟨1, 0⟩, ⟨1, 0⟩)]
    Sets := [[⟨1, 1⟩, ⟨1, 0⟩], [⟨1, 1⟩]] }

/-- The board `anchorScenario` after `Put` of Black at (0,1), before the merge: two groups,
keyed (0,1) and (1,0). -/
def anchorPut : Board :=
  { Size := 3
    Points := [[.Empty, .Black, .Empty], [.Black, .Black, .Empty], [.Empty, .Empty, .Empty]]
    Groups := [(⟨0, 1⟩, ⟨.Black, ⟨0, 1⟩, some 2⟩), (⟨1, 0⟩, ⟨.Black, ⟨1, 0⟩, some 0⟩)]
    OfGroup := [(⟨0, 1⟩, ⟨0, 1⟩), (⟨1, 1⟩, ⟨1, 0⟩), (⟨1, 0⟩, ⟨1, 0⟩)]
    Sets := [[⟨1, 1⟩, ⟨1, 0⟩], [⟨1, 1⟩], [⟨0, 1⟩]] }

/-- The board `anchorPut` after the merge of its two groups: the key (1,0) survives. -/
def anchorMerged : Board :=
  { Size := 3
    Points := [[.Empty, .Black, .Empty], [.Black, .Black, .Empty], [.Empty, .Empty, .Empty]]
    Groups := [(⟨1, 0⟩, ⟨.Black, ⟨1, 0⟩, some 0⟩)]
    OfGroup := [(⟨0, 1⟩, ⟨1, 0⟩), (⟨1, 1⟩, ⟨1, 0⟩), (⟨1, 0⟩, ⟨1, 0⟩)]
    Sets := [[⟨0, 1⟩, ⟨1, 1⟩, ⟨1, 0⟩], [⟨1, 1⟩], [⟨0, 1⟩]] }

/-- The order of the specification on locations: primarily by x, secondarily by y. -/
def Location.LexBefore (a c : Location) : Prop :=
  a.X < c.X ∨ (a.X = c.X ∧ a.Y < c.Y)

/-- The effect of `Merge` on two registry groups of different anchors, `gs` the surviving and
`gd` the discarded one: the key of `gd` is deleted, the member set of `gs` is the union,
the members of `gd` are owned by the anchor of `gs`, everything else is unchanged. -/
def Board.MergeSpec (b b' : Board) (gs gd : Group) : Prop :=
  b'.grp gs.TopLeft = some gs ∧ b'.grp gd.TopLeft = none ∧
    (∀ x, x ∈ b'.members gs ↔ x ∈ b.members gs ∨ x ∈ b.members gd) ∧
    (∀ x ∈ b.members gd, b'.own x = some gs.TopLeft) ∧
    (∀ k g, k ≠ gs.TopLeft → k ≠ gd.TopLeft → b.grp k = some g →
      b'.grp k = some g ∧ b'.members g = b.members g) ∧
    (∀ k, k ≠ gd.TopLeft → b'.grp k = b.grp k) ∧
    (∀ x, x ∉ b.members gd → b'.own x = b.own x) ∧
    b'.Points = b.Points ∧ b'.Size = b.Size

/-! ## Exact range orders, built boards and the batch merge -/

/-- The range in list order over the registry and in reverse list order over a member set; it
yields no entry added during the loop. -/
def RangeOrder.reversed : RangeOrder := ⟨fun l => l, fun _ l => l.reverse⟩

/-- The first loop of `FlipGroup`: every member cell is overwritten with `otherColor`. -/
def Board.paint (b : Board) (g : Group) (otherColor : Stone) : Option Board :=
  (b.members g).foldlM (fun (b1 : Board) loc => b1.setStone loc otherColor) b

/-- The keys `vs` can be yielded in this order by the second `range g.Members` of `FlipGroup`
run from the board `b`: each is a key of the map at the time it is yielded.  Go guarantees
more (every key present when the loop starts is yielded, and none twice). -/
def Board.Yields (g : Group) : Board → List Location → Prop
  | _, [] => True
  | b, v :: vs =>
    v ∈ b.members g ∧ ∀ b', b.MergeNeighborsAt v = some b' → Board.Yields g b' vs

/-- The range order `ro` yields only keys of the ranged map in every `FlipGroup` of the second
loop of `FlipOrRemoveAfter` run over the groups `gs` from the board `b`. -/
def Board.ExactRanges (cfg : Config) (ro : RangeOrder) (color : Stone) :
    Board → List Group → Prop
  | _, [] => True
  | b, g :: gs =>
    (cfg.FlipOrRemove = FlipRemove.Flip → b.HasLiberty cfg g = some false →
        ∀ b1, b.paint g color = some b1 → b1.Yields g (ro.members g (b1.members g))) ∧
      ∀ b', Board.resolveStep cfg ro color b g = some b' →
        Board.ExactRanges cfg ro color b' gs

/-- The boards built from `NewBoard size` by `Put` or `PutAndMerge` of a Black or White stone
on a valid, currently Empty cell and by `FlipOrRemoveAfter` of Black or White, under either
policy and any order of the ranges over maps that yields keys of the ranged map. -/
inductive Built (size : Nat) : Board → Prop where
  | init : Built size (NewBoard size)
  | put {b b' : Board} (stone : Stone) (loc : Location) :
      Built size b → stone ≠ Stone.Empty → b.IsValid loc = true →
      b.StoneAt loc = some Stone.Empty → b.Put stone loc = some b' → Built size b'
  | putAndMerge {b b' : Board} (stone : Stone) (loc : Location) :
      Built size b → stone ≠ Stone.Empty → b.IsValid loc = true →
      b.StoneAt loc = some Stone.Empty → b.PutAndMerge stone loc = some b' → Built size b'
  | resolve {b b' : Board} (cfg : Config) (ro : RangeOrder) (color oc : Stone) :
      Built size b → (∀ l, (ro.groups l).Perm l) → otherColorOf color = some oc →
      b.ExactRanges cfg ro color (b.otherGroups ro oc) →
      b.FlipOrRemoveAfter cfg ro color = some b' → Built size b'

/-- The calls of `Put` at the head of `foobar`, for a list of stones and locations. -/
def Board.putAll (b : Board) (moves : List (Stone × Location)) : Option Board :=
  moves.foldlM (fun (b1 : Board) m => b1.Put m.1 m.2) b

/-- The loop of `foobar`: `MergeNeighborsAt` at every location of `AllLocations`, in order. -/
def Board.mergeAll (b : Board) : Option Board :=
  b.AllLocations.foldlM Board.MergeNeighborsAt b

/-- The locations `x` and `y` lie in one 4-connected component of stones of one colour:
they are joined by a path of 4-adjacent cells that all hold the same stone. -/
def Board.SameComponent (b : Board) (x y : Location) : Prop :=
  Relation.ReflTransGen
    (fun a c => Adj a c ∧ ∃ s, s ≠ Stone.Empty ∧ b.StoneAt a = some s ∧ b.StoneAt c = some s) x y

/-- The member sets of the registry are exactly the 4-connected components of stones of one
colour: they partition the occupied cells, and the member set of the group of a stone `x` is
the component of `x`. -/
def Board.Components (b : Board) : Prop :=
  b.Partition ∧
    ∀ k g, b.grp k = some g → ∀ x ∈ b.members g, ∀ y, y ∈ b.members g ↔ b.SameComponent x y

/-- Registry well-formedness on occupied cells: a key maps to a group anchored at the key
that contains the key; an occupied location is owned by a key of the registry whose group
contains it; a member of the group keyed `k` is owned by `k`. -/
def Board.RegistryOK (b : Board) : Prop :=
  (∀ k g, b.grp k = some g → g.TopLeft = k ∧ k ∈ b.members g) ∧
    (∀ x, b.Occupied x → ∃ k g, b.own x = some k ∧ b.grp k = some g ∧ x ∈ b.members g) ∧
    ∀ k g, b.grp k = some g → ∀ m ∈ b.members g, b.own m = some k

/-- The effect of `RemoveGroup` on a registry group `g`, as the code has it: the member
cells are Empty, the members hold the entry (-1,-1) in `OfGroup`, the key of `g` is deleted;
all other cells, entries of `OfGroup`, registry groups and their member sets are unchanged. -/
def Board.RemoveSpec (b b' : Board) (g : Group) : Prop :=
  (∀ m ∈ b.members g, b'.StoneAt m = some Stone.Empty ∧ b'.own m = some ⟨-1, -1⟩) ∧
    b'.grp g.TopLeft = none ∧
    (∀ x, x ∉ b.members g → b'.StoneAt x = b.StoneAt x ∧ b'.own x = b.own x) ∧
    ∀ k g0, k ≠ g.TopLeft → b.grp k = some g0 →
      b'.grp k = some g0 ∧ b'.members g0 = b.members g0

/-- The board `anchorPut` after `Merge` of its two groups with the arguments swapped: the
key (0,1) survives. -/
def anchorMergedSwap : Board :=
  { Size := 3
    Points := [[.Empty, .Black, .Empty], [.Black, .Black, .Empty], [.Empty, .Empty, .Empty]]
    Groups := [(⟨0, 1⟩, ⟨.Black, ⟨0, 1⟩, some 2⟩)]
    OfGroup := [(⟨1, 0⟩, ⟨0, 1⟩), (⟨1, 1⟩, ⟨0, 1⟩), (⟨0, 1⟩, ⟨0, 1⟩)]
    Sets := [[⟨1, 1⟩, ⟨1, 0⟩], [⟨1, 1⟩], [⟨1, 0⟩, ⟨1, 1⟩, ⟨0, 1⟩]] }

/-- The moves of `orderScenario`. -/
def orderMoves : List (Stone × Location) :=
  [(.Black, ⟨2, 2⟩), (.Black, ⟨1, 2⟩), (.White, ⟨2, 1⟩), (.White, ⟨1, 1⟩), (.White, ⟨0, 2⟩)]

/-- Size 3, after Black at (2,2), (1,2) and White at (2,1), (1,1), (0,2): the Black group
has no Empty neighbour and touches the White groups keyed (1,1) and (0,2). -/
def orderScenario : Board :=
  { Size := 3
    Points := [[.Empty, .Empty, .Empty], [.Empty, .White, .White], [.White, .Black, .Black]]
    Groups := [(⟨0, 2⟩, ⟨.White, ⟨0, 2⟩, some 4⟩), (⟨1, 1⟩, ⟨.White, ⟨1, 1⟩, some 3⟩),
      (⟨1, 2⟩, ⟨.Black, ⟨1, 2⟩, some 1⟩)]
    OfGroup := [(⟨0, 2⟩, ⟨0, 2⟩), (⟨2, 1⟩, ⟨1, 1⟩), (⟨1, 1⟩, ⟨1, 1⟩), (⟨2, 2⟩, ⟨1, 2⟩),
      (⟨1, 2⟩, ⟨1, 2⟩)]
    Sets := [[⟨2, 2⟩], [⟨2, 2⟩, ⟨1, 2⟩], [⟨2, 1⟩], [⟨2, 1⟩, ⟨1, 1⟩], [⟨0, 2⟩]] }

/-- The board `orderScenario` after `FlipOrRemoveAfter White` under Flip when the members of
the Black group are ranged in the order (2,2), (1,2): the key (0,2) survives. -/
def orderListed : Board :=
  { Size := 3
    Points := [[.Empty, .Empty, .Empty], [.Empty, .White, .White], [.White, .White, .White]]
    Groups := [(⟨0, 2⟩, ⟨.White, ⟨0, 2⟩, some 4⟩)]
    OfGroup := [(⟨1, 1⟩, ⟨0, 2⟩), (⟨2, 1⟩, ⟨0, 2⟩), (⟨2, 2⟩, ⟨0, 2⟩), (⟨1, 2⟩, ⟨0, 2⟩),
      (⟨0, 2⟩, ⟨0, 2⟩)]
    Sets := [[⟨2, 2⟩], [⟨2, 2⟩, ⟨1, 2⟩], [⟨2, 1⟩], [⟨1, 2⟩, ⟨2, 2⟩, ⟨2, 1⟩, ⟨1, 1⟩],
      [⟨1, 1⟩, ⟨2, 1⟩, ⟨2, 2⟩, ⟨1, 2⟩, ⟨0, 2⟩]] }

/-- The board `orderScenario` after `FlipOrRemoveAfter White` under Flip when the members of
the Black group are ranged in the order (1,2), (2,2): the key (1,1) survives. -/
def orderReversed : Board :=
  { Size := 3
    Points := [[.Empty, .Empty, .Empty], [.Empty, .White, .White], [.White, .White, .White]]
    Groups := [(⟨1, 1⟩, ⟨.White, ⟨1, 1⟩, some 3⟩)]
    OfGroup := [(⟨0, 2⟩, ⟨1, 1⟩), (⟨2, 2⟩, ⟨1, 1⟩), (⟨1, 2⟩, ⟨1, 1⟩), (⟨2, 1⟩, ⟨1, 1⟩),
      (⟨1, 1⟩, ⟨1, 1⟩)]
    Sets := [[⟨2, 2⟩], [⟨2, 2⟩, ⟨1, 2⟩], [⟨2, 1⟩], [⟨0, 2⟩, ⟨2, 2⟩, ⟨1, 2⟩, ⟨2, 1⟩, ⟨1, 1⟩],
      [⟨1, 2⟩, ⟨2, 2⟩, ⟨0, 2⟩]] }

/-- The board `mergeScenario` after `Put` of White on the occupied cell (0,0): the cell is
overwritten, the key (0,0) now maps to a fresh White group. -/
def overwriteScenario : Board :=
  { Size := 3
    Points := [[.White, .Black, .Empty], [.Empty, .Empty, .Empty], [.Empty, .Empty, .Empty]]
    Groups := [(⟨0, 0⟩, ⟨.White, ⟨0, 0⟩, some 2⟩)]
    OfGroup := [(⟨0, 0⟩, ⟨0, 0⟩), (⟨1, 0⟩, ⟨0, 0⟩)]
    Sets := [[⟨1, 0⟩, ⟨0, 0⟩], [⟨1, 0⟩], [⟨0, 0⟩]] }

/-- The moves of `overwriteBase`. -/
def overwriteMoves : List (Stone × Location) :=
  [(.Black, ⟨1, 1⟩), (.Black, ⟨2, 1⟩), (.White, ⟨0, 1⟩)]

/-- Size 3, after Black at (1,1), (2,1) and White at (0,1): the Black group is anchored
(1,1). -/
def overwriteBase : Board :=
  { Size := 3
    Points := [[.Empty, .Empty, .Empty], [.White, .Black, .Black], [.Empty, .Empty, .Empty]]
    Groups := [(⟨0, 1⟩, ⟨.White, ⟨0, 1⟩, some 2⟩), (⟨1, 1⟩, ⟨.Black, ⟨1, 1⟩, some 0⟩)]
    OfGroup := [(⟨0, 1⟩, ⟨0, 1⟩), (⟨2, 1⟩, ⟨1, 1⟩), (⟨1, 1⟩, ⟨1, 1⟩)]
    Sets := [[⟨2, 1⟩, ⟨1, 1⟩], [⟨2, 1⟩], [⟨0, 1⟩]] }

/-- The board `overwriteBase` after `PutAndMerge` of White on the occupied cell (1,1): the
new White group is merged into the one anchored (0,1) and the key (1,1) is deleted, while
`OfGroup` of the Black stone at (2,1) is still (1,1). -/
def overwriteMerged : Board :=
  { Size := 3
    Points := [[.Empty, .Empty, .Empty], [.White, .White, .Black], [.Empty, .Empty, .Empty]]
    Groups := [(⟨0, 1⟩, ⟨.White, ⟨0, 1⟩, some 2⟩)]
    OfGroup := [(⟨1, 1⟩, ⟨0, 1⟩), (⟨0, 1⟩, ⟨0, 1⟩), (⟨2, 1⟩, ⟨1, 1⟩)]
    Sets := [[⟨2, 1⟩, ⟨1, 1⟩], [⟨2, 1⟩], [⟨1, 1⟩, ⟨0, 1⟩], [⟨1, 1⟩]] }

/-- The stones of `foobar`, in the order of its calls of `Put`. -/
def foobarMoves : List (Stone × Location) :=
  [(.Black, ⟨0, 0⟩), (.Black, ⟨0, 1⟩), (.White, ⟨5, 5⟩), (.White, ⟨6, 5⟩), (.White, ⟨5, 6⟩),
    (.White, ⟨7, 5⟩), (.White, ⟨7, 7⟩)]

/-- The board of `foobar` after its loop over `AllLocations`: three groups. -/
def foobarMerged : Board :=
  { Size := 9
    Points := [[.Black, .Empty, .Empty, .Empty, .Empty, .Empty, .Empty, .Empty, .Empty],
      [.Black, .Empty, .Empty, .Empty, .Empty, .Empty, .Empty, .Empty, .Empty],
      [.Empty, .Empty, .Empty, .Empty, .Empty, .Empty, .Empty, .Empty, .Empty],
      [.Empty, .Empty, .Empty, .Empty, .Empty, .Empty, .Empty, .Empty, .Empty],
      [.Empty, .Empty, .Empty, .Empty, .Empty, .Empty, .Empty, .Empty, .Empty],
      [.Empty, .Empty, .Empty, .Empty, .Empty, .White, .White, .White, .Empty],
      [.Empty, .Empty, .Empty, .Empty, .Empty, .White, .Empty, .Empty, .Empty],
      [.Empty, .Empty, .Empty, .Empty, .Empty, .Empty, .Empty, .White, .Empty],
      [.Empty, .Empty, .Empty, .Empty, .Empty, .Empty, .Empty, .Empty, .Empty]]
    Groups := [(⟨7, 7⟩, ⟨.White, ⟨7, 7⟩, some 6⟩), (⟨5, 5⟩, ⟨.White, ⟨5, 5⟩, some 2⟩),
      (⟨0, 0⟩, ⟨.Black, ⟨0, 0⟩, some 0⟩)]
    OfGroup := [(⟨7, 5⟩, ⟨5, 5⟩), (⟨5, 6⟩, ⟨5, 5⟩), (⟨6, 5⟩, ⟨5, 5⟩), (⟨0, 1⟩, ⟨0, 0⟩),
      (⟨7, 7⟩, ⟨7, 7⟩), (⟨5, 5⟩, ⟨5, 5⟩), (⟨0, 0⟩, ⟨0, 0⟩)]
    Sets := [[⟨0, 1⟩, ⟨0, 0⟩], [⟨0, 1⟩], [⟨7, 5⟩, ⟨5, 6⟩, ⟨6, 5⟩, ⟨5, 5⟩], [⟨6, 5⟩], [⟨5, 6⟩],
      [⟨7, 5⟩], [⟨7, 7⟩]] }

/-- Every cell that holds the stone `s` is owned by a key of the registry whose group is
anchored at the key and whose member set, a set of the store, contains the cell. -/
def Board.OwnedStones (s : Stone) (b : Board) : Prop :=
  ∀ x, b.StoneAt x = some s →
    ∃ k g r, b.own x = some k ∧ b.grp k = some g ∧ g.TopLeft = k ∧ g.Members = some r ∧
      r < b.Sets.length ∧ x ∈ b.setAt r

/-- The lookups `Groups[OfGroup[loc]]` and `Groups[OfGroup[n]]` of the loop of
`MergeNeighborsAt` at `loc` find their keys, on the board `b` and for the neighbours still to
come: for the next neighbour `n`, if it holds the stone of `loc`, `OfGroup` has an entry for
`loc` and one for `n` and both entries are keys of `Groups`; and so on, on the board that
the merge returns, for the rest of the neighbours. -/
def Board.LookupsHit (thisStone : Stone) (loc : Location) : Board → List Location → Prop
  | _, [] => True
  | b, n :: ns =>
    (b.StoneAt n = some thisStone →
        (∃ k g, b.own loc = some k ∧ b.grp k = some g) ∧
          ∃ k g, b.own n = some k ∧ b.grp k = some g) ∧
      ∀ b', Board.mergeNeighbor thisStone loc b n = some b' →
        Board.LookupsHit thisStone loc b' ns

/-! ## Maps, sets and the grid -/

theorem mapGet_mapDel {κ α : Type} [DecidableEq κ] (m : List (κ × α)) (k key : κ) :
    mapGet (mapDel m k) key = if key = k then none else mapGet m key := by
  induction m with
  | nil => simp [mapDel, mapGet]
  | cons p m ih =>
    obtain ⟨k0, v0⟩ := p
    unfold mapDel at ih ⊢
    by_cases h0 : k0 = k
    · subst h0
      simp only [List.filter, ne_eq, not_true_eq_false, decide_False]
      rw [ih]
      by_cases h1 : key = k0
      · simp [h1]
      · have : ¬ k0 = key := fun h => h1 h.symm
        simp [h1, mapGet, this]
    · simp only [List.filter, ne_eq, h0, not_false_eq_true, decide_True, mapGet]
      rw [ih]
      by_cases h1 : k0 = key
      · subst h1
        simp [h0]
      · simp [h1]

theorem mapGet_mapSet {κ α : Type} [DecidableEq κ] (m : List (κ × α)) (k key : κ) (v : α) :
    mapGet (mapSet m k v) key = if key = k then some v else mapGet m key := by
  unfold mapSet
  by_cases h : k = key
  · subst h
    simp [mapGet]
  · have h2 : ¬ key = k := fun e => h e.symm
    simp [mapGet, h, h2, mapGet_mapDel]

theorem mapGet_of_mem {κ α : Type} [DecidableEq κ] (m : List (κ × α)) (k : κ) (v : α)
    (hnd : (m.map Prod.fst).Nodup) (h : (k, v) ∈ m) : mapGet m k = some v := by
  induction m with
  | nil => simp at h
  | cons p m ih =>
    obtain ⟨k0, v0⟩ := p
    simp only [List.map_cons, List.nodup_cons, List.mem_map, not_exists, not_and] at hnd
    rcases List.mem_cons.mp h with h1 | h1
    · injection h1 with h2 h3
      subst h2 h3
      simp [mapGet]
    · have hne : ¬ k0 = k := by
        intro e
        subst e
        exact hnd.1 (k0, v) h1 rfl
      simp [mapGet, hne, ih hnd.2 h1]

theorem mem_of_mapGet {κ α : Type} [DecidableEq κ] (m : List (κ × α)) (k : κ) (v : α)
    (h : mapGet m k = some v) : (k, v) ∈ m := by
  induction m with
  | nil => simp [mapGet] at h
  | cons p m ih =>
    obtain ⟨k0, v0⟩ := p
    by_cases h0 : k0 = k
    · subst h0
      simp [mapGet] at h
      simp [h]
    · simp [mapGet, h0] at h
      exact List.mem_cons_of_mem _ (ih h)

theorem mapDel_keys_nodup {κ α : Type} [DecidableEq κ] (m : List (κ × α)) (k : κ)
    (hnd : (m.map Prod.fst).Nodup) : ((mapDel m k).map Prod.fst).Nodup := by
  unfold mapDel
  exact (List.Nodup.sublist (List.Sublist.map _ (List.filter_sublist m)) hnd)

theorem mapDel_keys_not_mem {κ α : Type} [DecidableEq κ] (m : List (κ × α)) (k : κ) :
    k ∉ (mapDel m k).map Prod.fst := by
  unfold mapDel
  simp [List.mem_map, List.mem_filter]

theorem mapSet_keys_nodup {κ α : Type} [DecidableEq κ] (m : List (κ × α)) (k : κ) (v : α)
    (hnd : (m.map Prod.fst).Nodup) : ((mapSet m k v).map Prod.fst).Nodup := by
  unfold mapSet
  simp only [List.map_cons, List.nodup_cons]
  exact ⟨mapDel_keys_not_mem m k, mapDel_keys_nodup m k hnd⟩

theorem mem_setAdd (s : List Location) (loc x : Location) :
    x ∈ setAdd s loc ↔ x = loc ∨ x ∈ s := by
  unfold setAdd
  by_cases h : loc ∈ s
  · simp only [h, if_true]
    constructor
    · exact Or.inr
    · rintro (rfl | h1)
      · exact h
      · exact h1
  · simp [h]

theorem getPoint_isSome {pts : List (List Stone)} {n : Nat} (hd : Dims pts n) (loc : Location) :
    (∃ s, getPoint pts loc = some s) ↔ InGrid n loc := by
  unfold getPoint InGrid
  constructor
  · rintro ⟨s, hs⟩
    split at hs
    · rename_i h
      split at hs
      · rename_i row hrow
        have hy : loc.Y.toNat < pts.length := (List.getElem?_eq_some.mp hrow).1
        have hrm : row ∈ pts := List.getElem?_mem hrow
        have hx : loc.X.toNat < row.length := (List.getElem?_eq_some.mp hs).1
        rw [hd.2 row hrm] at hx
        rw [hd.1] at hy
        omega
      · exact absurd hs (by simp)
    · exact absurd hs (by simp)
  · rintro ⟨h1, h2, h3, h4⟩
    have hy : loc.Y.toNat < pts.length := by rw [hd.1]; omega
    have hrow : pts[loc.Y.toNat]? = some pts[loc.Y.toNat] := List.getElem?_eq_getElem hy
    have hrm : pts[loc.Y.toNat] ∈ pts := List.getElem_mem hy
    have hx : loc.X.toNat < (pts[loc.Y.toNat]).length := by rw [hd.2 _ hrm]; omega
    refine ⟨(pts[loc.Y.toNat])[loc.X.toNat], ?_⟩
    simp only [h1, h3, and_self, if_true, hrow]
    exact List.getElem?_eq_getElem hx

theorem setPoint_spec {pts : List (List Stone)} {n : Nat} (hd : Dims pts n) (loc : Location)
    (s : Stone) (hv : InGrid n loc) :
    ∃ pts', setPoint pts loc s = some pts' ∧ Dims pts' n ∧
      ∀ x, getPoint pts' x = if x = loc then some s else getPoint pts x := by
  obtain ⟨h1, h2, h3, h4⟩ := hv
  have hy : loc.Y.toNat < pts.length := by rw [hd.1]; omega
  have hrow : pts[loc.Y.toNat]? = some pts[loc.Y.toNat] := List.getElem?_eq_getElem hy
  have hrm : pts[loc.Y.toNat] ∈ pts := List.getElem_mem hy
  have hx : loc.X.toNat < (pts[loc.Y.toNat]).length := by rw [hd.2 _ hrm]; omega
  refine ⟨pts.set loc.Y.toNat ((pts[loc.Y.toNat]).set loc.X.toNat s), ?_, ?_, ?_⟩
  · simp [setPoint, h1, h3, hrow, hx]
  · refine ⟨by simp [hd.1], ?_⟩
    intro row hr
    rcases List.mem_or_eq_of_mem_set hr with h | h
    · exact hd.2 row h
    · rw [h, List.length_set]
      exact hd.2 _ hrm
  · intro x
    unfold getPoint
    by_cases hx0 : 0 ≤ x.X ∧ 0 ≤ x.Y
    · simp only [hx0, and_self, if_true]
      by_cases hyy : x.Y.toNat = loc.Y.toNat
      · rw [hyy, List.getElem?_set_self hy, hrow]
        simp only
        by_cases hxx : x.X.toNat = loc.X.toNat
        · have hxl : x = loc := by
            cases x; cases loc
            simp only [Location.mk.injEq]
            simp only at hxx hyy hx0 h1 h3
            omega
          simp [hxl, List.getElem?_set_self hx]
        · have hxl : ¬ x = loc := by
            rintro rfl
            exact hxx rfl
          rw [List.getElem?_set_ne (Ne.symm hxx)]
          simp [hxl]
      · have hxl : ¬ x = loc := by
          rintro rfl
          exact hyy rfl
        rw [List.getElem?_set_ne (Ne.symm hyy)]
        simp [hxl]
    · have hxl : ¬ x = loc := by
        rintro rfl
        exact hx0 ⟨h1, h3⟩
      simp [hx0, hxl]

theorem setPoint_none {pts : List (List Stone)} {n : Nat} (hd : Dims pts n) (loc : Location)
    (s : Stone) (hv : ¬ InGrid n loc) : setPoint pts loc s = none := by
  unfold setPoint
  split
  · rename_i h
    split
    · rename_i row hrow
      have hy : loc.Y.toNat < pts.length := (List.getElem?_eq_some.mp hrow).1
      have hrm : row ∈ pts := List.getElem?_mem hrow
      split
      · rename_i hx
        rw [hd.2 row hrm] at hx
        rw [hd.1] at hy
        exact absurd ⟨h.1, by omega, h.2, by omega⟩ hv
      · rfl
    · rfl
  · rfl

/-! ## The loop of `Merge` -/

theorem foldlM_mergeStep (g1 : Group) (r1 : Nat) (h1 : g1.Members = some r1)
    (L : List Location) (b : Board) :
    L.foldlM (Board.mergeStep g1) b = some
      { b with
        OfGroup := L.foldl (fun m loc => mapSet m loc g1.TopLeft) b.OfGroup
        Sets := L.foldl (fun S loc => S.set r1 (setAdd (S.getD r1 []) loc)) b.Sets } := by
  induction L generalizing b with
  | nil => rfl
  | cons x L ih =>
    simp only [List.foldlM_cons, List.foldl_cons, Board.mergeStep, Board.addMember, h1,
      Option.map_some', Option.bind_eq_bind, Option.some_bind]
    rw [ih]

theorem mapGet_foldl_mapSet {κ α : Type} [DecidableEq κ] (L : List κ) (v : α)
    (m : List (κ × α)) (x : κ) :
    mapGet (L.foldl (fun m loc => mapSet m loc v) m) x = if x ∈ L then some v else mapGet m x := by
  induction L generalizing m with
  | nil => simp
  | cons y L ih =>
    simp only [List.foldl_cons, ih, mapGet_mapSet, List.mem_cons]
    by_cases h1 : x ∈ L
    · simp [h1]
    · by_cases h2 : x = y
      · simp [h2]
      · simp [h1, h2]

theorem length_foldl_setAdd (r1 : Nat) (L : List Location) (S : List (List Location)) :
    (L.foldl (fun S loc => S.set r1 (setAdd (S.getD r1 []) loc)) S).length = S.length := by
  induction L generalizing S with
  | nil => rfl
  | cons y L ih => rw [List.foldl_cons, ih, List.length_set]

theorem getD_foldl_setAdd_ne (r1 r : Nat) (hr : r ≠ r1) (L : List Location)
    (S : List (List Location)) :
    (L.foldl (fun S loc => S.set r1 (setAdd (S.getD r1 []) loc)) S).getD r [] = S.getD r [] := by
  induction L generalizing S with
  | nil => rfl
  | cons y L ih =>
    rw [List.foldl_cons, ih]
    simp only [List.getD_eq_getElem?_getD]
    rw [List.getElem?_set_ne (Ne.symm hr)]

theorem mem_getD_foldl_setAdd (r1 : Nat) (L : List Location) (S : List (List Location))
    (h : r1 < S.length) (x : Location) :
    x ∈ (L.foldl (fun S loc => S.set r1 (setAdd (S.getD r1 []) loc)) S).getD r1 [] ↔
      x ∈ S.getD r1 [] ∨ x ∈ L := by
  induction L generalizing S with
  | nil => simp
  | cons y L ih =>
    rw [List.foldl_cons, ih _ (by rw [List.length_set]; exact h)]
    have : (S.set r1 (setAdd (S.getD r1 []) y)).getD r1 [] = setAdd (S.getD r1 []) y := by
      simp only [List.getD_eq_getElem?_getD]
      rw [List.getElem?_set_self h]
      rfl
    rw [this, mem_setAdd, List.mem_cons]
    tauto

/-! ## The effect of a merge on a well-formed board -/

theorem members_eq (b : Board) (g : Group) (r : Nat) (h : g.Members = some r) :
    b.members g = b.setAt r := by
  simp [Board.members, Board.setAt, h]

theorem mergeInto_effect (b : Board) (gs gd : Group) (rs rd : Nat)
    (hs : gs.Members = some rs) (hd : gd.Members = some rd) (hlen : rs < b.Sets.length) :
    ∃ b', b.mergeInto gs gd = some b' ∧ MergeEffect b b' gs.TopLeft gd.TopLeft rs rd := by
  unfold Board.mergeInto
  rw [foldlM_mergeStep gs rs hs, members_eq b gd rd hd]
  refine ⟨_, rfl, ?_⟩
  constructor
  · rfl
  · rfl
  · exact length_foldl_setAdd rs _ _
  · intro k
    simp only [Board.grp]
    exact mapGet_mapDel _ _ _
  · intro x
    simp only [Board.own]
    exact mapGet_foldl_mapSet _ _ _ _
  · intro x
    simp only [Board.setAt]
    exact mem_getD_foldl_setAdd rs _ _ hlen x
  · intro r hr
    simp only [Board.setAt]
    exact getD_foldl_setAdd_ne rs r hr _ _
  · intro h
    exact mapDel_keys_nodup _ _ h

theorem stoneAt_of_points {b b' : Board} (h : b'.Points = b.Points) (x : Location) :
    b'.StoneAt x = b.StoneAt x := by
  simp [Board.StoneAt, h]

theorem occupied_of_points {b b' : Board} (h : b'.Points = b.Points) (x : Location) :
    b'.Occupied x ↔ b.Occupied x := by
  simp [Board.Occupied, stoneAt_of_points h]

theorem Board.WF.ref_inj {b : Board} (w : b.WF) {k k' : Location} {g g' : Group} {r : Nat}
    (h : b.grp k = some g) (h' : b.grp k' = some g') (hr : g.Members = some r)
    (hr' : g'.Members = some r) : k = k' := by
  obtain ⟨_, r0, hr0, _, hk⟩ := w.group k g h
  rw [hr] at hr0
  injection hr0 with hr0
  subst hr0
  have h1 := (w.member k g r h hr k hk).1
  have h2 := (w.member k' g' r h' hr' k hk).1
  rw [h1] at h2
  injection h2

theorem Board.WF.mem_iff_own {b : Board} (w : b.WF) {k x : Location} {g : Group} {r : Nat}
    (h : b.grp k = some g) (hr : g.Members = some r) (hx : b.Occupied x) :
    x ∈ b.setAt r ↔ b.own x = some k := by
  constructor
  · intro hm
    exact (w.member k g r h hr x hm).1
  · intro ho
    obtain ⟨k', g', r', h1, h2, h3, h4⟩ := w.owner x hx
    rw [ho] at h1
    injection h1 with h1
    subst h1
    rw [h] at h2
    injection h2 with h2
    subst h2
    rw [hr] at h3
    injection h3 with h3
    subst h3
    exact h4

theorem Adj.swap {a n : Location} (h : Adj a n) : Adj n a := by
  unfold Adj at h ⊢
  rcases h with h | h | h | h <;> subst h <;> cases a <;> simp

theorem Linked.mono {ms ms' : List Location} (h : ∀ x, x ∈ ms → x ∈ ms') {a c : Location}
    (hl : Linked ms a c) : Linked ms' a c := by
  unfold Linked at hl ⊢
  exact Relation.ReflTransGen.mono (fun x y hxy => ⟨h x hxy.1, h y hxy.2.1, hxy.2.2⟩) hl

theorem Linked.append {ms : List Location} {a c d : Location} (h1 : Linked ms a c)
    (h2 : Linked ms c d) : Linked ms a d :=
  Relation.ReflTransGen.trans h1 h2

theorem Linked.single {ms : List Location} {a c : Location} (ha : a ∈ ms) (hc : c ∈ ms)
    (h : Adj a c) : Linked ms a c :=
  Relation.ReflTransGen.single ⟨ha, hc, h⟩

theorem MergeEffect.live {b b' : Board} {ks kd : Location} {rs rd : Nat} {gs : Group}
    (e : MergeEffect b b' ks kd rs rd) (w : b.WF)
    (hgs : b.grp ks = some gs) (hrs : gs.Members = some rs)
    {k : Location} {g : Group} {r : Nat} (h : b'.grp k = some g) (hr : g.Members = some r) :
    k ≠ kd ∧ b.grp k = some g ∧ (r = rs ↔ k = ks) := by
  have h1 := e.grp k
  by_cases hk : k = kd
  · rw [if_pos hk, h] at h1
    exact absurd h1 (by simp)
  · rw [if_neg hk, h] at h1
    refine ⟨hk, h1.symm, ?_, ?_⟩
    · intro hrr
      subst hrr
      exact w.ref_inj h1.symm hgs hr hrs
    · intro hkk
      subst hkk
      rw [hgs] at h1
      injection h1 with h1
      subst h1
      rw [hrs] at hr
      injection hr with hr
      exact hr.symm

theorem MergeEffect.merge_wf {b b' : Board} {ks kd : Location} {rs rd : Nat} {gs gd : Group}
    (e : MergeEffect b b' ks kd rs rd) (w : b.WF)
    (hgs : b.grp ks = some gs) (hrs : gs.Members = some rs)
    (hgd : b.grp kd = some gd) (hrd : gd.Members = some rd) (hne : ks ≠ kd)
    {a n : Location} (ha : a ∈ b.setAt rs) (hn : n ∈ b.setAt rd) (hadj : Adj a n)
    (hst : b.StoneAt a = b.StoneAt n) : b'.WF := by
  have hrne : rs ≠ rd := by
    intro h
    subst h
    exact hne (w.ref_inj hgs hgd hrs hrd)
  have hS := stoneAt_of_points e.points
  have hO := occupied_of_points e.points
  have hnotd : ∀ x k, b.own x = some k → k ≠ kd → x ∉ b.setAt rd := by
    intro x k hx hk hm
    have := (w.member kd gd rd hgd hrd x hm).1
    rw [hx] at this
    injection this with this
    exact hk this
  constructor
  · rw [e.size]; exact w.size_nonneg
  · rw [e.size, e.points]; exact w.dims
  · exact e.keys w.keys
  · intro k g h
    obtain ⟨r0, hr0⟩ : ∃ r, g.Members = some r := by
      have h1 := e.grp k
      by_cases hk : k = kd
      · rw [if_pos hk, h] at h1
        exact absurd h1 (by simp)
      · rw [if_neg hk, h] at h1
        obtain ⟨_, r, hr, _⟩ := w.group k g h1.symm
        exact ⟨r, hr⟩
    obtain ⟨hk, hg, hiff⟩ := e.live w hgs hrs h hr0
    obtain ⟨ht, r, hr, hl, hm⟩ := w.group k g hg
    refine ⟨ht, r, hr, by rw [e.slen]; exact hl, ?_⟩
    by_cases hrr : r = rs
    · subst hrr
      exact (e.surv k).2 (Or.inl hm)
    · rw [e.other r hrr]
      exact hm
  · intro k g r h hr m hm
    obtain ⟨hk, hg, hiff⟩ := e.live w hgs hrs h hr
    rw [hO, e.own]
    by_cases hrr : r = rs
    · subst hrr
      have hkk := hiff.1 rfl
      subst hkk
      rcases (e.surv m).1 hm with h1 | h1
      · have h2 := w.member k g r hg hr m h1
        refine ⟨?_, h2.2⟩
        split
        · rfl
        · exact h2.1
      · have h2 := w.member kd gd rd hgd hrd m h1
        refine ⟨?_, h2.2⟩
        rw [if_pos h1]
    · rw [e.other r hrr] at hm
      have h2 := w.member k g r hg hr m hm
      refine ⟨?_, h2.2⟩
      rw [if_neg (hnotd m k h2.1 hk)]
      exact h2.1
  · intro x hx
    rw [hO] at hx
    obtain ⟨k, g, r, h1, h2, h3, h4⟩ := w.owner x hx
    by_cases hk : k = kd
    · subst hk
      rw [hgd] at h2
      injection h2 with h2
      subst h2
      rw [hrd] at h3
      injection h3 with h3
      subst h3
      refine ⟨ks, gs, rs, ?_, ?_, hrs, (e.surv x).2 (Or.inr h4)⟩
      · rw [e.own, if_pos h4]
      · rw [e.grp, if_neg hne]
        exact hgs
    · refine ⟨k, g, r, ?_, ?_, h3, ?_⟩
      · rw [e.own, if_neg (hnotd x k h1 hk)]
        exact h1
      · rw [e.grp, if_neg hk]
        exact h2
      · by_cases hrr : r = rs
        · subst hrr
          exact (e.surv x).2 (Or.inl h4)
        · rw [e.other r hrr]
          exact h4
  · intro k g r h hr m hm m' hm'
    obtain ⟨hk, hg, hiff⟩ := e.live w hgs hrs h hr
    rw [hS, hS]
    by_cases hrr : r = rs
    · subst hrr
      have hkk := hiff.1 rfl
      subst hkk
      rw [hgs] at hg
      injection hg with hg
      subst hg
      have key : ∀ y, y ∈ b'.setAt r → b.StoneAt y = b.StoneAt a := by
        intro y hy
        rcases (e.surv y).1 hy with h1 | h1
        · exact w.uniform k gs r hgs hrs y h1 a ha
        · rw [hst]
          exact w.uniform kd gd rd hgd hrd y h1 n hn
      rw [key m hm, key m' hm']
    · rw [e.other r hrr] at hm hm'
      exact w.uniform k g r hg hr m hm m' hm'
  · intro k g r h hr m hm m' hm'
    obtain ⟨hk, hg, hiff⟩ := e.live w hgs hrs h hr
    by_cases hrr : r = rs
    · subst hrr
      have hkk := hiff.1 rfl
      subst hkk
      rw [hgs] at hg
      injection hg with hg
      subst hg
      have hsub1 : ∀ x, x ∈ b.setAt r → x ∈ b'.setAt r := fun x hx => (e.surv x).2 (Or.inl hx)
      have hsub2 : ∀ x, x ∈ b.setAt rd → x ∈ b'.setAt r := fun x hx => (e.surv x).2 (Or.inr hx)
      have han : Linked (b'.setAt r) a n := Linked.single (hsub1 a ha) (hsub2 n hn) hadj
      have hna : Linked (b'.setAt r) n a :=
        Linked.single (hsub2 n hn) (hsub1 a ha) hadj.swap
      have toA : ∀ y, y ∈ b'.setAt r → Linked (b'.setAt r) y a := by
        intro y hy
        rcases (e.surv y).1 hy with h1 | h1
        · exact Linked.mono hsub1 (w.linked k gs r hgs hrs y h1 a ha)
        · exact (Linked.mono hsub2 (w.linked kd gd rd hgd hrd y h1 n hn)).append hna
      have fromA : ∀ y, y ∈ b'.setAt r → Linked (b'.setAt r) a y := by
        intro y hy
        rcases (e.surv y).1 hy with h1 | h1
        · exact Linked.mono hsub1 (w.linked k gs r hgs hrs a ha y h1)
        · exact han.append (Linked.mono hsub2 (w.linked kd gd rd hgd hrd n hn y h1))
      exact (toA m hm).append (fromA m' hm')
    · rw [e.other r hrr] at hm hm' ⊢
      exact w.linked k g r hg hr m hm m' hm'
  · intro x k hx hk
    rw [hO]
    rw [e.own] at hx
    by_cases hm : x ∈ b.setAt rd
    · exact (w.member kd gd rd hgd hrd x hm).2
    · rw [if_neg hm] at hx
      exact w.stale x k hx hk

theorem MergeEffect.mergedBy {b b' : Board} {ks kd : Location} {rs rd : Nat} {gd : Group}
    (e : MergeEffect b b' ks kd rs rd) (w : b.WF)
    (hgd : b.grp kd = some gd) (hrd : gd.Members = some rd)
    {s : Stone} (hcol : ∀ x ∈ b.setAt rd, b.StoneAt x = some s) : MergedBy s b b' := by
  constructor
  · exact e.size
  · exact e.points
  · intro k g h
    have h1 := e.grp k
    by_cases hk : k = kd
    · rw [if_pos hk, h] at h1
      exact absurd h1 (by simp)
    · rw [if_neg hk, h] at h1
      exact h1.symm
  · intro k g h
    by_cases hk : k = kd
    · subst hk
      right
      rw [hgd] at h
      injection h with h
      subst h
      refine ⟨by rw [e.grp, if_pos rfl], ?_⟩
      rw [members_eq b gd rd hrd]
      exact hcol
    · left
      rw [e.grp, if_neg hk]
      exact h
  · intro r x hx
    by_cases hrr : r = rs
    · subst hrr
      exact (e.surv x).2 (Or.inl hx)
    · rw [e.other r hrr]
      exact hx
  · intro r x hx
    by_cases hrr : r = rs
    · subst hrr
      rcases (e.surv x).1 hx with h1 | h1
      · exact Or.inl h1
      · exact Or.inr (hcol x h1)
    · rw [e.other r hrr] at hx
      exact Or.inl hx
  · intro a n ha hn h
    have key : ∀ x, b.Occupied x → b'.own x = if b.own x = some kd then some ks else b.own x := by
      intro x hx
      rw [e.own]
      have := w.mem_iff_own hgd hrd hx
      by_cases hm : x ∈ b.setAt rd
      · rw [if_pos hm, if_pos (this.1 hm)]
      · rw [if_neg hm, if_neg (fun h => hm (this.2 h))]
    rw [key a ha, key n hn, h]

theorem MergedBy.id_merge (s : Stone) (b : Board) : MergedBy s b b := by
  constructor
  · rfl
  · rfl
  · exact fun k g h => h
  · exact fun k g h => Or.inl h
  · exact fun r x h => h
  · exact fun r x h => Or.inl h
  · exact fun a n _ _ h => h

theorem MergedBy.comp {s : Stone} {b b1 b2 : Board} (h1 : MergedBy s b b1)
    (h2 : MergedBy s b1 b2) : MergedBy s b b2 := by
  have hS := stoneAt_of_points h1.points
  have hO := occupied_of_points h1.points
  constructor
  · rw [h2.size, h1.size]
  · rw [h2.points, h1.points]
  · exact fun k g h => h1.grp_sub k g (h2.grp_sub k g h)
  · intro k g h
    rcases h1.grp_del k g h with h3 | ⟨h3, h4⟩
    · rcases h2.grp_del k g h3 with h5 | ⟨h5, h6⟩
      · exact Or.inl h5
      · right
        refine ⟨h5, ?_⟩
        intro m hm
        cases hr : g.Members with
        | none => simp [Board.members, hr] at hm
        | some r =>
          rw [members_eq b g r hr] at hm
          have := h6 m (by rw [members_eq b1 g r hr]; exact h1.set_mono r m hm)
          rw [← hS]
          exact this
    · right
      refine ⟨?_, h4⟩
      cases h5 : b2.grp k with
      | none => rfl
      | some g' =>
        have := h2.grp_sub k g' h5
        rw [h3] at this
        exact absurd this (by simp)
  · exact fun r x h => h2.set_mono r x (h1.set_mono r x h)
  · intro r x h
    rcases h2.set_grow r x h with h3 | h3
    · exact h1.set_grow r x h3
    · right
      rw [← hS]
      exact h3
  · intro a n ha hn h
    exact h2.own_eq a n ((hO a).2 ha) ((hO n).2 hn) (h1.own_eq a n ha hn h)

/-! ## `MergeNeighborsAt` on a well-formed board -/

theorem isValid_iff (b : Board) (h : 0 ≤ b.Size) (x : Location) :
    b.IsValid x = true ↔ InGrid b.Size.toNat x := by
  unfold Board.IsValid InGrid
  simp only [Bool.and_eq_true, decide_eq_true_eq, ge_iff_le]
  have : ((b.Size.toNat : Nat) : Int) = b.Size := Int.toNat_of_nonneg h
  rw [this]
  tauto

theorem Board.WF.stoneAt_isSome {b : Board} (w : b.WF) (x : Location) :
    (∃ s, b.StoneAt x = some s) ↔ b.IsValid x = true := by
  rw [isValid_iff b w.size_nonneg]
  exact getPoint_isSome w.dims x

theorem mem_neighborLocations (b : Board) (loc n : Location) :
    n ∈ b.NeighborLocations loc ↔ Adj loc n ∧ b.IsValid n = true := by
  unfold Board.NeighborLocations Adj
  simp only [List.mem_filter, List.mem_cons, List.mem_singleton, List.not_mem_nil, or_false]

theorem ownerAt_of_own {b : Board} {x k : Location} (h : b.own x = some k) : b.ownerAt x = k := by
  unfold Board.own at h
  simp [Board.ownerAt, h]

theorem groupAt_of_grp {b : Board} {k : Location} {g : Group} (h : b.grp k = some g) :
    b.groupAt k = g := by
  unfold Board.grp at h
  simp [Board.groupAt, h]

theorem Board.MaxPair.reverse {b : Board} {a n : Location} (h : b.MaxPair a n) : b.MaxPair n a := by
  intro s hs h1 h2 hadj
  exact (h s hs h2 h1 hadj.swap).symm

theorem MergedBy.maxPair {s : Stone} {b b' : Board} (m : MergedBy s b b') {a n : Location}
    (h : b.MaxPair a n) : b'.MaxPair a n := by
  intro t ht h1 h2 hadj
  rw [stoneAt_of_points m.points] at h1 h2
  exact m.own_eq a n ⟨t, h1, ht⟩ ⟨t, h2, ht⟩ (h t ht h1 h2 hadj)

theorem mergeNeighbor_spec {b : Board} (w : b.WF) {s : Stone} (hs : s ≠ Stone.Empty)
    {loc n : Location} (hloc : b.StoneAt loc = some s) (hadj : Adj loc n)
    (hv : b.IsValid n = true) :
    ∃ b', Board.mergeNeighbor s loc b n = some b' ∧ b'.WF ∧ MergedBy s b b' ∧
      (b.StoneAt n = some s → b'.own loc = b'.own n) ∧
      ((b.StoneAt n = some s → b.own loc = b.own n) → b' = b) := by
  obtain ⟨sn, hsn⟩ := (w.stoneAt_isSome n).2 hv
  have key : Board.mergeNeighbor s loc b n =
      if s = sn then b.Merge (b.groupAt (b.ownerAt loc)) (b.groupAt (b.ownerAt n))
      else some b := by
    unfold Board.mergeNeighbor
    rw [hsn]
    rfl
  rw [key]
  by_cases hc : s = sn
  · subst hc
    rw [if_pos rfl]
    obtain ⟨k1, g1, r1, o1, p1, q1, m1⟩ := w.owner loc ⟨s, hloc, hs⟩
    obtain ⟨k2, g2, r2, o2, p2, q2, m2⟩ := w.owner n ⟨s, hsn, hs⟩
    rw [ownerAt_of_own o1, ownerAt_of_own o2, groupAt_of_grp p1, groupAt_of_grp p2]
    have t1 := (w.group k1 g1 p1).1
    have t2 := (w.group k2 g2 p2).1
    have l1 : r1 < b.Sets.length := by
      obtain ⟨_, r, hr, hl, _⟩ := w.group k1 g1 p1
      rw [q1] at hr
      injection hr with hr
      subst hr
      exact hl
    have l2 : r2 < b.Sets.length := by
      obtain ⟨_, r, hr, hl, _⟩ := w.group k2 g2 p2
      rw [q2] at hr
      injection hr with hr
      subst hr
      exact hl
    unfold Board.Merge
    rw [t1, t2]
    by_cases hk : k1 = k2
    · rw [if_pos hk]
      refine ⟨b, rfl, w, MergedBy.id_merge s b, ?_, fun _ => rfl⟩
      intro _
      rw [o1, o2, hk]
    · rw [if_neg hk]
      have c1 : ∀ x ∈ b.setAt r1, b.StoneAt x = some s := by
        intro x hx
        rw [w.uniform k1 g1 r1 p1 q1 x hx loc m1]
        exact hloc
      have c2 : ∀ x ∈ b.setAt r2, b.StoneAt x = some s := by
        intro x hx
        rw [w.uniform k2 g2 r2 p2 q2 x hx n m2]
        exact hsn
      have n1 : loc ∉ b.setAt r2 := by
        intro hm
        have := (w.member k2 g2 r2 p2 q2 loc hm).1
        rw [o1] at this
        injection this with this
        exact hk this
      have n2 : n ∉ b.setAt r1 := by
        intro hm
        have := (w.member k1 g1 r1 p1 q1 n hm).1
        rw [o2] at this
        injection this with this
        exact hk this.symm
      have hfalse : ¬ (b.StoneAt n = some s → b.own loc = b.own n) := by
        intro h
        have := h hsn
        rw [o1, o2] at this
        injection this with this
        exact hk this
      by_cases hb : k2.IsBefore k1 = true
      · rw [if_pos hb]
        obtain ⟨b', hb', e⟩ := mergeInto_effect b g2 g1 r2 r1 q2 q1 l2
        rw [t1, t2] at e
        refine ⟨b', hb', ?_, e.mergedBy w p1 q1 c1, ?_, fun h => absurd h hfalse⟩
        · exact e.merge_wf w p2 q2 p1 q1 (Ne.symm hk) m2 m1 hadj.swap (by rw [hsn, hloc])
        · intro _
          rw [e.own, e.own, if_pos m1, if_neg n2, o2]
      · rw [if_neg hb]
        obtain ⟨b', hb', e⟩ := mergeInto_effect b g1 g2 r1 r2 q1 q2 l1
        rw [t1, t2] at e
        refine ⟨b', hb', ?_, e.mergedBy w p2 q2 c2, ?_, fun h => absurd h hfalse⟩
        · exact e.merge_wf w p1 q1 p2 q2 hk m1 m2 hadj (by rw [hsn, hloc])
        · intro _
          rw [e.own, e.own, if_neg n1, if_pos m2, o1]
  · rw [if_neg hc]
    refine ⟨b, rfl, w, MergedBy.id_merge s b, ?_, fun _ => rfl⟩
    intro h
    rw [hsn] at h
    injection h with h
    exact absurd h.symm hc

theorem mergeNeighbor_fold {s : Stone} (hs : s ≠ Stone.Empty) {loc : Location}
    (ns : List Location) :
    ∀ b : Board, b.WF → b.StoneAt loc = some s →
      (∀ n ∈ ns, Adj loc n ∧ b.IsValid n = true) →
      ∃ b', ns.foldlM (Board.mergeNeighbor s loc) b = some b' ∧ b'.WF ∧ MergedBy s b b' ∧
        (∀ n ∈ ns, b.StoneAt n = some s → b'.own loc = b'.own n) ∧
        ((∀ n ∈ ns, b.StoneAt n = some s → b.own loc = b.own n) → b' = b) := by
  induction ns with
  | nil =>
    intro b w _ _
    exact ⟨b, rfl, w, MergedBy.id_merge s b, by simp, fun _ => rfl⟩
  | cons n ns ih =>
    intro b w hloc hns
    obtain ⟨hadj, hv⟩ := hns n (List.mem_cons_self n ns)
    obtain ⟨b1, e1, w1, m1, o1, u1⟩ := mergeNeighbor_spec w hs hloc hadj hv
    have hS := stoneAt_of_points m1.points
    have hv1 : ∀ x, b1.IsValid x = b.IsValid x := by
      intro x
      simp [Board.IsValid, m1.size]
    obtain ⟨b2, e2, w2, m2, o2, u2⟩ := ih b1 w1 (by rw [hS]; exact hloc)
      (fun x hx => ⟨(hns x (List.mem_cons_of_mem n hx)).1, by
        rw [hv1]; exact (hns x (List.mem_cons_of_mem n hx)).2⟩)
    refine ⟨b2, ?_, w2, m1.comp m2, ?_, ?_⟩
    · simp only [List.foldlM_cons, e1, Option.bind_eq_bind, Option.some_bind]
      exact e2
    · intro x hx hxs
      rcases List.mem_cons.mp hx with h | h
      · subst h
        exact m2.own_eq loc x ⟨s, by rw [hS]; exact hloc, hs⟩ ⟨s, by rw [hS]; exact hxs, hs⟩
          (o1 hxs)
      · exact o2 x h (by rw [hS]; exact hxs)
    · intro h
      have hb1 : b1 = b := u1 (h n (List.mem_cons_self n ns))
      subst hb1
      exact u2 (fun x hx => h x (List.mem_cons_of_mem n hx))

theorem MergeNeighborsAt_spec {b : Board} (w : b.WF) {loc : Location}
    (hv : b.IsValid loc = true) :
    ∃ b', b.MergeNeighborsAt loc = some b' ∧ b'.WF ∧
      (∀ s, b.StoneAt loc = some s → MergedBy s b b') ∧
      (∀ n, b'.MaxPair loc n) ∧ ((∀ n, b.MaxPair loc n) → b' = b) := by
  obtain ⟨s, hloc⟩ := (w.stoneAt_isSome loc).2 hv
  have key : b.MergeNeighborsAt loc =
      if s = Stone.Empty then some b
      else (b.NeighborLocations loc).foldlM (Board.mergeNeighbor s loc) b := by
    unfold Board.MergeNeighborsAt
    rw [hloc]
    rfl
  rw [key]
  by_cases hs : s = Stone.Empty
  · rw [if_pos hs]
    refine ⟨b, rfl, w, ?_, ?_, fun _ => rfl⟩
    · intro t _
      exact MergedBy.id_merge t b
    · intro n t ht h1 _ _
      rw [hloc] at h1
      injection h1 with h1
      exact absurd (h1.symm.trans hs) ht
  · rw [if_neg hs]
    obtain ⟨b', e, w', m, o, u⟩ := mergeNeighbor_fold hs (b.NeighborLocations loc) b w hloc
      (fun n hn => (mem_neighborLocations b loc n).1 hn)
    have hS := stoneAt_of_points m.points
    refine ⟨b', e, w', ?_, ?_, ?_⟩
    · intro t ht
      rw [hloc] at ht
      injection ht with ht
      subst ht
      exact m
    · intro n t ht h1 h2 hadj
      rw [hS] at h1 h2
      rw [hloc] at h1
      injection h1 with h1
      subst h1
      have hvn : b.IsValid n = true := (w.stoneAt_isSome n).1 ⟨s, h2⟩
      exact o n ((mem_neighborLocations b loc n).2 ⟨hadj, hvn⟩) h2
    · intro h
      apply u
      intro n hn hns
      exact h n s hs hloc hns ((mem_neighborLocations b loc n).1 hn).1

/-! ## `Put` and `PutAndMerge` -/

theorem Put_effect {b : Board} (w : b.WF) (stone : Stone) {loc : Location}
    (hv : b.IsValid loc = true) :
    ∃ b', b.Put stone loc = some b' ∧ PutEffect b b' stone loc ∧
      Dims b'.Points b'.Size.toNat ∧ (b'.Groups.map Prod.fst).Nodup := by
  obtain ⟨pts, h1, h2, h3⟩ := setPoint_spec w.dims loc stone ((isValid_iff b w.size_nonneg loc).1 hv)
  refine ⟨_, by simp only [Board.Put, h1, Option.map_some']; rfl, ?_, h2, ?_⟩
  · constructor
    · rfl
    · intro x
      exact h3 x
    · intro k
      simp only [Board.grp, NewGroup]
      exact mapGet_mapSet _ _ _ _
    · intro x
      simp only [Board.own]
      exact mapGet_mapSet _ _ _ _
    · simp [Board.setAt, NewGroup, List.getD_eq_getElem?_getD]
    · intro r hr
      simp [Board.setAt, NewGroup, List.getD_eq_getElem?_getD, List.getElem?_append_left hr]
    · simp [NewGroup]
  · exact mapSet_keys_nodup _ _ _ w.keys

theorem PutEffect.put_wf {b b' : Board} {stone : Stone} {loc : Location}
    (e : PutEffect b b' stone loc) (w : b.WF) (hs : stone ≠ Stone.Empty)
    (he : b.StoneAt loc = some Stone.Empty)
    (hd : Dims b'.Points b'.Size.toNat) (hk : (b'.Groups.map Prod.fst).Nodup) : b'.WF := by
  have hnocc : ¬ b.Occupied loc := by
    rintro ⟨s, h1, h2⟩
    rw [he] at h1
    injection h1 with h1
    exact h2 h1.symm
  have hocc : ∀ x, x ≠ loc → (b'.Occupied x ↔ b.Occupied x) := by
    intro x hx
    simp only [Board.Occupied, e.stoneAt, if_neg hx]
  have hocc1 : b'.Occupied loc := ⟨stone, by rw [e.stoneAt, if_pos rfl], hs⟩
  have hkey : ∀ k g, b.grp k = some g → k ≠ loc := by
    rintro k g h rfl
    obtain ⟨_, r, hr, _, hm⟩ := w.group k g h
    exact hnocc (w.member k g r h hr k hm).2
  have hold : ∀ k g r, k ≠ loc → b'.grp k = some g → g.Members = some r →
      b.grp k = some g ∧ r < b.Sets.length ∧ b'.setAt r = b.setAt r := by
    intro k g r hkl h hr
    rw [e.grp, if_neg hkl] at h
    obtain ⟨_, r', hr', hl, _⟩ := w.group k g h
    rw [hr] at hr'
    injection hr' with hr'
    subst hr'
    exact ⟨h, hl, e.other r hl⟩
  have hnew : ∀ g r, b'.grp loc = some g → g.Members = some r →
      g = ⟨stone, loc, some b.Sets.length⟩ ∧ r = b.Sets.length := by
    intro g r h hr
    rw [e.grp, if_pos rfl] at h
    injection h with h
    subst h
    simp only at hr
    injection hr with hr
    exact ⟨rfl, hr.symm⟩
  have hmem : ∀ k g r, b.grp k = some g → g.Members = some r → ∀ m ∈ b.setAt r, m ≠ loc := by
    rintro k g r h hr m hm rfl
    exact hnocc (w.member k g r h hr m hm).2
  constructor
  · rw [e.size]; exact w.size_nonneg
  · exact hd
  · exact hk
  · intro k g h
    by_cases hkl : k = loc
    · subst hkl
      rw [e.grp, if_pos rfl] at h
      injection h with h
      subst h
      refine ⟨rfl, b.Sets.length, rfl, by rw [e.slen]; omega, ?_⟩
      rw [e.fresh]
      exact List.mem_singleton_self k
    · rw [e.grp, if_neg hkl] at h
      obtain ⟨ht, r, hr, hl, hm⟩ := w.group k g h
      refine ⟨ht, r, hr, by rw [e.slen]; omega, ?_⟩
      rw [e.other r hl]
      exact hm
  · intro k g r h hr m hm
    by_cases hkl : k = loc
    · subst hkl
      obtain ⟨hg, hrr⟩ := hnew g r h hr
      subst hrr
      rw [e.fresh] at hm
      have := List.mem_singleton.mp hm
      subst this
      exact ⟨by rw [e.own, if_pos rfl], hocc1⟩
    · obtain ⟨h1, h2, h3⟩ := hold k g r hkl h hr
      rw [h3] at hm
      have hml := hmem k g r h1 hr m hm
      have := w.member k g r h1 hr m hm
      exact ⟨by rw [e.own, if_neg hml]; exact this.1, (hocc m hml).2 this.2⟩
  · intro x hx
    by_cases hxl : x = loc
    · subst hxl
      refine ⟨x, ⟨stone, x, some b.Sets.length⟩, b.Sets.length, ?_, ?_, rfl, ?_⟩
      · rw [e.own, if_pos rfl]
      · rw [e.grp, if_pos rfl]
      · rw [e.fresh]
        exact List.mem_singleton_self x
    · obtain ⟨k, g, r, h1, h2, h3, h4⟩ := w.owner x ((hocc x hxl).1 hx)
      have hl : r < b.Sets.length := by
        obtain ⟨_, r', hr', hl, _⟩ := w.group k g h2
        rw [h3] at hr'
        injection hr' with hr'
        subst hr'
        exact hl
      refine ⟨k, g, r, ?_, ?_, h3, ?_⟩
      · rw [e.own, if_neg hxl]
        exact h1
      · rw [e.grp, if_neg (hkey k g h2)]
        exact h2
      · rw [e.other r hl]
        exact h4
  · intro k g r h hr m hm m' hm'
    by_cases hkl : k = loc
    · subst hkl
      obtain ⟨hg, hrr⟩ := hnew g r h hr
      subst hrr
      rw [e.fresh] at hm hm'
      rw [List.mem_singleton.mp hm, List.mem_singleton.mp hm']
    · obtain ⟨h1, h2, h3⟩ := hold k g r hkl h hr
      rw [h3] at hm hm'
      rw [e.stoneAt, e.stoneAt, if_neg (hmem k g r h1 hr m hm), if_neg (hmem k g r h1 hr m' hm')]
      exact w.uniform k g r h1 hr m hm m' hm'
  · intro k g r h hr m hm m' hm'
    by_cases hkl : k = loc
    · subst hkl
      obtain ⟨hg, hrr⟩ := hnew g r h hr
      subst hrr
      rw [e.fresh] at hm hm'
      rw [List.mem_singleton.mp hm, List.mem_singleton.mp hm']
      exact Relation.ReflTransGen.refl
    · obtain ⟨h1, h2, h3⟩ := hold k g r hkl h hr
      rw [h3] at hm hm' ⊢
      exact w.linked k g r h1 hr m hm m' hm'
  · intro x k hx hkk
    by_cases hxl : x = loc
    · subst hxl
      exact hocc1
    · rw [e.own, if_neg hxl] at hx
      exact (hocc x hxl).2 (w.stale x k hx hkk)

theorem PutAndMerge_spec {b : Board} (i : b.Inv) {stone : Stone} {loc : Location}
    (hs : stone ≠ Stone.Empty) (hv : b.IsValid loc = true)
    (he : b.StoneAt loc = some Stone.Empty) :
    ∃ b1 b', b.Put stone loc = some b1 ∧ PutEffect b b1 stone loc ∧ b1.WF ∧
      b.PutAndMerge stone loc = some b' ∧ MergedBy stone b1 b' ∧ b'.Inv := by
  obtain ⟨w, mx⟩ := i
  obtain ⟨b1, h1, e, hd, hk⟩ := Put_effect w stone hv
  have w1 := e.put_wf w hs he hd hk
  have hv1 : b1.IsValid loc = true := by
    simpa [Board.IsValid, e.size] using hv
  obtain ⟨b2, h2, w2, m, hmax, _⟩ := MergeNeighborsAt_spec w1 hv1
  have hm := m stone (by rw [e.stoneAt, if_pos rfl])
  refine ⟨b1, b2, h1, e, w1, by simp only [Board.PutAndMerge, h1, Option.some_bind]; exact h2,
    hm, w2, ?_⟩
  intro a n
  by_cases ha : a = loc
  · subst ha
    exact hmax n
  · by_cases hn : n = loc
    · subst hn
      exact (hmax a).reverse
    · apply hm.maxPair
      intro s hs1 h3 h4 hadj
      rw [e.stoneAt, if_neg ha] at h3
      rw [e.stoneAt, if_neg hn] at h4
      rw [e.own, e.own, if_neg ha, if_neg hn]
      exact mx a n s hs1 h3 h4 hadj

theorem PutAndMerge_inv {b : Board} (i : b.Inv) {stone : Stone} {loc : Location}
    (hs : stone ≠ Stone.Empty) (hv : b.IsValid loc = true)
    (he : b.StoneAt loc = some Stone.Empty) :
    ∃ b', b.PutAndMerge stone loc = some b' ∧ b'.Inv :=
  let ⟨_, b', _, _, _, h, _, i'⟩ := PutAndMerge_spec i hs hv he
  ⟨b', h, i'⟩

/-! ## `RemoveGroup` and the first loop of `FlipGroup` -/

theorem foldlM_setStone (c : Stone) (n : Nat) (L : List Location) :
    ∀ b : Board, Dims b.Points n → (∀ x ∈ L, InGrid n x) →
      ∃ b', L.foldlM (fun (b1 : Board) loc => b1.setStone loc c) b = some b' ∧
        b'.Size = b.Size ∧ b'.Groups = b.Groups ∧ b'.OfGroup = b.OfGroup ∧ b'.Sets = b.Sets ∧
        Dims b'.Points n ∧ ∀ x, b'.StoneAt x = if x ∈ L then some c else b.StoneAt x := by
  induction L with
  | nil =>
    intro b hd _
    exact ⟨b, rfl, rfl, rfl, rfl, rfl, hd, by simp⟩
  | cons y L ih =>
    intro b hd hL
    obtain ⟨pts, h1, h2, h3⟩ := setPoint_spec hd y c (hL y (List.mem_cons_self y L))
    obtain ⟨b', e, p1, p2, p3, p4, p5, p6⟩ := ih { b with Points := pts } h2
      (fun x hx => hL x (List.mem_cons_of_mem y hx))
    refine ⟨b', ?_, p1, p2, p3, p4, p5, ?_⟩
    · simp only [List.foldlM_cons, Board.setStone, h1, Option.map_some', Option.bind_eq_bind,
        Option.some_bind]
      exact e
    · intro x
      rw [p6]
      simp only [Board.StoneAt, h3, List.mem_cons]
      by_cases hx : x ∈ L
      · simp [hx]
      · by_cases hxy : x = y
        · simp [hxy]
        · simp [hx, hxy]

theorem foldlM_removeStep (n : Nat) (L : List Location) :
    ∀ b : Board, Dims b.Points n → (∀ x ∈ L, InGrid n x) →
      ∃ b', L.foldlM Board.removeStep b = some b' ∧
        b'.Size = b.Size ∧ b'.Groups = b.Groups ∧ b'.Sets = b.Sets ∧ Dims b'.Points n ∧
        (∀ x, b'.StoneAt x = if x ∈ L then some Stone.Empty else b.StoneAt x) ∧
        ∀ x, b'.own x = if x ∈ L then some ⟨-1, -1⟩ else b.own x := by
  induction L with
  | nil =>
    intro b hd _
    exact ⟨b, rfl, rfl, rfl, rfl, hd, by simp, by simp⟩
  | cons y L ih =>
    intro b hd hL
    obtain ⟨pts, h1, h2, h3⟩ := setPoint_spec hd y Stone.Empty (hL y (List.mem_cons_self y L))
    obtain ⟨b', e, p1, p2, p3, p4, p5, p6⟩ :=
      ih { b with Points := pts, OfGroup := mapSet b.OfGroup y ⟨-1, -1⟩ } h2
        (fun x hx => hL x (List.mem_cons_of_mem y hx))
    refine ⟨b', ?_, p1, p2, p3, p4, ?_, ?_⟩
    · simp only [List.foldlM_cons, Board.removeStep, Board.setStone, h1, Option.map_some',
        Option.bind_eq_bind, Option.some_bind]
      exact e
    · intro x
      rw [p5]
      simp only [Board.StoneAt, h3, List.mem_cons]
      by_cases hx : x ∈ L
      · simp [hx]
      · by_cases hxy : x = y
        · simp [hxy]
        · simp [hx, hxy]
    · intro x
      rw [p6]
      simp only [Board.own, mapGet_mapSet, List.mem_cons]
      by_cases hx : x ∈ L
      · simp [hx]
      · by_cases hxy : x = y
        · simp [hxy]
        · simp [hx, hxy]

theorem RemoveGroup_effect {b : Board} (w : b.WF) (g : Group)
    (hL : ∀ x ∈ b.members g, b.IsValid x = true) :
    ∃ b', b.RemoveGroup g = some b' ∧ RemoveEffect b b' g.TopLeft (b.members g) ∧
      Dims b'.Points b'.Size.toNat ∧ (b'.Groups.map Prod.fst).Nodup := by
  obtain ⟨b1, e, p1, p2, p3, p4, p5, p6⟩ := foldlM_removeStep b.Size.toNat (b.members g) b w.dims
    (fun x hx => (isValid_iff b w.size_nonneg x).1 (hL x hx))
  refine ⟨_, by simp only [Board.RemoveGroup, e, Option.map_some']; rfl, ?_, ?_, ?_⟩
  · constructor
    · exact p1
    · exact p5
    · exact p6
    · intro k'
      simp only [Board.grp, p2]
      exact mapGet_mapDel _ _ _
    · exact p3
  · show Dims b1.Points b1.Size.toNat
    rw [p1]
    exact p4
  · show ((mapDel b1.Groups g.TopLeft).map Prod.fst).Nodup
    rw [p2]
    exact mapDel_keys_nodup _ _ w.keys

theorem RemoveEffect.keeps_wf {b b' : Board} {k : Location} {g : Group} {r : Nat}
    (e : RemoveEffect b b' k (b.setAt r)) (w : b.WF)
    (hg : b.grp k = some g) (hr : g.Members = some r)
    (hd : Dims b'.Points b'.Size.toNat) (hk : (b'.Groups.map Prod.fst).Nodup) : b'.WF := by
  have hsetAt : ∀ r', b'.setAt r' = b.setAt r' := by
    intro r'
    simp [Board.setAt, e.sets]
  have hocc : ∀ x, b'.Occupied x ↔ (x ∉ b.setAt r ∧ b.Occupied x) := by
    intro x
    simp only [Board.Occupied, e.stoneAt]
    by_cases hx : x ∈ b.setAt r
    · simp [hx]
    · simp [hx]
  have hlive : ∀ k' g' r', b'.grp k' = some g' → g'.Members = some r' →
      k' ≠ k ∧ b.grp k' = some g' ∧ ∀ m ∈ b.setAt r', m ∉ b.setAt r := by
    intro k' g' r' h hr'
    have h1 := e.grp k'
    by_cases hkk : k' = k
    · rw [if_pos hkk, h] at h1
      exact absurd h1 (by simp)
    · rw [if_neg hkk, h] at h1
      refine ⟨hkk, h1.symm, ?_⟩
      intro m hm hm'
      have a1 := (w.member k' g' r' h1.symm hr' m hm).1
      have a2 := (w.member k g r hg hr m hm').1
      rw [a1] at a2
      injection a2 with a2
      exact hkk a2
  constructor
  · rw [e.size]; exact w.size_nonneg
  · exact hd
  · exact hk
  · intro k' g' h
    have h1 := e.grp k'
    by_cases hkk : k' = k
    · rw [if_pos hkk, h] at h1
      exact absurd h1 (by simp)
    · rw [if_neg hkk, h] at h1
      obtain ⟨ht, r', hr', hl, hm⟩ := w.group k' g' h1.symm
      exact ⟨ht, r', hr', by rw [e.sets]; exact hl, by rw [hsetAt]; exact hm⟩
  · intro k' g' r' h hr' m hm
    obtain ⟨hkk, h1, h2⟩ := hlive k' g' r' h hr'
    rw [hsetAt] at hm
    have := w.member k' g' r' h1 hr' m hm
    exact ⟨by rw [e.own, if_neg (h2 m hm)]; exact this.1, (hocc m).2 ⟨h2 m hm, this.2⟩⟩
  · intro x hx
    obtain ⟨hx1, hx2⟩ := (hocc x).1 hx
    obtain ⟨k', g', r', h1, h2, h3, h4⟩ := w.owner x hx2
    have hkk : k' ≠ k := by
      rintro rfl
      rw [hg] at h2
      injection h2 with h2
      subst h2
      rw [hr] at h3
      injection h3 with h3
      subst h3
      exact hx1 h4
    refine ⟨k', g', r', ?_, ?_, h3, by rw [hsetAt]; exact h4⟩
    · rw [e.own, if_neg hx1]
      exact h1
    · rw [e.grp, if_neg hkk]
      exact h2
  · intro k' g' r' h hr' m hm m' hm'
    obtain ⟨hkk, h1, h2⟩ := hlive k' g' r' h hr'
    rw [hsetAt] at hm hm'
    rw [e.stoneAt, e.stoneAt, if_neg (h2 m hm), if_neg (h2 m' hm')]
    exact w.uniform k' g' r' h1 hr' m hm m' hm'
  · intro k' g' r' h hr' m hm m' hm'
    obtain ⟨hkk, h1, h2⟩ := hlive k' g' r' h hr'
    rw [hsetAt] at hm hm' ⊢
    exact w.linked k' g' r' h1 hr' m hm m' hm'
  · intro x k0 hx hk0
    rw [e.own] at hx
    by_cases hxl : x ∈ b.setAt r
    · rw [if_pos hxl] at hx
      injection hx with hx
      exact absurd hx.symm hk0
    · rw [if_neg hxl] at hx
      exact (hocc x).2 ⟨hxl, w.stale x k0 hx hk0⟩

theorem RemoveEffect.keeps_inv {b b' : Board} {k : Location} {g : Group} {r : Nat}
    (e : RemoveEffect b b' k (b.setAt r)) (i : b.Inv)
    (hg : b.grp k = some g) (hr : g.Members = some r)
    (hd : Dims b'.Points b'.Size.toNat) (hk : (b'.Groups.map Prod.fst).Nodup) : b'.Inv := by
  obtain ⟨w, mx⟩ := i
  have hocc : ∀ x, b'.Occupied x ↔ (x ∉ b.setAt r ∧ b.Occupied x) := by
    intro x
    simp only [Board.Occupied, e.stoneAt]
    by_cases hx : x ∈ b.setAt r
    · simp [hx]
    · simp [hx]
  refine ⟨e.keeps_wf w hg hr hd hk, ?_⟩
  intro a n s hs h1 h2 hadj
  have ha : a ∉ b.setAt r := ((hocc a).1 ⟨s, h1, hs⟩).1
  have hn : n ∉ b.setAt r := ((hocc n).1 ⟨s, h2, hs⟩).1
  rw [e.stoneAt, if_neg ha] at h1
  rw [e.stoneAt, if_neg hn] at h2
  rw [e.own, e.own, if_neg ha, if_neg hn]
  exact mx a n s hs h1 h2 hadj

/-! ## `HasLiberty` -/

theorem Board.Sized.stoneAt_some_iff {b : Board} (h : b.Sized) (x : Location) :
    (∃ s, b.StoneAt x = some s) ↔ b.IsValid x = true := by
  rw [isValid_iff b h.1]
  exact getPoint_isSome h.2 x

theorem anyEmpty_spec {b : Board} (h : b.Sized) (ns : List Location)
    (hv : ∀ n ∈ ns, b.IsValid n = true) :
    ∃ r, b.anyEmpty ns = some r ∧ (r = true ↔ ∃ n ∈ ns, b.StoneAt n = some Stone.Empty) := by
  induction ns with
  | nil => exact ⟨false, rfl, by simp⟩
  | cons n ns ih =>
    obtain ⟨s, hs⟩ := (h.stoneAt_some_iff n).2 (hv n (List.mem_cons_self n ns))
    obtain ⟨r, hr, hiff⟩ := ih (fun x hx => hv x (List.mem_cons_of_mem n hx))
    by_cases he : s = Stone.Empty
    · refine ⟨true, by simp [Board.anyEmpty, hs, he], ?_⟩
      simp only [true_iff]
      exact ⟨n, List.mem_cons_self n ns, by rw [hs, he]⟩
    · refine ⟨r, by simp [Board.anyEmpty, hs, he, hr], ?_⟩
      rw [hiff]
      constructor
      · rintro ⟨x, hx, hxe⟩
        exact ⟨x, List.mem_cons_of_mem n hx, hxe⟩
      · rintro ⟨x, hx, hxe⟩
        rcases List.mem_cons.mp hx with h1 | h1
        · subst h1
          rw [hs] at hxe
          injection hxe with hxe
          exact absurd hxe he
        · exact ⟨x, h1, hxe⟩

theorem libertyOf_spec (cfg : Config) {b : Board} (h : b.Sized) (ms : List Location) :
    ∃ r, b.libertyOf cfg ms = some r ∧ (r = true ↔ b.LibertySpec cfg ms) := by
  induction ms with
  | nil => exact ⟨false, rfl, by simp [Board.LibertySpec]⟩
  | cons m ms ih =>
    obtain ⟨r, hr, hiff⟩ := ih
    obtain ⟨e, he, heiff⟩ := anyEmpty_spec h (b.NeighborLocations m)
      (fun n hn => ((mem_neighborLocations b m n).1 hn).2)
    have hwall : b.IsBesideWall m = true ↔
        (m.X = 0 ∨ m.Y = 0 ∨ m.X = b.Size - 1 ∨ m.Y = b.Size - 1) := by
      simp only [Board.IsBesideWall, Bool.or_eq_true, decide_eq_true_eq]
      tauto
    have hnb : (∃ n ∈ b.NeighborLocations m, b.StoneAt n = some Stone.Empty) ↔
        ∃ n, Adj m n ∧ b.IsValid n = true ∧ b.StoneAt n = some Stone.Empty := by
      constructor
      · rintro ⟨n, hn, hne⟩
        obtain ⟨h1, h2⟩ := (mem_neighborLocations b m n).1 hn
        exact ⟨n, h1, h2, hne⟩
      · rintro ⟨n, h1, h2, hne⟩
        exact ⟨n, (mem_neighborLocations b m n).2 ⟨h1, h2⟩, hne⟩
    have hcons : b.LibertySpec cfg (m :: ms) ↔
        ((cfg.WallIsLiberty = true ∧ b.IsBesideWall m = true) ∨ e = true) ∨
          b.LibertySpec cfg ms := by
      rw [hwall, heiff, hnb]
      simp only [Board.LibertySpec, List.mem_cons, exists_eq_or_imp]
      constructor
      · rintro (⟨hW, h1 | h1⟩ | h1 | h1)
        · exact Or.inl (Or.inl ⟨hW, h1⟩)
        · exact Or.inr (Or.inl ⟨hW, h1⟩)
        · exact Or.inl (Or.inr h1)
        · exact Or.inr (Or.inr h1)
      · rintro ((⟨hW, h1⟩ | h1) | ⟨hW, h1⟩ | h1)
        · exact Or.inl ⟨hW, Or.inl h1⟩
        · exact Or.inr (Or.inl h1)
        · exact Or.inl ⟨hW, Or.inr h1⟩
        · exact Or.inr (Or.inr h1)
    by_cases hw : (cfg.WallIsLiberty && b.IsBesideWall m) = true
    · refine ⟨true, by simp only [Board.libertyOf, hw, if_true], ?_⟩
      simp only [true_iff]
      rw [hcons]
      simp only [Bool.and_eq_true] at hw
      exact Or.inl (Or.inl hw)
    · have hlib : b.libertyOf cfg (m :: ms) = if e = true then some true else some r := by
        simp only [Board.libertyOf, hw, he, hr, Option.some_bind]
        rfl
      simp only [Bool.and_eq_true] at hw
      by_cases hee : e = true
      · refine ⟨true, by rw [hlib, if_pos hee], ?_⟩
        simp only [true_iff]
        rw [hcons]
        exact Or.inl (Or.inr hee)
      · refine ⟨r, by rw [hlib, if_neg hee], ?_⟩
        rw [hiff, hcons]
        constructor
        · exact Or.inr
        · rintro ((h1 | h1) | h1)
          · exact absurd h1 hw
          · exact absurd h1 hee
          · exact h1

theorem HasLiberty_total (cfg : Config) {b : Board} (h : b.Sized) (g : Group) :
    ∃ r, b.HasLiberty cfg g = some r :=
  let ⟨r, hr, _⟩ := libertyOf_spec cfg h (b.members g)
  ⟨r, hr⟩

theorem LibertySpec_perm (cfg : Config) (b : Board) {ms ms' : List Location}
    (h : ms'.Perm ms) : b.LibertySpec cfg ms' ↔ b.LibertySpec cfg ms := by
  simp only [Board.LibertySpec, h.mem_iff]

/-! ## Recolouring and the second loop of `FlipGroup` -/

theorem Recoloured.id_recolour (c : Stone) (b : Board) : Recoloured c b b := by
  constructor
  · rfl
  · exact fun x => Or.inl rfl
  · exact fun k g h => h
  · exact fun k g h => Or.inl h
  · exact fun r x h => h
  · exact fun r x h => Or.inl h

theorem Recoloured.keep {c : Stone} {b b' : Board} (h : Recoloured c b b') {x : Location}
    (hx : b.StoneAt x = some c) : b'.StoneAt x = some c := by
  rcases h.cell x with h1 | h1
  · rw [h1, hx]
  · exact h1

theorem Recoloured.chain {c : Stone} {b b1 b2 : Board} (h1 : Recoloured c b b1)
    (h2 : Recoloured c b1 b2) : Recoloured c b b2 := by
  constructor
  · rw [h2.size, h1.size]
  · intro x
    rcases h2.cell x with h3 | h3
    · rw [h3]
      exact h1.cell x
    · exact Or.inr h3
  · exact fun k g h => h1.grp_sub k g (h2.grp_sub k g h)
  · intro k g h
    rcases h1.grp_del k g h with h3 | ⟨h3, h4⟩
    · rcases h2.grp_del k g h3 with h5 | ⟨h5, h6⟩
      · exact Or.inl h5
      · right
        refine ⟨h5, ?_⟩
        intro m hm
        cases hr : g.Members with
        | none => simp [Board.members, hr] at hm
        | some r =>
          rw [members_eq b g r hr] at hm
          exact h6 m (by rw [members_eq b1 g r hr]; exact h1.set_mono r m hm)
    · right
      refine ⟨?_, fun m hm => h2.keep (h4 m hm)⟩
      cases h5 : b2.grp k with
      | none => rfl
      | some g' =>
        have := h2.grp_sub k g' h5
        rw [h3] at this
        exact absurd this (by simp)
  · exact fun r x h => h2.set_mono r x (h1.set_mono r x h)
  · intro r x h
    rcases h2.set_grow r x h with h3 | h3
    · rcases h1.set_grow r x h3 with h4 | h4
      · exact Or.inl h4
      · exact Or.inr (h2.keep h4)
    · exact Or.inr h3

theorem Snap.of_recoloured {c : Stone} {b b' : Board} {g : Group} (h : Snap c b g)
    (rc : Recoloured c b b') : Snap c b' g := by
  obtain ⟨r, hr, hcase⟩ := h
  refine ⟨r, hr, ?_⟩
  rcases hcase with h1 | h1
  · rcases rc.grp_del _ g h1 with h2 | ⟨_, h2⟩
    · exact Or.inl h2
    · right
      intro m hm
      rw [members_eq b g r hr] at h2
      rcases rc.set_grow r m hm with h3 | h3
      · exact h2 m h3
      · exact h3
  · right
    intro m hm
    rcases rc.set_grow r m hm with h3 | h3
    · exact rc.keep (h1 m h3)
    · exact h3

theorem Board.WF.recolour {b b1 : Board} (w : b.WF) (hsz : b1.Size = b.Size)
    (hg : b1.Groups = b.Groups) (ho : b1.OfGroup = b.OfGroup) (hs : b1.Sets = b.Sets)
    (hd : Dims b1.Points b1.Size.toNat) (hocc : ∀ x, b1.Occupied x ↔ b.Occupied x)
    (hu : ∀ k g r, b.grp k = some g → g.Members = some r →
      ∀ m ∈ b.setAt r, ∀ m' ∈ b.setAt r, b1.StoneAt m = b1.StoneAt m') : b1.WF := by
  have e1 : ∀ k, b1.grp k = b.grp k := fun k => by simp [Board.grp, hg]
  have e2 : ∀ x, b1.own x = b.own x := fun x => by simp [Board.own, ho]
  have e3 : ∀ r, b1.setAt r = b.setAt r := fun r => by simp [Board.setAt, hs]
  constructor
  · rw [hsz]; exact w.size_nonneg
  · exact hd
  · rw [hg]; exact w.keys
  · intro k g h
    rw [e1] at h
    obtain ⟨ht, r, hr, hl, hm⟩ := w.group k g h
    exact ⟨ht, r, hr, by rw [hs]; exact hl, by rw [e3]; exact hm⟩
  · intro k g r h hr m hm
    rw [e1] at h
    rw [e3] at hm
    rw [e2, hocc]
    exact w.member k g r h hr m hm
  · intro x hx
    rw [hocc] at hx
    obtain ⟨k, g, r, h1, h2, h3, h4⟩ := w.owner x hx
    exact ⟨k, g, r, by rw [e2]; exact h1, by rw [e1]; exact h2, h3, by rw [e3]; exact h4⟩
  · intro k g r h hr m hm m' hm'
    rw [e1] at h
    rw [e3] at hm hm'
    exact hu k g r h hr m hm m' hm'
  · intro k g r h hr m hm m' hm'
    rw [e1] at h
    rw [e3] at hm hm' ⊢
    exact w.linked k g r h hr m hm m' hm'
  · intro x k hx hk
    rw [e2] at hx
    rw [hocc]
    exact w.stale x k hx hk

theorem MergeNeighborsAt_fold (c : Stone) (vs : List Location) :
    ∀ b : Board, b.WF → (∀ v ∈ vs, b.IsValid v = true) →
      (∀ a n, b.StoneAt a ≠ some c → b.MaxPair a n) →
      ∃ b', vs.foldlM Board.MergeNeighborsAt b = some b' ∧ b'.WF ∧ MergedBy c b b' ∧
        ∀ v ∈ vs, ∀ n, b'.MaxPair v n := by
  induction vs with
  | nil =>
    intro b w _ _
    exact ⟨b, rfl, w, MergedBy.id_merge c b, by simp⟩
  | cons v vs ih =>
    intro b w hv hmax
    obtain ⟨b1, e1, w1, m1, x1, u1⟩ := MergeNeighborsAt_spec w (hv v (List.mem_cons_self v vs))
    obtain ⟨s, hs⟩ := (w.stoneAt_isSome v).2 (hv v (List.mem_cons_self v vs))
    have mb : MergedBy c b b1 := by
      by_cases hsc : s = c
      · subst hsc
        exact m1 s hs
      · have : b1 = b := u1 (fun n => hmax v n (by
          rw [hs]
          intro h
          injection h with h
          exact hsc h))
        rw [this]
        exact MergedBy.id_merge c b
    have hS := stoneAt_of_points mb.points
    obtain ⟨b2, e2, w2, m2, x2⟩ := ih b1 w1
      (fun x hx => by
        have := hv x (List.mem_cons_of_mem v hx)
        simpa [Board.IsValid, mb.size] using this)
      (fun a n ha => mb.maxPair (hmax a n (by rw [← hS]; exact ha)))
    refine ⟨b2, ?_, w2, mb.comp m2, ?_⟩
    · simp only [List.foldlM_cons, e1, Option.bind_eq_bind, Option.some_bind]
      exact e2
    · intro x hx n
      rcases List.mem_cons.mp hx with h | h
      · subst h
        exact m2.maxPair (x1 n)
      · exact x2 x h n

theorem MergedBy.to_recoloured {c : Stone} {b b' : Board} (m : MergedBy c b b') :
    Recoloured c b b' := by
  have hS := stoneAt_of_points m.points
  constructor
  · exact m.size
  · exact fun x => Or.inl (hS x)
  · exact m.grp_sub
  · intro k g h
    rcases m.grp_del k g h with h1 | ⟨h1, h2⟩
    · exact Or.inl h1
    · exact Or.inr ⟨h1, fun x hx => by rw [hS]; exact h2 x hx⟩
  · exact m.set_mono
  · intro r x hx
    rcases m.set_grow r x hx with h1 | h1
    · exact Or.inl h1
    · exact Or.inr (by rw [hS]; exact h1)

/-! ## `FlipGroup` -/

theorem paint_spec {b : Board} (w : b.WF) {c : Stone} (hc : c ≠ Stone.Empty) {g : Group}
    {r : Nat} (hr : g.Members = some r)
    (hcase : b.grp g.TopLeft = some g ∨ ∀ m ∈ b.setAt r, b.StoneAt m = some c) :
    ∃ b1, (b.setAt r).foldlM (fun (b1 : Board) loc => b1.setStone loc c) b = some b1 ∧
      b1.Size = b.Size ∧ b1.Groups = b.Groups ∧ b1.OfGroup = b.OfGroup ∧ b1.Sets = b.Sets ∧
      (∀ x, b1.StoneAt x = if x ∈ b.setAt r then some c else b.StoneAt x) ∧ b1.WF ∧
      ∀ x ∈ b.setAt r, b.IsValid x = true := by
  have hLv : ∀ x ∈ b.setAt r, b.IsValid x = true := by
    intro x hx
    rcases hcase with h1 | h1
    · obtain ⟨s, hs, _⟩ := (w.member _ g r h1 hr x hx).2
      exact (w.stoneAt_isSome x).1 ⟨s, hs⟩
    · exact (w.stoneAt_isSome x).1 ⟨c, h1 x hx⟩
  have hLo : ∀ x ∈ b.setAt r, b.Occupied x := by
    intro x hx
    rcases hcase with h1 | h1
    · exact (w.member _ g r h1 hr x hx).2
    · exact ⟨c, h1 x hx, hc⟩
  obtain ⟨b1, e1, p1, p2, p3, p4, p5, p6⟩ := foldlM_setStone c b.Size.toNat (b.setAt r) b w.dims
    (fun x hx => (isValid_iff b w.size_nonneg x).1 (hLv x hx))
  have a1 : ∀ k, b1.grp k = b.grp k := fun k => by simp [Board.grp, p2]
  have a2 : ∀ x, b1.own x = b.own x := fun x => by simp [Board.own, p3]
  have a3 : ∀ r', b1.setAt r' = b.setAt r' := fun r' => by simp [Board.setAt, p4]
  have hocc : ∀ x, b1.Occupied x ↔ b.Occupied x := by
    intro x
    by_cases hx : x ∈ b.setAt r
    · constructor
      · exact fun _ => hLo x hx
      · exact fun _ => ⟨c, by rw [p6, if_pos hx], hc⟩
    · simp only [Board.Occupied, p6, if_neg hx]
  have hu : ∀ k' g' r', b.grp k' = some g' → g'.Members = some r' →
      ∀ m ∈ b.setAt r', ∀ m' ∈ b.setAt r', b1.StoneAt m = b1.StoneAt m' := by
    intro k' g' r' h hr' m hm m' hm'
    rcases hcase with h1 | h1
    · have key : ∀ y, y ∈ b.setAt r' → y ∈ b.setAt r → r' = r := by
        intro y hy hy'
        have o1 := (w.member k' g' r' h hr' y hy).1
        have o2 := (w.member _ g r h1 hr y hy').1
        rw [o1] at o2
        injection o2 with o2
        subst o2
        rw [h] at h1
        injection h1 with h1
        subst h1
        rw [hr] at hr'
        injection hr' with hr'
        exact hr'.symm
      by_cases hmL : m ∈ b.setAt r
      · have := key m hm hmL
        subst this
        rw [p6, p6, if_pos hm, if_pos hm']
      · by_cases hmL' : m' ∈ b.setAt r
        · have := key m' hm' hmL'
          subst this
          exact absurd hm hmL
        · rw [p6, p6, if_neg hmL, if_neg hmL']
          exact w.uniform k' g' r' h hr' m hm m' hm'
    · have same : ∀ x, b1.StoneAt x = b.StoneAt x := by
        intro x
        rw [p6]
        by_cases hx : x ∈ b.setAt r
        · rw [if_pos hx, h1 x hx]
        · rw [if_neg hx]
      rw [same, same]
      exact w.uniform k' g' r' h hr' m hm m' hm'
  have w1 : b1.WF := w.recolour p1 p2 p3 p4 (by rw [p1]; exact p5) hocc hu
  exact ⟨b1, e1, p1, p2, p3, p4, p6, w1, hLv⟩

theorem FlipGroup_spec {b : Board} (i : b.Inv) {c : Stone} (hc : c ≠ Stone.Empty) {g : Group}
    (hsnap : Snap c b g) (ro : RangeOrder) (hro : ro.Allowed b) :
    ∃ b', b.FlipGroup ro g c = some b' ∧ b'.Inv ∧ Recoloured c b b' := by
  obtain ⟨w, mx⟩ := i
  obtain ⟨r, hr, hcase⟩ := hsnap
  have hmem : b.members g = b.setAt r := members_eq b g r hr
  obtain ⟨b1, e1, p1, p2, p3, p4, p6, w1, hLv⟩ := paint_spec w hc hr hcase
  have a2 : ∀ x, b1.own x = b.own x := fun x => by simp [Board.own, p3]
  have a1 : ∀ k, b1.grp k = b.grp k := fun k => by simp [Board.grp, p2]
  have a3 : ∀ r', b1.setAt r' = b.setAt r' := fun r' => by simp [Board.setAt, p4]
  have H1 : ∀ a n, a ∉ b.setAt r → n ∉ b.setAt r → b1.MaxPair a n := by
    intro a n ha hn s hs h3 h4 hadj
    rw [p6, if_neg ha] at h3
    rw [p6, if_neg hn] at h4
    rw [a2, a2]
    exact mx a n s hs h3 h4 hadj
  have H2 : ∀ a n, b1.StoneAt a ≠ some c → b1.MaxPair a n := by
    intro a n ha s hs h3 h4 hadj
    have hsc : s ≠ c := by
      rintro rfl
      exact ha h3
    have hna : a ∉ b.setAt r := by
      intro hm
      rw [p6, if_pos hm] at h3
      injection h3 with h3
      exact hsc h3.symm
    have hnn : n ∉ b.setAt r := by
      intro hm
      rw [p6, if_pos hm] at h4
      injection h4 with h4
      exact hsc h4.symm
    exact H1 a n hna hnn s hs h3 h4 hadj
  have hmem1 : b1.members g = b.setAt r := by
    rw [members_eq b1 g r hr, a3]
  have hvs : ∀ v ∈ ro.members g (b1.members g), b1.IsValid v = true := by
    intro v hv
    rw [hmem1] at hv
    have hb : b.IsValid v = true := by
      rcases (hro.2 g (b.setAt r)).2 v hv with h | h
      · exact hLv v h
      · exact h
    simpa [Board.IsValid, p1] using hb
  obtain ⟨b2, e2, w2, m2, x2⟩ := MergeNeighborsAt_fold c (ro.members g (b1.members g)) b1 w1 hvs H2
  have hS2 := stoneAt_of_points m2.points
  refine ⟨b2, ?_, ⟨w2, ?_⟩, ?_⟩
  · simp only [Board.FlipGroup, hmem, e1, Option.some_bind]
    exact e2
  · intro a n
    by_cases ha : a ∈ b.setAt r
    · exact x2 a (by rw [hmem1]; exact (hro.2 g (b.setAt r)).1 a ha) n
    · by_cases hn : n ∈ b.setAt r
      · exact (x2 n (by rw [hmem1]; exact (hro.2 g (b.setAt r)).1 n hn) a).reverse
      · exact m2.maxPair (H1 a n ha hn)
  · have rc1 : Recoloured c b b1 := by
      constructor
      · exact p1
      · intro x
        rw [p6]
        by_cases hx : x ∈ b.setAt r
        · exact Or.inr (by rw [if_pos hx])
        · exact Or.inl (by rw [if_neg hx])
      · intro k g0 h
        rw [a1] at h
        exact h
      · intro k g0 h
        exact Or.inl (by rw [a1]; exact h)
      · intro r' x hx
        rw [a3]
        exact hx
      · intro r' x hx
        rw [a3] at hx
        exact Or.inl hx
    exact rc1.chain m2.to_recoloured

/-! ## `FlipOrRemoveAfter` and the invariant of reachable boards -/

theorem RangeOrder.Allowed.of_size {ro : RangeOrder} {b b' : Board} (h : ro.Allowed b)
    (hs : b'.Size = b.Size) : ro.Allowed b' := by
  refine ⟨h.1, fun g l => ⟨(h.2 g l).1, fun v hv => ?_⟩⟩
  rcases (h.2 g l).2 v hv with h1 | h1
  · exact Or.inl h1
  · exact Or.inr (by simpa [Board.IsValid, hs] using h1)

theorem Board.WF.sized {b : Board} (w : b.WF) : b.Sized :=
  ⟨w.size_nonneg, w.dims⟩

theorem resolve_flip_fold (cfg : Config) (hp : cfg.FlipOrRemove = FlipRemove.Flip)
    (ro : RangeOrder) {c : Stone} (hc : c ≠ Stone.Empty) (gs : List Group) :
    ∀ b : Board, b.Inv → ro.Allowed b → (∀ g ∈ gs, Snap c b g) →
      ∃ b', gs.foldlM (Board.resolveStep cfg ro c) b = some b' ∧ b'.Inv ∧
        Recoloured c b b' := by
  induction gs with
  | nil =>
    intro b i _ _
    exact ⟨b, rfl, i, Recoloured.id_recolour c b⟩
  | cons g gs ih =>
    intro b i hro hsn
    obtain ⟨lib, hlib⟩ := HasLiberty_total cfg i.1.sized g
    have step : ∃ b1, Board.resolveStep cfg ro c b g = some b1 ∧ b1.Inv ∧ Recoloured c b b1 := by
      cases lib with
      | true =>
        exact ⟨b, by simp [Board.resolveStep, hlib], i, Recoloured.id_recolour c b⟩
      | false =>
        obtain ⟨b1, e1, i1, r1⟩ := FlipGroup_spec i hc (hsn g (List.mem_cons_self g gs)) ro hro
        exact ⟨b1, by simp [Board.resolveStep, hlib, hp, e1], i1, r1⟩
    obtain ⟨b1, e1, i1, r1⟩ := step
    obtain ⟨b2, e2, i2, r2⟩ := ih b1 i1 (hro.of_size r1.size)
      (fun x hx => (hsn x (List.mem_cons_of_mem g hx)).of_recoloured r1)
    refine ⟨b2, ?_, i2, r1.chain r2⟩
    simp only [List.foldlM_cons, e1, Option.bind_eq_bind, Option.some_bind]
    exact e2

theorem RemoveGroup_live {b : Board} (i : b.Inv) {g : Group} (hg : b.grp g.TopLeft = some g) :
    ∃ b', b.RemoveGroup g = some b' ∧ b'.Inv ∧
      RemoveEffect b b' g.TopLeft (b.members g) := by
  obtain ⟨_, r, hr, _, _⟩ := i.1.group _ g hg
  have hv : ∀ x ∈ b.members g, b.IsValid x = true := by
    intro x hx
    rw [members_eq b g r hr] at hx
    obtain ⟨s, hs, _⟩ := (i.1.member _ g r hg hr x hx).2
    exact (i.1.stoneAt_isSome x).1 ⟨s, hs⟩
  obtain ⟨b', e, eff, hd, hk⟩ := RemoveGroup_effect i.1 g hv
  refine ⟨b', e, ?_, eff⟩
  rw [members_eq b g r hr] at eff
  exact eff.keeps_inv i hg hr hd hk

theorem resolve_remove_fold (cfg : Config) (hp : cfg.FlipOrRemove = FlipRemove.Remove)
    (ro : RangeOrder) (c : Stone) (gs : List Group) :
    ∀ b : Board, b.Inv → (gs.map Group.TopLeft).Nodup →
      (∀ g ∈ gs, b.grp g.TopLeft = some g) →
      ∃ b', gs.foldlM (Board.resolveStep cfg ro c) b = some b' ∧ b'.Inv := by
  induction gs with
  | nil =>
    intro b i _ _
    exact ⟨b, rfl, i⟩
  | cons g gs ih =>
    intro b i hnd hlive
    simp only [List.map_cons, List.nodup_cons, List.mem_map, not_exists, not_and] at hnd
    obtain ⟨lib, hlib⟩ := HasLiberty_total cfg i.1.sized g
    have step : ∃ b1, Board.resolveStep cfg ro c b g = some b1 ∧ b1.Inv ∧
        ∀ g' ∈ gs, b1.grp g'.TopLeft = some g' := by
      cases lib with
      | true =>
        exact ⟨b, by simp [Board.resolveStep, hlib], i,
          fun g' hg' => hlive g' (List.mem_cons_of_mem g hg')⟩
      | false =>
        obtain ⟨b1, e1, i1, eff⟩ := RemoveGroup_live i (hlive g (List.mem_cons_self g gs))
        refine ⟨b1, by simp [Board.resolveStep, hlib, hp, e1], i1, ?_⟩
        intro g' hg'
        rw [eff.grp, if_neg (hnd.1 g' hg')]
        exact hlive g' (List.mem_cons_of_mem g hg')
    obtain ⟨b1, e1, i1, l1⟩ := step
    obtain ⟨b2, e2, i2⟩ := ih b1 i1 hnd.2 l1
    refine ⟨b2, ?_, i2⟩
    simp only [List.foldlM_cons, e1, Option.bind_eq_bind, Option.some_bind]
    exact e2

theorem Board.WF.snd_topLeft {b : Board} (w : b.WF) :
    (b.Groups.map Prod.snd).map Group.TopLeft = b.Groups.map Prod.fst := by
  rw [List.map_map]
  apply List.map_congr_left
  rintro ⟨k, g⟩ hkg
  exact (w.group k g (mapGet_of_mem _ k g w.keys hkg)).1

theorem otherGroups_live {b : Board} (w : b.WF) {ro : RangeOrder} (hro : ro.Allowed b)
    (oc : Stone) :
    (∀ g ∈ b.otherGroups ro oc, b.grp g.TopLeft = some g ∧ g.Color = oc) ∧
      ((b.otherGroups ro oc).map Group.TopLeft).Nodup := by
  constructor
  · intro g hg
    simp only [Board.otherGroups, List.mem_filter, decide_eq_true_eq] at hg
    have h1 : g ∈ b.Groups.map Prod.snd := (hro.1 _).mem_iff.1 hg.1
    obtain ⟨⟨k, g'⟩, hkg, rfl⟩ := List.mem_map.mp h1
    have h2 := mapGet_of_mem _ k g' w.keys hkg
    have h3 := (w.group k g' h2).1
    simp only at h3 ⊢
    rw [h3]
    exact ⟨h2, hg.2⟩
  · have h1 : ((ro.groups (b.Groups.map Prod.snd)).map Group.TopLeft).Nodup := by
      have := ((hro.1 (b.Groups.map Prod.snd)).map Group.TopLeft).nodup_iff
      rw [this, w.snd_topLeft]
      exact w.keys
    exact List.Nodup.sublist (List.Sublist.map _ (List.filter_sublist _)) h1

theorem FlipOrRemoveAfter_inv {b : Board} (i : b.Inv) (cfg : Config) {ro : RangeOrder}
    (hro : ro.Allowed b) {color : Stone} (hc : color ≠ Stone.Empty) :
    ∃ b', b.FlipOrRemoveAfter cfg ro color = some b' ∧ b'.Inv := by
  obtain ⟨oc, hoc⟩ : ∃ oc, otherColorOf color = some oc := by
    cases color with
    | Empty => exact absurd rfl hc
    | Black => exact ⟨_, rfl⟩
    | White => exact ⟨_, rfl⟩
  obtain ⟨hl, hnd⟩ := otherGroups_live i.1 hro oc
  cases hp : cfg.FlipOrRemove with
  | Flip =>
    obtain ⟨b', e, i', _⟩ := resolve_flip_fold cfg hp ro hc (b.otherGroups ro oc) b i hro
      (fun g hg => by
        obtain ⟨_, r, hr, _, _⟩ := i.1.group _ g (hl g hg).1
        exact ⟨r, hr, Or.inl (hl g hg).1⟩)
    exact ⟨b', by simp only [Board.FlipOrRemoveAfter, hoc, Option.some_bind]; exact e, i'⟩
  | Remove =>
    obtain ⟨b', e, i'⟩ := resolve_remove_fold cfg hp ro color (b.otherGroups ro oc) b i hnd
      (fun g hg => (hl g hg).1)
    exact ⟨b', by simp only [Board.FlipOrRemoveAfter, hoc, Option.some_bind]; exact e, i'⟩

theorem getPoint_replicate (n : Nat) (x : Location) (s : Stone)
    (h : getPoint (List.replicate n (List.replicate n Stone.Empty)) x = some s) :
    s = Stone.Empty := by
  unfold getPoint at h
  split at h
  · split at h
    · rename_i row hrow
      rw [List.getElem?_replicate] at hrow
      split at hrow
      · injection hrow with hrow
        subst hrow
        rw [List.getElem?_replicate] at h
        split at h
        · injection h with h
          exact h.symm
        · exact absurd h (by simp)
      · exact absurd hrow (by simp)
    · exact absurd h (by simp)
  · exact absurd h (by simp)

theorem NewBoard_inv (size : Nat) : (NewBoard size).Inv := by
  have hno : ∀ x, ¬ (NewBoard size).Occupied x := by
    rintro x ⟨s, h1, h2⟩
    exact h2 (getPoint_replicate size x s h1)
  refine ⟨?_, ?_⟩
  · constructor
    · exact Int.natCast_nonneg size
    · refine ⟨by simp [NewBoard], ?_⟩
      intro row hr
      simp only [NewBoard, List.mem_replicate] at hr
      simp [hr.2, NewBoard]
    · simp [NewBoard]
    · intro k g h
      simp [Board.grp, NewBoard, mapGet] at h
    · intro k g r h
      simp [Board.grp, NewBoard, mapGet] at h
    · intro x hx
      exact absurd hx (hno x)
    · intro k g r h
      simp [Board.grp, NewBoard, mapGet] at h
    · intro k g r h
      simp [Board.grp, NewBoard, mapGet] at h
    · intro x k h
      simp [Board.own, NewBoard, mapGet] at h
  · intro a n s hs h1 _ _
    exact absurd ⟨s, h1, hs⟩ (hno a)

theorem Reachable.inv {allow : Config → Prop} {size : Nat} {b : Board}
    (h : Reachable allow size b) : b.Inv := by
  induction h with
  | init => exact NewBoard_inv size
  | put stone loc _ hs hv he hput ih =>
    obtain ⟨b', e, i'⟩ := PutAndMerge_inv ih hs hv he
    rw [hput] at e
    injection e with e
    rw [e]
    exact i'
  | resolve cfg ro color _ _ hro hc hres ih =>
    obtain ⟨b', e, i'⟩ := FlipOrRemoveAfter_inv ih cfg hro hc
    rw [hres] at e
    injection e with e
    rw [e]
    exact i'

/-! ## The invariants in the words of the claims -/

theorem Reachable.playMoves {allow : Config → Prop} {size : Nat} (moves : List (Stone × Location)) :
    ∀ {b b' : Board}, Reachable allow size b → b.playMoves moves = some b' →
      Reachable allow size b' := by
  induction moves with
  | nil =>
    intro b b' h e
    simp only [Board.playMoves] at e
    injection e with e
    rw [← e]
    exact h
  | cons mv moves ih =>
    intro b b' h e
    obtain ⟨stone, loc⟩ := mv
    simp only [Board.playMoves] at e
    split at e
    · rename_i hc
      cases h1 : b.PutAndMerge stone loc with
      | none => simp [h1] at e
      | some b1 =>
        rw [h1] at e
        exact ih (Reachable.put stone loc h hc.1 hc.2.1 hc.2.2 h1) e
    · exact absurd e (by simp)

theorem Board.Inv.partition {b : Board} (i : b.Inv) : b.Partition := by
  obtain ⟨w, _⟩ := i
  constructor
  · intro k k' g g' h h' hne x hx hx'
    obtain ⟨_, r, hr, _, _⟩ := w.group k g h
    obtain ⟨_, r', hr', _, _⟩ := w.group k' g' h'
    rw [members_eq b g r hr] at hx
    rw [members_eq b g' r' hr'] at hx'
    have o1 := (w.member k g r h hr x hx).1
    have o2 := (w.member k' g' r' h' hr' x hx').1
    rw [o1] at o2
    injection o2 with o2
    exact hne o2
  · intro x
    constructor
    · rintro ⟨k, g, h, hx⟩
      obtain ⟨_, r, hr, _, _⟩ := w.group k g h
      rw [members_eq b g r hr] at hx
      exact (w.member k g r h hr x hx).2
    · intro hx
      obtain ⟨k, g, r, _, h2, h3, h4⟩ := w.owner x hx
      exact ⟨k, g, h2, by rw [members_eq b g r h3]; exact h4⟩

theorem Board.Inv.maximalGroups {b : Board} (i : b.Inv) : b.MaximalGroups := by
  obtain ⟨w, mx⟩ := i
  intro a n s _ _ hadj hs ha hn
  obtain ⟨k, g, r, h1, h2, h3, h4⟩ := w.owner a ⟨s, ha, hs⟩
  have hon : b.own n = some k := by
    rw [← mx a n s hs ha hn hadj]
    exact h1
  refine ⟨k, g, h1, hon, h2, ?_, ?_⟩
  · rw [members_eq b g r h3]
    exact h4
  · rw [members_eq b g r h3]
    exact (w.mem_iff_own h2 h3 ⟨s, hn, hs⟩).2 hon

theorem Board.Inv.connectedGroups {b : Board} (i : b.Inv) : b.ConnectedGroups := by
  obtain ⟨w, _⟩ := i
  intro k g h m hm m' hm'
  obtain ⟨_, r, hr, _, _⟩ := w.group k g h
  rw [members_eq b g r hr] at hm hm' ⊢
  obtain ⟨s, hs, hne⟩ := (w.member k g r h hr m hm).2
  have hcol : ∀ x ∈ b.setAt r, b.StoneAt x = some s := by
    intro x hx
    rw [w.uniform k g r h hr x hx m hm]
    exact hs
  refine ⟨s, hne, hs, hcol m' hm', ?_⟩
  exact Relation.ReflTransGen.mono
    (fun x y hxy => ⟨hxy.1, hxy.2.1, hxy.2.2, hcol x hxy.1, hcol y hxy.2.1⟩)
    (w.linked k g r h hr m hm m' hm')

/-! ## Resolution under the Remove policy -/

theorem Board.ColorOK.stone {b : Board} (co : b.ColorOK) (w : b.WF) {k : Location} {g : Group}
    (h : b.grp k = some g) {m : Location} (hm : m ∈ b.members g) :
    b.StoneAt m = some g.Color := by
  obtain ⟨_, r, hr, _, hk⟩ := w.group k g h
  rw [members_eq b g r hr] at hm
  rw [w.uniform k g r h hr m hm k hk]
  exact co k g h

theorem PutAndMerge_colorOK {b : Board} (i : b.Inv) (co : b.ColorOK) {stone : Stone}
    {loc : Location} (hs : stone ≠ Stone.Empty) (hv : b.IsValid loc = true)
    (he : b.StoneAt loc = some Stone.Empty) {b' : Board}
    (hb : b.PutAndMerge stone loc = some b') : b'.ColorOK := by
  obtain ⟨b1, b2, _, e, _, h2, m, _⟩ := PutAndMerge_spec i hs hv he
  rw [hb] at h2
  injection h2 with h2
  subst h2
  intro k g h
  have h1 := m.grp_sub k g h
  rw [stoneAt_of_points m.points, e.stoneAt]
  rw [e.grp] at h1
  by_cases hk : k = loc
  · rw [if_pos hk] at h1 ⊢
    injection h1 with h1
    rw [← h1]
  · rw [if_neg hk] at h1 ⊢
    exact co k g h1

theorem liberty_after_remove (cfg : Config) {b b1 : Board} (i : b.Inv) (co : b.ColorOK)
    {g g' : Group} (hg : b.grp g.TopLeft = some g) (hg' : b.grp g'.TopLeft = some g')
    (hcol : g.Color = g'.Color) (hcne : g.Color ≠ Stone.Empty)
    (hne : g'.TopLeft ≠ g.TopLeft)
    (eff : RemoveEffect b b1 g.TopLeft (b.members g)) :
    b1.LibertySpec cfg (b.members g') ↔ b.LibertySpec cfg (b.members g') := by
  have hv : ∀ n, b1.IsValid n = b.IsValid n := fun n => by simp [Board.IsValid, eff.size]
  have key : ∀ m ∈ b.members g', ∀ n, Adj m n → b1.StoneAt n = b.StoneAt n := by
    intro m hm n hadj
    rw [eff.stoneAt]
    by_cases hn : n ∈ b.members g
    · exfalso
      have s1 := co.stone i.1 hg hn
      have s2 := co.stone i.1 hg' hm
      rw [← hcol] at s2
      have ho := i.2 m n g.Color hcne s2 s1 hadj
      obtain ⟨_, r, hr, _, _⟩ := i.1.group _ g hg
      obtain ⟨_, r', hr', _, _⟩ := i.1.group _ g' hg'
      rw [members_eq b g r hr] at hn
      rw [members_eq b g' r' hr'] at hm
      rw [(i.1.member _ g r hg hr n hn).1, (i.1.member _ g' r' hg' hr' m hm).1] at ho
      injection ho with ho
      exact hne ho
    · rw [if_neg hn]
  unfold Board.LibertySpec
  rw [eff.size]
  constructor
  · rintro (h | ⟨m, hm, n, h1, h2, h3⟩)
    · exact Or.inl h
    · exact Or.inr ⟨m, hm, n, h1, by rw [← hv]; exact h2, by rw [← key m hm n h1]; exact h3⟩
  · rintro (h | ⟨m, hm, n, h1, h2, h3⟩)
    · exact Or.inl h
    · exact Or.inr ⟨m, hm, n, h1, by rw [hv]; exact h2, by rw [key m hm n h1]; exact h3⟩

theorem RemoveEffect.keeps_colorOK {b b1 : Board} (i : b.Inv) (co : b.ColorOK) {g : Group}
    (hg : b.grp g.TopLeft = some g) (eff : RemoveEffect b b1 g.TopLeft (b.members g)) :
    b1.ColorOK := by
  intro k g0 h
  rw [eff.grp] at h
  by_cases hk : k = g.TopLeft
  · rw [if_pos hk] at h
    exact absurd h (by simp)
  · rw [if_neg hk] at h
    rw [eff.stoneAt]
    have hnot : k ∉ b.members g := by
      intro hm
      obtain ⟨_, r, hr, _, _⟩ := i.1.group _ g hg
      obtain ⟨_, r0, hr0, _, hk0⟩ := i.1.group k g0 h
      rw [members_eq b g r hr] at hm
      have o1 := (i.1.member _ g r hg hr k hm).1
      have o2 := (i.1.member k g0 r0 h hr0 k hk0).1
      rw [o1] at o2
      injection o2 with o2
      exact hk o2.symm
    rw [if_neg hnot]
    exact co k g0 h

theorem members_of_sets {b b1 : Board} (h : b1.Sets = b.Sets) (g : Group) :
    b1.members g = b.members g := by
  simp [Board.members, h]

theorem resolve_remove_exact (cfg : Config) (hp : cfg.FlipOrRemove = FlipRemove.Remove)
    (ro : RangeOrder) (c : Stone) {oc : Stone} (hoc : oc ≠ Stone.Empty) (gs : List Group) :
    ∀ b : Board, b.Inv → b.ColorOK → (gs.map Group.TopLeft).Nodup →
      (∀ g ∈ gs, b.grp g.TopLeft = some g ∧ g.Color = oc) →
      ∃ b', gs.foldlM (Board.resolveStep cfg ro c) b = some b' ∧ b'.Inv ∧ b'.ColorOK ∧
        b'.Size = b.Size ∧ b'.Sets = b.Sets ∧
        (∀ x, (∃ g ∈ gs, x ∈ b.members g ∧ ¬ b.LibertySpec cfg (b.members g)) →
          b'.StoneAt x = some Stone.Empty) ∧
        (∀ x, (¬ ∃ g ∈ gs, x ∈ b.members g ∧ ¬ b.LibertySpec cfg (b.members g)) →
          b'.StoneAt x = b.StoneAt x) ∧
        (∀ k, (∃ g ∈ gs, g.TopLeft = k ∧ ¬ b.LibertySpec cfg (b.members g)) →
          b'.grp k = none) ∧
        (∀ k, (¬ ∃ g ∈ gs, g.TopLeft = k ∧ ¬ b.LibertySpec cfg (b.members g)) →
          b'.grp k = b.grp k) := by
  induction gs with
  | nil =>
    intro b i co _ _
    exact ⟨b, rfl, i, co, rfl, rfl, by simp, by simp, by simp, by simp⟩
  | cons g gs ih =>
    intro b i co hnd hlive
    simp only [List.map_cons, List.nodup_cons, List.mem_map, not_exists, not_and] at hnd
    obtain ⟨hg, hgc⟩ := hlive g (List.mem_cons_self g gs)
    obtain ⟨lib, hlib, hiff⟩ := libertyOf_spec cfg i.1.sized (b.members g)
    cases lib with
    | true =>
      have hL : b.LibertySpec cfg (b.members g) := hiff.1 rfl
      obtain ⟨b', e, i', co', p1, p2, p3, p4, p5, p6⟩ := ih b i co hnd.2
        (fun g' hg' => hlive g' (List.mem_cons_of_mem g hg'))
      have e1 : Board.resolveStep cfg ro c b g = some b := by
        simp [Board.resolveStep, Board.HasLiberty, hlib]
      refine ⟨b', ?_, i', co', p1, p2, ?_, ?_, ?_, ?_⟩
      · simp only [List.foldlM_cons, e1, Option.bind_eq_bind, Option.some_bind]
        exact e
      · rintro x ⟨g', hg', h1, h2⟩
        rcases List.mem_cons.mp hg' with h | h
        · subst h
          exact absurd hL h2
        · exact p3 x ⟨g', h, h1, h2⟩
      · intro x hx
        exact p4 x (fun ⟨g', hg', h1, h2⟩ => hx ⟨g', List.mem_cons_of_mem g hg', h1, h2⟩)
      · rintro k ⟨g', hg', h1, h2⟩
        rcases List.mem_cons.mp hg' with h | h
        · subst h
          exact absurd hL h2
        · exact p5 k ⟨g', h, h1, h2⟩
      · intro k hk
        exact p6 k (fun ⟨g', hg', h1, h2⟩ => hk ⟨g', List.mem_cons_of_mem g hg', h1, h2⟩)
    | false =>
      have hL : ¬ b.LibertySpec cfg (b.members g) := fun h => by
        have := hiff.2 h
        exact absurd this (by simp)
      obtain ⟨b1, e1, i1, eff⟩ := RemoveGroup_live i hg
      have co1 := eff.keeps_colorOK i co hg
      have hm1 : ∀ g', b1.members g' = b.members g' := members_of_sets eff.sets
      have hlive1 : ∀ g' ∈ gs, b1.grp g'.TopLeft = some g' ∧ g'.Color = oc := by
        intro g' hg'
        obtain ⟨h1, h2⟩ := hlive g' (List.mem_cons_of_mem g hg')
        refine ⟨?_, h2⟩
        rw [eff.grp, if_neg (hnd.1 g' hg')]
        exact h1
      have hlibs : ∀ g' ∈ gs, (b1.LibertySpec cfg (b1.members g') ↔
          b.LibertySpec cfg (b.members g')) := by
        intro g' hg'
        obtain ⟨h1, h2⟩ := hlive g' (List.mem_cons_of_mem g hg')
        rw [hm1]
        exact liberty_after_remove cfg i co hg h1 (by rw [hgc, h2]) (by rw [hgc]; exact hoc)
          (hnd.1 g' hg') eff
      obtain ⟨b', e, i', co', p1, p2, p3, p4, p5, p6⟩ := ih b1 i1 co1 hnd.2 hlive1
      have e1' : Board.resolveStep cfg ro c b g = some b1 := by
        simp [Board.resolveStep, Board.HasLiberty, hlib, hp, e1]
      refine ⟨b', ?_, i', co', by rw [p1, eff.size], by rw [p2, eff.sets], ?_, ?_, ?_, ?_⟩
      · simp only [List.foldlM_cons, e1', Option.bind_eq_bind, Option.some_bind]
        exact e
      · rintro x ⟨g', hg', h1, h2⟩
        by_cases hd : ∃ g'' ∈ gs, x ∈ b1.members g'' ∧ ¬ b1.LibertySpec cfg (b1.members g'')
        · exact p3 x hd
        · rw [p4 x hd, eff.stoneAt]
          rcases List.mem_cons.mp hg' with h | h
          · subst h
            rw [if_pos h1]
          · exact absurd ⟨g', h, by rw [hm1]; exact h1, by rw [hlibs g' h]; exact h2⟩ hd
      · intro x hx
        have hd : ¬ ∃ g'' ∈ gs, x ∈ b1.members g'' ∧ ¬ b1.LibertySpec cfg (b1.members g'') := by
          rintro ⟨g'', hg'', h1, h2⟩
          exact hx ⟨g'', List.mem_cons_of_mem g hg'', by rw [← hm1]; exact h1,
            by rw [← hlibs g'' hg'']; exact h2⟩
        rw [p4 x hd, eff.stoneAt]
        have : x ∉ b.members g := fun h => hx ⟨g, List.mem_cons_self g gs, h, hL⟩
        rw [if_neg this]
      · rintro k ⟨g', hg', h1, h2⟩
        by_cases hd : ∃ g'' ∈ gs, g''.TopLeft = k ∧ ¬ b1.LibertySpec cfg (b1.members g'')
        · exact p5 k hd
        · rw [p6 k hd, eff.grp]
          rcases List.mem_cons.mp hg' with h | h
          · subst h
            rw [if_pos h1.symm]
          · exact absurd ⟨g', h, h1, by rw [hlibs g' h]; exact h2⟩ hd
      · intro k hk
        have hd : ¬ ∃ g'' ∈ gs, g''.TopLeft = k ∧ ¬ b1.LibertySpec cfg (b1.members g'') := by
          rintro ⟨g'', hg'', h1, h2⟩
          exact hk ⟨g'', List.mem_cons_of_mem g hg'', h1, by rw [← hlibs g'' hg'']; exact h2⟩
        rw [p6 k hd, eff.grp]
        have : k ≠ g.TopLeft := fun h => hk ⟨g, List.mem_cons_self g gs, h.symm, hL⟩
        rw [if_neg this]

theorem mem_otherGroups {b : Board} (w : b.WF) {ro : RangeOrder} (hro : ro.Allowed b)
    (oc : Stone) (g : Group) :
    g ∈ b.otherGroups ro oc ↔ b.grp g.TopLeft = some g ∧ g.Color = oc := by
  constructor
  · exact (otherGroups_live w hro oc).1 g
  · rintro ⟨h1, h2⟩
    simp only [Board.otherGroups, List.mem_filter, decide_eq_true_eq]
    refine ⟨(hro.1 _).mem_iff.2 ?_, h2⟩
    exact List.mem_map.mpr ⟨(g.TopLeft, g), mem_of_mapGet _ _ _ h1, rfl⟩

theorem Reachable.colorOK {size : Nat} {b : Board}
    (h : Reachable (fun cfg => cfg.FlipOrRemove = FlipRemove.Remove) size b) : b.ColorOK := by
  induction h with
  | init =>
    intro k g h
    simp [Board.grp, NewBoard, mapGet] at h
  | put stone loc hr hs hv he hput ih =>
    exact PutAndMerge_colorOK hr.inv ih hs hv he hput
  | resolve cfg ro color hr hp hro hc hres ih =>
    obtain ⟨oc, hoc⟩ : ∃ oc, otherColorOf color = some oc := by
      cases color with
      | Empty => exact absurd rfl hc
      | Black => exact ⟨_, rfl⟩
      | White => exact ⟨_, rfl⟩
    have hocne : oc ≠ Stone.Empty := by
      cases color <;> simp [otherColorOf] at hoc <;> subst hoc <;> simp
    obtain ⟨hl, hnd⟩ := otherGroups_live hr.inv.1 hro oc
    obtain ⟨b'', e, _, co', _⟩ := resolve_remove_exact cfg hp ro color hocne
      (_ : List Group) _ hr.inv ih hnd hl
    simp only [Board.FlipOrRemoveAfter, hoc, Option.some_bind] at hres
    rw [hres] at e
    injection e with e
    rw [e]
    exact co'

theorem listOrder_allowed (b : Board) : RangeOrder.listOrder.Allowed b :=
  ⟨fun l => List.Perm.refl l, fun _ _ => ⟨fun _ hv => hv, fun _ hv => Or.inl hv⟩⟩

theorem not_libertySpec_of_hasLiberty (cfg : Config) {b : Board} (h : b.Sized) (g : Group)
    (hl : b.HasLiberty cfg g = some false) : ¬ b.LibertySpec cfg (b.members g) := by
  obtain ⟨r, hr, hiff⟩ := libertyOf_spec cfg h (b.members g)
  unfold Board.HasLiberty at hl
  rw [hl] at hr
  injection hr with hr
  subst hr
  intro hs
  exact absurd (hiff.2 hs) (by simp)

theorem NewBoard_stoneAt (size : Nat) (x : Location) (h : (NewBoard size).IsValid x = true) :
    (NewBoard size).StoneAt x = some Stone.Empty := by
  obtain ⟨s, hs⟩ := ((NewBoard_inv size).1.stoneAt_isSome x).2 h
  rw [hs, getPoint_replicate size x s hs]

theorem lone_stone_has_liberty (cfg : Config) (size : Nat) (hsz : 2 ≤ size) (stone : Stone)
    (hs : stone ≠ Stone.Empty) (loc : Location) (hv : (NewBoard size).IsValid loc = true) :
    ∃ b', (NewBoard size).PutAndMerge stone loc = some b' ∧
      b'.grp loc = some ⟨stone, loc, some 0⟩ ∧
      b'.members ⟨stone, loc, some 0⟩ = [loc] ∧
      b'.HasLiberty cfg ⟨stone, loc, some 0⟩ = some true := by
  have w := (NewBoard_inv size).1
  have he := NewBoard_stoneAt size loc hv
  obtain ⟨b1, h1, e, hd, hk⟩ := Put_effect w stone hv
  have w1 := e.put_wf w hs he hd hk
  have hv1 : b1.IsValid loc = true := by
    simpa [Board.IsValid, e.size] using hv
  have hother : ∀ n, n ≠ loc → b1.IsValid n = true → b1.StoneAt n = some Stone.Empty := by
    intro n hn hvn
    rw [e.stoneAt, if_neg hn]
    exact NewBoard_stoneAt size n (by simpa [Board.IsValid, e.size] using hvn)
  have hadjne : ∀ n, Adj loc n → n ≠ loc := by
    intro n hadj hnl
    subst hnl
    unfold Adj at hadj
    rcases hadj with h | h | h | h <;>
      · have hx := congrArg Location.X h
        have hy := congrArg Location.Y h
        simp only at hx hy
        omega
  obtain ⟨b2, h2, _, _, _, hsame⟩ := MergeNeighborsAt_spec w1 hv1
  have hb : b2 = b1 := by
    apply hsame
    intro n s hse _ hn hadj
    have hvn := (w1.stoneAt_isSome n).1 ⟨s, hn⟩
    rw [hother n (hadjne n hadj) hvn] at hn
    injection hn with hn
    exact absurd hn.symm hse
  subst hb
  have hlen : (NewBoard size).Sets.length = 0 := rfl
  have hmem : b2.members ⟨stone, loc, some 0⟩ = [loc] := by
    rw [members_eq b2 _ 0 rfl, ← hlen, e.fresh]
  refine ⟨b2, by simp only [Board.PutAndMerge, h1, Option.some_bind]; exact h2, ?_, hmem, ?_⟩
  · rw [e.grp, if_pos rfl, hlen]
  · obtain ⟨r, hr, hiff⟩ := libertyOf_spec cfg w1.sized (b2.members ⟨stone, loc, some 0⟩)
    have hspec : b2.LibertySpec cfg (b2.members ⟨stone, loc, some 0⟩) := by
      right
      rw [hmem]
      have hsize : b2.Size = (size : Int) := e.size
      have hvl : 0 ≤ loc.X ∧ loc.X < (size : Int) ∧ 0 ≤ loc.Y ∧ loc.Y < (size : Int) := by
        have := hv1
        simp only [Board.IsValid, Bool.and_eq_true, decide_eq_true_eq, hsize] at this
        omega
      by_cases hx : loc.X + 1 < (size : Int)
      · have hvn : b2.IsValid ⟨loc.X + 1, loc.Y⟩ = true := by
          simp only [Board.IsValid, Bool.and_eq_true, decide_eq_true_eq, hsize]
          omega
        exact ⟨loc, List.mem_singleton_self loc, ⟨loc.X + 1, loc.Y⟩, Or.inr (Or.inl rfl), hvn,
          hother _ (hadjne _ (Or.inr (Or.inl rfl))) hvn⟩
      · have hvn : b2.IsValid ⟨loc.X - 1, loc.Y⟩ = true := by
          simp only [Board.IsValid, Bool.and_eq_true, decide_eq_true_eq, hsize]
          omega
        exact ⟨loc, List.mem_singleton_self loc, ⟨loc.X - 1, loc.Y⟩, Or.inl rfl, hvn,
          hother _ (hadjne _ (Or.inl rfl)) hvn⟩
    have hrt : r = true := hiff.2 hspec
    unfold Board.HasLiberty
    rw [hr, hrt]

/-! ## Built boards are well-formed -/

theorem reversed_allowed (b : Board) : RangeOrder.reversed.Allowed b :=
  ⟨fun l => List.Perm.refl l,
    fun _ _ => ⟨fun _ hv => List.mem_reverse.mpr hv, fun _ hv => Or.inl (List.mem_reverse.mp hv)⟩⟩

theorem Board.WF.registryOK {b : Board} (w : b.WF) : b.RegistryOK := by
  refine ⟨?_, ?_, ?_⟩
  · intro k g h
    obtain ⟨ht, r, hr, _, hm⟩ := w.group k g h
    exact ⟨ht, by rw [members_eq b g r hr]; exact hm⟩
  · intro x hx
    obtain ⟨k, g, r, h1, h2, h3, h4⟩ := w.owner x hx
    exact ⟨k, g, h1, h2, by rw [members_eq b g r h3]; exact h4⟩
  · intro k g h m hm
    obtain ⟨_, r, hr, _, _⟩ := w.group k g h
    rw [members_eq b g r hr] at hm
    exact (w.member k g r h hr m hm).1

theorem RemoveEffect.removeSpec {b b' : Board} {g : Group}
    (e : RemoveEffect b b' g.TopLeft (b.members g)) : b.RemoveSpec b' g := by
  refine ⟨?_, ?_, ?_, ?_⟩
  · intro m hm
    exact ⟨by rw [e.stoneAt, if_pos hm], by rw [e.own, if_pos hm]⟩
  · rw [e.grp, if_pos rfl]
  · intro x hx
    exact ⟨by rw [e.stoneAt, if_neg hx], by rw [e.own, if_neg hx]⟩
  · intro k g0 hk h0
    exact ⟨by rw [e.grp, if_neg hk]; exact h0, members_of_sets e.sets g0⟩

theorem RemoveGroup_wf {b : Board} (w : b.WF) {g : Group} (hg : b.grp g.TopLeft = some g) :
    ∃ b', b.RemoveGroup g = some b' ∧ b'.WF ∧
      RemoveEffect b b' g.TopLeft (b.members g) := by
  obtain ⟨_, r, hr, _, _⟩ := w.group _ g hg
  have hv : ∀ x ∈ b.members g, b.IsValid x = true := by
    intro x hx
    rw [members_eq b g r hr] at hx
    obtain ⟨s, hs, _⟩ := (w.member _ g r hg hr x hx).2
    exact (w.stoneAt_isSome x).1 ⟨s, hs⟩
  obtain ⟨b', e, eff, hd, hk⟩ := RemoveGroup_effect w g hv
  refine ⟨b', e, ?_, eff⟩
  rw [members_eq b g r hr] at eff
  exact eff.keeps_wf w hg hr hd hk

theorem yields_fold {c : Stone} {g : Group} {r : Nat}
    (hr : g.Members = some r) (vs : List Location) :
    ∀ b : Board, b.WF → (∀ m ∈ b.setAt r, b.StoneAt m = some c) → b.Yields g vs →
      ∃ b', vs.foldlM Board.MergeNeighborsAt b = some b' ∧ b'.WF ∧ MergedBy c b b' := by
  induction vs with
  | nil =>
    intro b w _ _
    exact ⟨b, rfl, w, MergedBy.id_merge c b⟩
  | cons v vs ih =>
    intro b w hcol hy
    obtain ⟨hv, hnext⟩ := hy
    rw [members_eq b g r hr] at hv
    have hs := hcol v hv
    have hval : b.IsValid v = true := (w.stoneAt_isSome v).1 ⟨c, hs⟩
    obtain ⟨b1, e1, w1, m1, _, _⟩ := MergeNeighborsAt_spec w hval
    have mb : MergedBy c b b1 := m1 c hs
    have hS := stoneAt_of_points mb.points
    have hcol1 : ∀ m ∈ b1.setAt r, b1.StoneAt m = some c := by
      intro m hm
      rw [hS]
      rcases mb.set_grow r m hm with h | h
      · exact hcol m h
      · exact h
    obtain ⟨b2, e2, w2, m2⟩ := ih b1 w1 hcol1 (hnext b1 e1)
    refine ⟨b2, ?_, w2, mb.comp m2⟩
    simp only [List.foldlM_cons, e1, Option.bind_eq_bind, Option.some_bind]
    exact e2

theorem paint_eq (b : Board) (g : Group) (c : Stone) (r : Nat) (hr : g.Members = some r) :
    b.paint g c = (b.setAt r).foldlM (fun (b1 : Board) loc => b1.setStone loc c) b := by
  unfold Board.paint
  rw [members_eq b g r hr]

theorem FlipGroup_wf {b : Board} (w : b.WF) {c : Stone} (hc : c ≠ Stone.Empty) {g : Group}
    (hsnap : Snap c b g) (ro : RangeOrder)
    (hy : ∀ b1, b.paint g c = some b1 → b1.Yields g (ro.members g (b1.members g))) :
    ∃ b', b.FlipGroup ro g c = some b' ∧ b'.WF ∧ Recoloured c b b' := by
  obtain ⟨r, hr, hcase⟩ := hsnap
  obtain ⟨b1, e1, p1, p2, p3, p4, p6, w1, _⟩ := paint_spec w hc hr hcase
  have a1 : ∀ k, b1.grp k = b.grp k := fun k => by simp [Board.grp, p2]
  have a3 : ∀ r', b1.setAt r' = b.setAt r' := fun r' => by simp [Board.setAt, p4]
  have hp : b.paint g c = some b1 := by rw [paint_eq b g c r hr]; exact e1
  have hcol : ∀ m ∈ b1.setAt r, b1.StoneAt m = some c := by
    intro m hm
    rw [a3] at hm
    rw [p6, if_pos hm]
  obtain ⟨b2, e2, w2, m2⟩ := yields_fold hr _ b1 w1 hcol (hy b1 hp)
  refine ⟨b2, ?_, w2, ?_⟩
  · have : b.FlipGroup ro g c = (b.paint g c).bind fun b1 =>
        (ro.members g (b1.members g)).foldlM Board.MergeNeighborsAt b1 := rfl
    rw [this, hp]
    exact e2
  · have rc1 : Recoloured c b b1 := by
      constructor
      · exact p1
      · intro x
        rw [p6]
        by_cases hx : x ∈ b.setAt r
        · exact Or.inr (by rw [if_pos hx])
        · exact Or.inl (by rw [if_neg hx])
      · intro k g0 h
        rw [a1] at h
        exact h
      · intro k g0 h
        exact Or.inl (by rw [a1]; exact h)
      · intro r' x hx
        rw [a3]
        exact hx
      · intro r' x hx
        rw [a3] at hx
        exact Or.inl hx
    exact rc1.chain m2.to_recoloured

theorem resolve_flip_wf_fold (cfg : Config) (hp : cfg.FlipOrRemove = FlipRemove.Flip)
    (ro : RangeOrder) {c : Stone} (hc : c ≠ Stone.Empty) (gs : List Group) :
    ∀ b : Board, b.WF → (∀ g ∈ gs, Snap c b g) → b.ExactRanges cfg ro c gs →
      ∃ b', gs.foldlM (Board.resolveStep cfg ro c) b = some b' ∧ b'.WF ∧
        Recoloured c b b' := by
  induction gs with
  | nil =>
    intro b w _ _
    exact ⟨b, rfl, w, Recoloured.id_recolour c b⟩
  | cons g gs ih =>
    intro b w hsn hex
    obtain ⟨hfirst, hnext⟩ := hex
    obtain ⟨lib, hlib⟩ := HasLiberty_total cfg w.sized g
    have step : ∃ b1, Board.resolveStep cfg ro c b g = some b1 ∧ b1.WF ∧ Recoloured c b b1 := by
      cases lib with
      | true =>
        exact ⟨b, by simp [Board.resolveStep, hlib], w, Recoloured.id_recolour c b⟩
      | false =>
        obtain ⟨b1, e1, w1, r1⟩ := FlipGroup_wf w hc (hsn g (List.mem_cons_self g gs)) ro
          (hfirst hp hlib)
        exact ⟨b1, by simp [Board.resolveStep, hlib, hp, e1], w1, r1⟩
    obtain ⟨b1, e1, w1, r1⟩ := step
    obtain ⟨b2, e2, w2, r2⟩ := ih b1 w1
      (fun x hx => (hsn x (List.mem_cons_of_mem g hx)).of_recoloured r1) (hnext b1 e1)
    refine ⟨b2, ?_, w2, r1.chain r2⟩
    simp only [List.foldlM_cons, e1, Option.bind_eq_bind, Option.some_bind]
    exact e2

theorem resolve_remove_wf_fold (cfg : Config) (hp : cfg.FlipOrRemove = FlipRemove.Remove)
    (ro : RangeOrder) (c : Stone) (gs : List Group) :
    ∀ b : Board, b.WF → (gs.map Group.TopLeft).Nodup →
      (∀ g ∈ gs, b.grp g.TopLeft = some g) →
      ∃ b', gs.foldlM (Board.resolveStep cfg ro c) b = some b' ∧ b'.WF := by
  induction gs with
  | nil =>
    intro b w _ _
    exact ⟨b, rfl, w⟩
  | cons g gs ih =>
    intro b w hnd hlive
    simp only [List.map_cons, List.nodup_cons, List.mem_map, not_exists, not_and] at hnd
    obtain ⟨lib, hlib⟩ := HasLiberty_total cfg w.sized g
    have step : ∃ b1, Board.resolveStep cfg ro c b g = some b1 ∧ b1.WF ∧
        ∀ g' ∈ gs, b1.grp g'.TopLeft = some g' := by
      cases lib with
      | true =>
        exact ⟨b, by simp [Board.resolveStep, hlib], w,
          fun g' hg' => hlive g' (List.mem_cons_of_mem g hg')⟩
      | false =>
        obtain ⟨b1, e1, w1, eff⟩ := RemoveGroup_wf w (hlive g (List.mem_cons_self g gs))
        refine ⟨b1, by simp [Board.resolveStep, hlib, hp, e1], w1, ?_⟩
        intro g' hg'
        rw [eff.grp, if_neg (hnd.1 g' hg')]
        exact hlive g' (List.mem_cons_of_mem g hg')
    obtain ⟨b1, e1, w1, l1⟩ := step
    obtain ⟨b2, e2, w2⟩ := ih b1 w1 hnd.2 l1
    refine ⟨b2, ?_, w2⟩
    simp only [List.foldlM_cons, e1, Option.bind_eq_bind, Option.some_bind]
    exact e2

theorem otherGroups_live_of_perm {b : Board} (w : b.WF) {ro : RangeOrder}
    (hro : ∀ l, (ro.groups l).Perm l) (oc : Stone) :
    (∀ g ∈ b.otherGroups ro oc, b.grp g.TopLeft = some g ∧ g.Color = oc) ∧
      ((b.otherGroups ro oc).map Group.TopLeft).Nodup := by
  constructor
  · intro g hg
    simp only [Board.otherGroups, List.mem_filter, decide_eq_true_eq] at hg
    have h1 : g ∈ b.Groups.map Prod.snd := (hro _).mem_iff.1 hg.1
    obtain ⟨⟨k, g'⟩, hkg, rfl⟩ := List.mem_map.mp h1
    have h2 := mapGet_of_mem _ k g' w.keys hkg
    have h3 := (w.group k g' h2).1
    simp only at h3 ⊢
    rw [h3]
    exact ⟨h2, hg.2⟩
  · have h1 : ((ro.groups (b.Groups.map Prod.snd)).map Group.TopLeft).Nodup := by
      have := ((hro (b.Groups.map Prod.snd)).map Group.TopLeft).nodup_iff
      rw [this, w.snd_topLeft]
      exact w.keys
    exact List.Nodup.sublist (List.Sublist.map _ (List.filter_sublist _)) h1

theorem Built.wf {size : Nat} {b : Board} (h : Built size b) : b.WF := by
  induction h with
  | init => exact (NewBoard_inv size).1
  | put stone loc _ hs hv he hput ih =>
    obtain ⟨b', e, eff, hd, hk⟩ := Put_effect ih stone hv
    rw [hput] at e
    injection e with e
    subst e
    exact eff.put_wf ih hs he hd hk
  | putAndMerge stone loc _ hs hv he hput ih =>
    obtain ⟨b1, e, eff, hd, hk⟩ := Put_effect ih stone hv
    have w1 := eff.put_wf ih hs he hd hk
    have hv1 : b1.IsValid loc = true := by
      simpa [Board.IsValid, eff.size] using hv
    obtain ⟨b2, h2, w2, _⟩ := MergeNeighborsAt_spec w1 hv1
    simp only [Board.PutAndMerge, e, Option.some_bind] at hput
    rw [hput] at h2
    injection h2 with h2
    rw [h2]
    exact w2
  | resolve cfg ro color oc _ hro hoc hex hres ih =>
    have hc : color ≠ Stone.Empty := by
      rintro rfl
      simp [otherColorOf] at hoc
    obtain ⟨hl, hnd⟩ := otherGroups_live_of_perm ih hro oc
    simp only [Board.FlipOrRemoveAfter, hoc, Option.some_bind] at hres
    cases hp : cfg.FlipOrRemove with
    | Flip =>
      obtain ⟨b'', e, w', _⟩ := resolve_flip_wf_fold cfg hp ro hc (_ : List Group) _ ih
        (fun g hg => by
          obtain ⟨_, r, hr, _, _⟩ := ih.group _ g (hl g hg).1
          exact ⟨r, hr, Or.inl (hl g hg).1⟩) hex
      rw [hres] at e
      injection e with e
      rw [e]
      exact w'
    | Remove =>
      obtain ⟨b'', e, w'⟩ := resolve_remove_wf_fold cfg hp ro color (_ : List Group) _ ih hnd
        (fun g hg => (hl g hg).1)
      rw [hres] at e
      injection e with e
      rw [e]
      exact w'

/-! ## Range orders that yield only keys of the ranged map -/

theorem yields_of_subset {g : Group} {r : Nat} (hr : g.Members = some r) (vs : List Location) :
    ∀ b : Board, b.WF → (∀ m ∈ b.setAt r, b.IsValid m = true) → (∀ v ∈ vs, v ∈ b.setAt r) →
      b.Yields g vs := by
  induction vs with
  | nil =>
    intro b _ _ _
    exact trivial
  | cons v vs ih =>
    intro b w hval hsub
    have hv := hsub v (List.mem_cons_self v vs)
    refine ⟨by rw [members_eq b g r hr]; exact hv, ?_⟩
    intro b' hb'
    obtain ⟨b1, e1, w1, m1, _, _⟩ := MergeNeighborsAt_spec w (hval v hv)
    rw [hb'] at e1
    injection e1 with e1
    subst e1
    obtain ⟨s, hs⟩ := (w.stoneAt_isSome v).2 (hval v hv)
    have mb := m1 s hs
    have hv' : ∀ x, b'.IsValid x = b.IsValid x := fun x => by simp [Board.IsValid, mb.size]
    apply ih b' w1
    · intro m hm
      rw [hv']
      rcases mb.set_grow r m hm with h | h
      · exact hval m h
      · exact (w.stoneAt_isSome m).1 ⟨s, h⟩
    · intro x hx
      exact mb.set_mono r x (hsub x (List.mem_cons_of_mem v hx))

theorem exactRanges_remove (cfg : Config) (hp : cfg.FlipOrRemove = FlipRemove.Remove)
    (ro : RangeOrder) (c : Stone) (gs : List Group) :
    ∀ b : Board, b.ExactRanges cfg ro c gs := by
  induction gs with
  | nil =>
    intro b
    exact trivial
  | cons g gs ih =>
    intro b
    refine ⟨?_, fun b' _ => ih b'⟩
    intro hf
    rw [hp] at hf
    exact absurd hf (by decide)

theorem exactRanges_flip (cfg : Config) (hp : cfg.FlipOrRemove = FlipRemove.Flip)
    (ro : RangeOrder) (hro : ∀ g l, ∀ v ∈ ro.members g l, v ∈ l) {c : Stone}
    (hc : c ≠ Stone.Empty) (gs : List Group) :
    ∀ b : Board, b.WF → (∀ g ∈ gs, Snap c b g) → b.ExactRanges cfg ro c gs := by
  induction gs with
  | nil =>
    intro b _ _
    exact trivial
  | cons g gs ih =>
    intro b w hsn
    have hfirst : ∀ b1, b.paint g c = some b1 →
        b1.Yields g (ro.members g (b1.members g)) := by
      intro b1 hb1
      obtain ⟨r, hr, hcase⟩ := hsn g (List.mem_cons_self g gs)
      obtain ⟨b1', e1, p1, _, _, p4, _, w1, hLv⟩ := paint_spec w hc hr hcase
      rw [paint_eq b g c r hr, e1] at hb1
      injection hb1 with hb1
      subst hb1
      have a3 : ∀ r', b1'.setAt r' = b.setAt r' := fun r' => by simp [Board.setAt, p4]
      apply yields_of_subset hr _ b1' w1
      · intro m hm
        rw [a3] at hm
        have := hLv m hm
        simpa [Board.IsValid, p1] using this
      · intro v hv
        have := hro g _ v hv
        rw [members_eq b1' g r hr] at this
        exact this
    refine ⟨fun _ _ => hfirst, ?_⟩
    intro b' hb'
    obtain ⟨lib, hlib⟩ := HasLiberty_total cfg w.sized g
    have step : b'.WF ∧ Recoloured c b b' := by
      cases lib with
      | true =>
        have : Board.resolveStep cfg ro c b g = some b := by simp [Board.resolveStep, hlib]
        rw [this] at hb'
        injection hb' with hb'
        subst hb'
        exact ⟨w, Recoloured.id_recolour c b⟩
      | false =>
        obtain ⟨b1, e1, w1, r1⟩ := FlipGroup_wf w hc (hsn g (List.mem_cons_self g gs)) ro hfirst
        have : Board.resolveStep cfg ro c b g = some b1 := by
          simp [Board.resolveStep, hlib, hp, e1]
        rw [this] at hb'
        injection hb' with hb'
        subst hb'
        exact ⟨w1, r1⟩
    exact ih b' step.1 (fun x hx => (hsn x (List.mem_cons_of_mem g hx)).of_recoloured step.2)

theorem exactRanges_of_subset (cfg : Config) (ro : RangeOrder)
    (hg : ∀ l, (ro.groups l).Perm l) (hro : ∀ g l, ∀ v ∈ ro.members g l, v ∈ l) {c oc : Stone}
    (hoc : otherColorOf c = some oc) {b : Board} (w : b.WF) :
    b.ExactRanges cfg ro c (b.otherGroups ro oc) := by
  have hc : c ≠ Stone.Empty := by
    rintro rfl
    simp [otherColorOf] at hoc
  cases hp : cfg.FlipOrRemove with
  | Remove => exact exactRanges_remove cfg hp ro c _ b
  | Flip =>
    apply exactRanges_flip cfg hp ro hro hc _ b w
    intro g hgm
    have hl := (otherGroups_live_of_perm w hg oc).1 g hgm
    obtain ⟨_, r, hr, _, _⟩ := w.group _ g hl.1
    exact ⟨r, hr, Or.inl hl.1⟩

theorem Built.ofMoves {size : Nat} (moves : List (Stone × Location)) :
    ∀ {b b' : Board}, Built size b → b.playMoves moves = some b' → Built size b' := by
  induction moves with
  | nil =>
    intro b b' h e
    simp only [Board.playMoves] at e
    injection e with e
    rw [← e]
    exact h
  | cons mv moves ih =>
    intro b b' h e
    obtain ⟨stone, loc⟩ := mv
    simp only [Board.playMoves] at e
    split at e
    · rename_i hc
      cases h1 : b.PutAndMerge stone loc with
      | none => simp [h1] at e
      | some b1 =>
        rw [h1] at e
        exact ih (Built.putAndMerge stone loc h hc.1 hc.2.1 hc.2.2 h1) e
    · exact absurd e (by simp)

/-! ## The batch merge of `foobar` -/

theorem putAll_spec (moves : List (Stone × Location)) :
    ∀ b : Board, b.WF → (moves.map Prod.snd).Nodup →
      (∀ m ∈ moves, m.1 ≠ Stone.Empty ∧ b.IsValid m.2 = true ∧
        b.StoneAt m.2 = some Stone.Empty) →
      ∃ b', b.putAll moves = some b' ∧ b'.WF ∧ b'.Size = b.Size := by
  induction moves with
  | nil =>
    intro b w _ _
    exact ⟨b, rfl, w, rfl⟩
  | cons mv moves ih =>
    intro b w hnd hm
    obtain ⟨stone, loc⟩ := mv
    simp only [List.map_cons, List.nodup_cons, List.mem_map, not_exists, not_and] at hnd
    obtain ⟨hs, hv, he⟩ := hm (stone, loc) (List.mem_cons_self _ _)
    obtain ⟨b1, e1, eff, hd, hk⟩ := Put_effect w stone hv
    have w1 := eff.put_wf w hs he hd hk
    obtain ⟨b2, e2, w2, hsz⟩ := ih b1 w1 hnd.2 (fun m hmm => by
      obtain ⟨h1, h2, h3⟩ := hm m (List.mem_cons_of_mem _ hmm)
      have hne : m.2 ≠ loc := fun h => hnd.1 m hmm h
      refine ⟨h1, by simpa [Board.IsValid, eff.size] using h2, ?_⟩
      rw [eff.stoneAt, if_neg hne]
      exact h3)
    refine ⟨b2, ?_, w2, by rw [hsz, eff.size]⟩
    have : b.putAll ((stone, loc) :: moves) = (b.Put stone loc).bind fun b1 => b1.putAll moves :=
      rfl
    rw [this, e1]
    exact e2

theorem mergeAt_fold (vs : List Location) :
    ∀ b : Board, b.WF → (∀ v ∈ vs, b.IsValid v = true) →
      ∃ b', vs.foldlM Board.MergeNeighborsAt b = some b' ∧ b'.WF ∧ b'.Points = b.Points ∧
        b'.Size = b.Size ∧ (∀ a n, b.MaxPair a n → b'.MaxPair a n) ∧
        ∀ v ∈ vs, ∀ n, b'.MaxPair v n := by
  induction vs with
  | nil =>
    intro b w _
    exact ⟨b, rfl, w, rfl, rfl, fun _ _ h => h, by simp⟩
  | cons v vs ih =>
    intro b w hv
    have hvv := hv v (List.mem_cons_self v vs)
    obtain ⟨b1, e1, w1, m1, x1, _⟩ := MergeNeighborsAt_spec w hvv
    obtain ⟨s, hs⟩ := (w.stoneAt_isSome v).2 hvv
    have mb := m1 s hs
    obtain ⟨b2, e2, w2, p2, s2, k2, x2⟩ := ih b1 w1 (fun x hx => by
      have := hv x (List.mem_cons_of_mem v hx)
      simpa [Board.IsValid, mb.size] using this)
    refine ⟨b2, ?_, w2, by rw [p2, mb.points], by rw [s2, mb.size],
      fun a n h => k2 a n (mb.maxPair h), ?_⟩
    · simp only [List.foldlM_cons, e1, Option.bind_eq_bind, Option.some_bind]
      exact e2
    · intro x hx n
      rcases List.mem_cons.mp hx with h | h
      · subst h
        exact k2 x n (x1 n)
      · exact x2 x h n

theorem mem_allLocations_iff (b : Board) (x : Location) :
    x ∈ b.AllLocations ↔
      ∃ i j : Nat, i < b.Size.toNat ∧ j < b.Size.toNat ∧ x = ⟨(i : Int), (j : Int)⟩ := by
  unfold Board.AllLocations
  simp only [List.mem_flatMap, List.mem_range, List.mem_map, List.bind_eq_flatMap,
    List.pure_def, List.mem_singleton]
  constructor
  · rintro ⟨j, hj, z, ⟨i, hi, rfl⟩, rfl⟩
    exact ⟨i, j, hi, hj, rfl⟩
  · rintro ⟨i, j, hi, hj, rfl⟩
    exact ⟨j, hj, (i : Int), ⟨i, hi, rfl⟩, rfl⟩

theorem mem_allLocations (b : Board) (x : Location) (h : b.IsValid x = true) :
    x ∈ b.AllLocations := by
  simp only [Board.IsValid, Bool.and_eq_true, decide_eq_true_eq, ge_iff_le] at h
  obtain ⟨⟨⟨h1, h2⟩, h3⟩, h4⟩ := h
  have hpos : 0 < b.Size := lt_of_le_of_lt h1 h2
  refine (mem_allLocations_iff b x).2 ⟨x.X.toNat, x.Y.toNat, (Int.toNat_lt_toNat hpos).2 h2,
    (Int.toNat_lt_toNat hpos).2 h4, ?_⟩
  rw [Int.toNat_of_nonneg h1, Int.toNat_of_nonneg h3]

theorem mergeAll_spec {b : Board} (w : b.WF) :
    ∃ b', b.mergeAll = some b' ∧ b'.Inv ∧ b'.Points = b.Points ∧ b'.Size = b.Size := by
  have hall : ∀ v ∈ b.AllLocations, b.IsValid v = true := by
    intro v hv
    obtain ⟨i, j, hi, hj, rfl⟩ := (mem_allLocations_iff b v).1 hv
    have hi' := Int.lt_toNat.mp hi
    have hj' := Int.lt_toNat.mp hj
    simp only [Board.IsValid, Bool.and_eq_true, decide_eq_true_eq, ge_iff_le]
    omega
  obtain ⟨b', e, w', p, s, _, x⟩ := mergeAt_fold b.AllLocations b w hall
  refine ⟨b', e, ⟨w', ?_⟩, p, s⟩
  intro a n t ht h1 h2 hadj
  have hva : b.IsValid a = true := by
    have := (w'.stoneAt_isSome a).1 ⟨t, h1⟩
    simpa [Board.IsValid, s] using this
  exact x a (mem_allLocations b a hva) n t ht h1 h2 hadj

theorem Board.Inv.components {b : Board} (i : b.Inv) : b.Components := by
  refine ⟨i.partition, ?_⟩
  intro k g hg x hx y
  constructor
  · intro hy
    obtain ⟨s, hs, _, _, hj⟩ := i.connectedGroups k g hg x hx y hy
    exact Relation.ReflTransGen.mono
      (fun a c hac => ⟨hac.2.2.1, s, hs, hac.2.2.2.1, hac.2.2.2.2⟩) hj
  · intro hp
    induction hp with
    | refl => exact hx
    | @tail a c _ hstep ih =>
      obtain ⟨hadj, s, hs, h1, h2⟩ := hstep
      have hva := (i.1.stoneAt_isSome a).1 ⟨s, h1⟩
      have hvc := (i.1.stoneAt_isSome c).1 ⟨s, h2⟩
      obtain ⟨k', g', _, _, hg', ha', hc'⟩ := i.maximalGroups a c s hva hvc hadj hs h1 h2
      by_cases hk : k = k'
      · subst hk
        rw [hg] at hg'
        injection hg' with hg'
        subst hg'
        exact hc'
      · exact absurd ha' (i.partition.1 k k' g g' hg hg' hk a ih)

/-! ## `PutAndMerge` on an occupied cell -/

theorem mergeNeighbor_same_owner {b : Board} {s sn : Stone} {loc n : Location}
    (hn : b.StoneAt n = some sn) (ho : s = sn → b.ownerAt loc = b.ownerAt n) :
    Board.mergeNeighbor s loc b n = some b := by
  unfold Board.mergeNeighbor
  rw [hn]
  simp only [Option.some_bind]
  by_cases hc : s = sn
  · rw [if_pos hc, ho hc]
    simp [Board.Merge]
  · rw [if_neg hc]

theorem mergeNeighbor_owned {b : Board} (hsz : b.Sized) {s : Stone} (hj : b.OwnedStones s)
    {loc n : Location} (hloc : b.StoneAt loc = some s) (hv : b.IsValid n = true) :
    ∃ b', Board.mergeNeighbor s loc b n = some b' ∧ b'.OwnedStones s ∧
      b'.Points = b.Points ∧ b'.Size = b.Size := by
  obtain ⟨sn, hsn⟩ := (hsz.stoneAt_some_iff n).2 hv
  by_cases hc : s = sn
  · subst hc
    obtain ⟨k1, g1, r1, o1, p1, t1, q1, l1, m1⟩ := hj loc hloc
    obtain ⟨k2, g2, r2, o2, p2, t2, q2, l2, m2⟩ := hj n hsn
    have key : Board.mergeNeighbor s loc b n = b.Merge g1 g2 := by
      unfold Board.mergeNeighbor
      rw [hsn]
      simp only [Option.some_bind, if_true]
      rw [ownerAt_of_own o1, ownerAt_of_own o2, groupAt_of_grp p1, groupAt_of_grp p2]
    rw [key]
    have main : ∀ (gs gd : Group) (ks kd : Location) (rs rd : Nat),
        b.grp ks = some gs → b.grp kd = some gd → gs.TopLeft = ks → gd.TopLeft = kd →
        gs.Members = some rs → gd.Members = some rd → rs < b.Sets.length → ks ≠ kd →
        ∃ b', b.mergeInto gs gd = some b' ∧ b'.OwnedStones s ∧ b'.Points = b.Points ∧
          b'.Size = b.Size := by
      intro gs gd ks kd rs rd ps pd ts td qs qd ls hne
      obtain ⟨b', hb', e⟩ := mergeInto_effect b gs gd rs rd qs qd ls
      rw [ts, td] at e
      refine ⟨b', hb', ?_, e.points, e.size⟩
      intro x hx
      rw [stoneAt_of_points e.points] at hx
      obtain ⟨k, g, r, o, p, t, q, l, m⟩ := hj x hx
      by_cases hxd : x ∈ b.setAt rd
      · refine ⟨ks, gs, rs, ?_, ?_, ts, qs, by rw [e.slen]; exact ls, (e.surv x).2 (Or.inr hxd)⟩
        · rw [e.own, if_pos hxd]
        · rw [e.grp, if_neg hne]
          exact ps
      · have hk : k ≠ kd := by
          rintro rfl
          rw [pd] at p
          injection p with p
          subst p
          rw [qd] at q
          injection q with q
          subst q
          exact hxd m
        refine ⟨k, g, r, ?_, ?_, t, q, by rw [e.slen]; exact l, ?_⟩
        · rw [e.own, if_neg hxd]
          exact o
        · rw [e.grp, if_neg hk]
          exact p
        · by_cases hrr : r = rs
          · subst hrr
            exact (e.surv x).2 (Or.inl m)
          · rw [e.other r hrr]
            exact m
    unfold Board.Merge
    rw [t1, t2]
    by_cases hk : k1 = k2
    · rw [if_pos hk]
      exact ⟨b, rfl, hj, rfl, rfl⟩
    · rw [if_neg hk]
      by_cases hb : k2.IsBefore k1 = true
      · rw [if_pos hb]
        exact main g2 g1 k2 k1 r2 r1 p2 p1 t2 t1 q2 q1 l2 (Ne.symm hk)
      · rw [if_neg hb]
        exact main g1 g2 k1 k2 r1 r2 p1 p2 t1 t2 q1 q2 l1 hk
  · exact ⟨b, mergeNeighbor_same_owner hsn (fun h => absurd h hc), hj, rfl, rfl⟩

theorem mergeNeighbor_owned_fold {s : Stone} {loc : Location} (ns : List Location) :
    ∀ b : Board, b.Sized → b.OwnedStones s → b.StoneAt loc = some s →
      (∀ n ∈ ns, b.IsValid n = true) →
      ∃ b', ns.foldlM (Board.mergeNeighbor s loc) b = some b' ∧ b'.Points = b.Points ∧
        b'.Size = b.Size := by
  induction ns with
  | nil =>
    intro b _ _ _ _
    exact ⟨b, rfl, rfl, rfl⟩
  | cons n ns ih =>
    intro b hsz hj hloc hv
    obtain ⟨b1, e1, j1, p1, s1⟩ := mergeNeighbor_owned hsz hj hloc (hv n (List.mem_cons_self n ns))
    have hsz1 : b1.Sized := by
      unfold Board.Sized
      rw [p1, s1]
      exact hsz
    obtain ⟨b2, e2, p2, s2⟩ := ih b1 hsz1 j1 (by rw [stoneAt_of_points p1]; exact hloc)
      (fun x hx => by
        have := hv x (List.mem_cons_of_mem n hx)
        simpa [Board.IsValid, s1] using this)
    refine ⟨b2, ?_, by rw [p2, p1], by rw [s2, s1]⟩
    simp only [List.foldlM_cons, e1, Option.bind_eq_bind, Option.some_bind]
    exact e2

theorem mergeNeighbor_same_fold {s : Stone} {loc : Location} (ns : List Location) (b : Board)
    (h : ∀ n ∈ ns, ∃ sn, b.StoneAt n = some sn ∧ (s = sn → b.ownerAt loc = b.ownerAt n)) :
    ns.foldlM (Board.mergeNeighbor s loc) b = some b := by
  induction ns with
  | nil => rfl
  | cons n ns ih =>
    obtain ⟨sn, h1, h2⟩ := h n (List.mem_cons_self n ns)
    simp only [List.foldlM_cons, mergeNeighbor_same_owner h1 h2, Option.bind_eq_bind,
      Option.some_bind]
    exact ih (fun x hx => h x (List.mem_cons_of_mem n hx))

theorem PutAndMerge_occupied {b : Board} (i : b.Inv) (stone : Stone) {loc : Location}
    (hv : b.IsValid loc = true) (ho : b.Occupied loc) :
    ∃ b1 b2, b.Put stone loc = some b1 ∧ PutEffect b b1 stone loc ∧
      b.PutAndMerge stone loc = some b2 ∧ b2.Points = b1.Points ∧ b2.Size = b1.Size := by
  obtain ⟨w, mx⟩ := i
  obtain ⟨b1, e1, e, hd, _⟩ := Put_effect w stone hv
  have hsz1 : b1.Sized := ⟨by rw [e.size]; exact w.size_nonneg, hd⟩
  have hloc1 : b1.StoneAt loc = some stone := by rw [e.stoneAt, if_pos rfl]
  have hpm : b.PutAndMerge stone loc = b1.MergeNeighborsAt loc := by
    simp only [Board.PutAndMerge, e1, Option.some_bind]
  have hmna : b1.MergeNeighborsAt loc =
      if stone = Stone.Empty then some b1
      else (b1.NeighborLocations loc).foldlM (Board.mergeNeighbor stone loc) b1 := by
    unfold Board.MergeNeighborsAt
    rw [hloc1]
    rfl
  rw [hpm, hmna]
  by_cases hs : stone = Stone.Empty
  · rw [if_pos hs]
    exact ⟨b1, b1, e1, e, rfl, rfl, rfl⟩
  rw [if_neg hs]
  have hnb : ∀ n ∈ b1.NeighborLocations loc, Adj loc n ∧ b1.IsValid n = true ∧ n ≠ loc := by
    intro n hn
    obtain ⟨hadj, hvn⟩ := (mem_neighborLocations b1 loc n).1 hn
    refine ⟨hadj, hvn, ?_⟩
    rintro rfl
    unfold Adj at hadj
    rcases hadj with h | h | h | h <;>
      · have hx := congrArg Location.X h
        have hy := congrArg Location.Y h
        simp only at hx hy
        omega
  by_cases hA : (∃ G, b.grp loc = some G) ∧ b.StoneAt loc = some stone
  · obtain ⟨⟨G, hG⟩, hst⟩ := hA
    have hown : b.own loc = some loc := by
      obtain ⟨_, r, hr, _, hm⟩ := w.group loc G hG
      exact (w.member loc G r hG hr loc hm).1
    have hsame : (b1.NeighborLocations loc).foldlM (Board.mergeNeighbor stone loc) b1 =
        some b1 :=
      mergeNeighbor_same_fold (b1.NeighborLocations loc) b1 (fun n hn => by
        obtain ⟨hadj, hvn, hne⟩ := hnb n hn
        obtain ⟨sn, hsn⟩ := (hsz1.stoneAt_some_iff n).2 hvn
        refine ⟨sn, hsn, ?_⟩
        intro hc
        subst hc
        rw [e.stoneAt, if_neg hne] at hsn
        have h1 := mx loc n stone hs hst hsn hadj
        have o1 : b1.own loc = some loc := by rw [e.own, if_pos rfl]
        have o2 : b1.own n = some loc := by rw [e.own, if_neg hne, ← h1, hown]
        rw [ownerAt_of_own o1, ownerAt_of_own o2])
    exact ⟨b1, b1, e1, e, hsame, rfl, rfl⟩
  · have hj : b1.OwnedStones stone := by
      intro x hx
      by_cases hxl : x = loc
      · subst hxl
        refine ⟨x, ⟨stone, x, some b.Sets.length⟩, b.Sets.length, ?_, ?_, rfl, rfl, ?_, ?_⟩
        · rw [e.own, if_pos rfl]
        · rw [e.grp, if_pos rfl]
        · rw [e.slen]
          omega
        · rw [e.fresh]
          exact List.mem_singleton_self x
      · rw [e.stoneAt, if_neg hxl] at hx
        obtain ⟨k, g, r, h1, h2, h3, h4⟩ := w.owner x ⟨stone, hx, hs⟩
        obtain ⟨ht, r', hr', hl, hm⟩ := w.group k g h2
        rw [h3] at hr'
        injection hr' with hr'
        subst hr'
        have hk : k ≠ loc := by
          rintro rfl
          apply hA
          refine ⟨⟨g, h2⟩, ?_⟩
          rw [w.uniform k g r h2 h3 k hm x h4]
          exact hx
        refine ⟨k, g, r, ?_, ?_, ht, h3, by rw [e.slen]; omega, ?_⟩
        · rw [e.own, if_neg hxl]
          exact h1
        · rw [e.grp, if_neg hk]
          exact h2
        · rw [e.other r hl]
          exact h4
    obtain ⟨b2, e2, p2, s2⟩ := mergeNeighbor_owned_fold (b1.NeighborLocations loc) b1 hsz1 hj
      hloc1 (fun n hn => (hnb n hn).2.1)
    exact ⟨b1, b2, e1, e, e2, p2, s2⟩

/-! ## An isolated placement, and the lookups of `MergeNeighborsAt` -/

theorem PutAndMerge_isolated {b : Board} (w : b.WF) (c : Stone) {loc : Location}
    (hv : b.IsValid loc = true)
    (hn : ∀ n, Adj loc n → b.IsValid n = true → b.StoneAt n ≠ some c) :
    ∃ b1, b.Put c loc = some b1 ∧ PutEffect b b1 c loc ∧ b.PutAndMerge c loc = some b1 := by
  obtain ⟨b1, e1, e, hd, _⟩ := Put_effect w c hv
  have hsz1 : b1.Sized := ⟨by rw [e.size]; exact w.size_nonneg, hd⟩
  have hloc1 : b1.StoneAt loc = some c := by rw [e.stoneAt, if_pos rfl]
  refine ⟨b1, e1, e, ?_⟩
  simp only [Board.PutAndMerge, e1, Option.some_bind]
  have hmna : b1.MergeNeighborsAt loc =
      if c = Stone.Empty then some b1
      else (b1.NeighborLocations loc).foldlM (Board.mergeNeighbor c loc) b1 := by
    unfold Board.MergeNeighborsAt
    rw [hloc1]
    rfl
  rw [hmna]
  by_cases hs : c = Stone.Empty
  · rw [if_pos hs]
  rw [if_neg hs]
  apply mergeNeighbor_same_fold
  intro n hnn
  obtain ⟨hadj, hvn⟩ := (mem_neighborLocations b1 loc n).1 hnn
  obtain ⟨sn, hsn⟩ := (hsz1.stoneAt_some_iff n).2 hvn
  refine ⟨sn, hsn, ?_⟩
  intro hc
  subst hc
  exfalso
  have hne : n ≠ loc := by
    rintro rfl
    unfold Adj at hadj
    rcases hadj with h | h | h | h <;>
      · have hx := congrArg Location.X h
        have hy := congrArg Location.Y h
        simp only at hx hy
        omega
  rw [e.stoneAt, if_neg hne] at hsn
  exact hn n hadj (by simpa [Board.IsValid, e.size] using hvn) hsn

theorem lookupsHit_fold {s : Stone} (hs : s ≠ Stone.Empty) {loc : Location}
    (ns : List Location) :
    ∀ b : Board, b.WF → b.StoneAt loc = some s →
      (∀ n ∈ ns, Adj loc n ∧ b.IsValid n = true) → Board.LookupsHit s loc b ns := by
  induction ns with
  | nil =>
    intro b _ _ _
    trivial
  | cons n ns ih =>
    intro b w hloc hns
    obtain ⟨hadj, hv⟩ := hns n (List.mem_cons_self n ns)
    refine ⟨?_, ?_⟩
    · intro hsn
      obtain ⟨k, g, _, h1, h2, _, _⟩ := w.owner loc ⟨s, hloc, hs⟩
      obtain ⟨k', g', _, h1', h2', _, _⟩ := w.owner n ⟨s, hsn, hs⟩
      exact ⟨⟨k, g, h1, h2⟩, ⟨k', g', h1', h2'⟩⟩
    · intro b' hb'
      obtain ⟨b1, e1, w1, m1, _, _⟩ := mergeNeighbor_spec w hs hloc hadj hv
      rw [e1] at hb'
      injection hb' with hb'
      subst hb'
      apply ih b1 w1 (by rw [stoneAt_of_points m1.points]; exact hloc)
      intro x hx
      refine ⟨(hns x (List.mem_cons_of_mem n hx)).1, ?_⟩
      have := (hns x (List.mem_cons_of_mem n hx)).2
      simpa [Board.IsValid, m1.size] using this

/-! ## The claims -/

/-- C1: on every board reachable from `NewBoard size` by `PutAndMerge` on valid Empty cells
and by `FlipOrRemoveAfter` of Black or White (either policy, either wall setting, any range
order), the member sets of the groups of the registry are pairwise disjoint and their union
is exactly the set of locations whose cell is not Empty. -/
theorem reachable_partition (size : Nat) (b : Board)
    (h : Reachable (fun _ => True) size b) : b.Partition :=
  h.inv.partition

/-- The partition invariant on the capture scenario. -/
theorem reachable_partition_witness :
    Reachable (fun _ => True) 4 captureScenario ∧ captureScenario.Partition :=
  have hr : Reachable (fun _ => True) 4 captureScenario :=
    Reachable.playMoves captureMoves Reachable.init (by decide)
  ⟨hr, reachable_partition 4 captureScenario hr⟩

/-- C2: on every reachable board, two in-bounds 4-adjacent locations that hold the same
non-Empty colour have the same owning group key in `OfGroup`, a key of the registry whose
member set holds both of them. -/
theorem reachable_maximal (size : Nat) (b : Board)
    (h : Reachable (fun _ => True) size b) : b.MaximalGroups :=
  h.inv.maximalGroups

/-- After Black at (0,0) and (1,0) the registry has one group, of two members. -/
theorem reachable_maximal_witness :
    Reachable (fun _ => True) 3 mergeScenario ∧ mergeScenario.MaximalGroups ∧
      mergeScenario.Groups.length = 1 ∧
      ∀ g ∈ mergeScenario.Groups.map Prod.snd, (mergeScenario.members g).length = 2 :=
  have hr : Reachable (fun _ => True) 3 mergeScenario :=
    Reachable.playMoves [(.Black, ⟨0, 0⟩), (.Black, ⟨1, 0⟩)] Reachable.init (by decide)
  ⟨hr, reachable_maximal 3 mergeScenario hr, by decide, by decide⟩

/-- C3: on every reachable board, any two members of a group of the registry are joined by
a path of 4-adjacent locations that are all members of that group and all hold the same
non-Empty stone colour. -/
theorem reachable_connected (size : Nat) (b : Board)
    (h : Reachable (fun _ => True) size b) : b.ConnectedGroups :=
  h.inv.connectedGroups

/-- The connectivity invariant after a Flip: the corner scenario resolved under Flip. -/
theorem reachable_connected_witness :
    Reachable (fun _ => True) 3 cornerFlipped ∧ cornerFlipped.ConnectedGroups :=
  have hr : Reachable (fun _ => True) 3 cornerFlipped :=
    Reachable.resolve ⟨false, .Flip⟩ RangeOrder.listOrder .Black
      (Reachable.playMoves cornerMoves Reachable.init (by decide)) trivial
      (listOrder_allowed cornerScenario) (by decide) (by decide)
  ⟨hr, reachable_connected 3 cornerFlipped hr⟩

/-- C4: on a board whose grid has `Size` rows of `Size` cells, `HasLiberty` returns, and it
returns true exactly when the wall rule is on and a member is on the boundary, or a member
has an in-bounds orthogonal neighbour whose cell is Empty; the result is the same for every
order in which the members are visited. -/
theorem hasLiberty_iff (cfg : Config) (b : Board) (g : Group) (h : b.Sized) :
    (b.HasLiberty cfg g = some true ↔ b.LibertySpec cfg (b.members g)) ∧
      (b.HasLiberty cfg g = some false ↔ ¬ b.LibertySpec cfg (b.members g)) ∧
      ∀ ms, ms.Perm (b.members g) → b.libertyOf cfg ms = b.HasLiberty cfg g := by
  obtain ⟨r, hr, hiff⟩ := libertyOf_spec cfg h (b.members g)
  have hl : b.HasLiberty cfg g = some r := hr
  refine ⟨?_, ?_, ?_⟩
  · rw [hl]
    constructor
    · intro e
      injection e with e
      exact hiff.1 e
    · intro hs
      rw [hiff.2 hs]
  · rw [hl]
    constructor
    · intro e hs
      injection e with e
      rw [hiff.2 hs] at e
      exact absurd e (by simp)
    · intro hs
      cases r with
      | true => exact absurd (hiff.1 rfl) hs
      | false => rfl
  · intro ms hp
    obtain ⟨r', hr', hiff'⟩ := libertyOf_spec cfg h ms
    rw [hl, hr']
    have : r' = true ↔ r = true := by
      rw [hiff', hiff]
      exact LibertySpec_perm cfg b hp
    cases r <;> cases r' <;> simp_all

/-- A lone White stone in the corner whose two neighbours are Black has no liberty when the
wall is none; a lone stone at the centre of a board of size 3 has one. -/
theorem hasLiberty_iff_witness :
    cornerScenario.Sized ∧ centreScenario.Sized ∧
      ¬ cornerScenario.LibertySpec ⟨false, .Flip⟩
        (cornerScenario.members ⟨.White, ⟨0, 0⟩, some 0⟩) ∧
      centreScenario.LibertySpec ⟨false, .Flip⟩
        (centreScenario.members ⟨.Black, ⟨1, 1⟩, some 0⟩) :=
  have h1 : cornerScenario.Sized := ⟨by decide, by decide, by decide⟩
  have h2 : centreScenario.Sized := ⟨by decide, by decide, by decide⟩
  ⟨h1, h2,
    (hasLiberty_iff ⟨false, .Flip⟩ cornerScenario ⟨.White, ⟨0, 0⟩, some 0⟩ h1).2.1.1 (by decide),
    (hasLiberty_iff ⟨false, .Flip⟩ centreScenario ⟨.Black, ⟨1, 1⟩, some 0⟩ h2).1.1 (by decide)⟩

/-- C5: under the Remove policy, on every board reachable with that policy,
`FlipOrRemoveAfter c` for `c` Black or White returns a board on which every registry group
of stones of the opposite colour `oc` that has no liberty is gone from the registry with all
its cells Empty, and every cell outside those groups is unchanged. -/
theorem remove_resolution (size : Nat) (b : Board)
    (h : Reachable (fun cfg => cfg.FlipOrRemove = FlipRemove.Remove) size b)
    (cfg : Config) (hp : cfg.FlipOrRemove = FlipRemove.Remove) (ro : RangeOrder)
    (hro : ro.Allowed b) (c oc : Stone) (hc : otherColorOf c = some oc) :
    ∃ b', b.FlipOrRemoveAfter cfg ro c = some b' ∧
      (∀ k g, b.grp k = some g → (∀ m ∈ b.members g, b.StoneAt m = some oc) →
        ¬ b.LibertySpec cfg (b.members g) →
        b'.grp k = none ∧ ∀ m ∈ b.members g, b'.StoneAt m = some Stone.Empty) ∧
      ∀ x, (¬ ∃ k g, b.grp k = some g ∧ x ∈ b.members g ∧ b.StoneAt x = some oc ∧
        ¬ b.LibertySpec cfg (b.members g)) → b'.StoneAt x = b.StoneAt x := by
  have i := h.inv
  have co := h.colorOK
  have hocne : oc ≠ Stone.Empty := by
    cases c <;> simp [otherColorOf] at hc <;> subst hc <;> simp
  obtain ⟨hl, hnd⟩ := otherGroups_live i.1 hro oc
  obtain ⟨b', e, _, _, _, _, p3, p4, p5, _⟩ := resolve_remove_exact cfg hp ro c hocne
    (b.otherGroups ro oc) b i co hnd hl
  refine ⟨b', by simp only [Board.FlipOrRemoveAfter, hc, Option.some_bind]; exact e, ?_, ?_⟩
  · intro k g hg hcol hlib
    obtain ⟨ht, r, hr, _, hk⟩ := i.1.group k g hg
    have hkm : k ∈ b.members g := by rw [members_eq b g r hr]; exact hk
    have hgc : g.Color = oc := by
      have h1 := co k g hg
      rw [hcol k hkm] at h1
      injection h1 with h1
      exact h1.symm
    have hmem : g ∈ b.otherGroups ro oc :=
      (mem_otherGroups i.1 hro oc g).2 ⟨by rw [ht]; exact hg, hgc⟩
    exact ⟨p5 k ⟨g, hmem, ht, hlib⟩, fun m hm => p3 m ⟨g, hmem, hm, hlib⟩⟩
  · intro x hx
    apply p4
    rintro ⟨g, hg, hm, hlib⟩
    obtain ⟨h1, h2⟩ := hl g hg
    exact hx ⟨g.TopLeft, g, h1, hm, by rw [co.stone i.1 h1 hm, h2], hlib⟩

/-- The capture scenario on the board of size 4, the wall no liberty: the three surrounded
White stones at (1,1), (1,2), (2,2) are removed. -/
theorem remove_resolution_witness :
    Reachable (fun cfg => cfg.FlipOrRemove = FlipRemove.Remove) 4 captureScenario ∧
      RangeOrder.listOrder.Allowed captureScenario ∧
      ∃ b', captureScenario.FlipOrRemoveAfter ⟨false, .Remove⟩ RangeOrder.listOrder .Black =
          some b' ∧
        b'.grp ⟨1, 1⟩ = none ∧ b'.StoneAt ⟨1, 1⟩ = some .Empty ∧
        b'.StoneAt ⟨1, 2⟩ = some .Empty ∧ b'.StoneAt ⟨2, 2⟩ = some .Empty ∧
        b'.StoneAt ⟨0, 1⟩ = some .Black := by
  have hr : Reachable (fun cfg => cfg.FlipOrRemove = FlipRemove.Remove) 4 captureScenario :=
    Reachable.playMoves captureMoves Reachable.init (by decide)
  obtain ⟨b', e, h1, h2⟩ := remove_resolution 4 captureScenario hr ⟨false, .Remove⟩ rfl
    RangeOrder.listOrder (listOrder_allowed captureScenario) .Black .White rfl
  have hd := h1 ⟨1, 1⟩ ⟨.White, ⟨1, 1⟩, some 0⟩ (by decide) (by decide)
    (not_libertySpec_of_hasLiberty ⟨false, .Remove⟩ hr.inv.1.sized _ (by decide))
  refine ⟨hr, listOrder_allowed captureScenario, b', e, hd.1, hd.2 ⟨1, 1⟩ (by decide),
    hd.2 ⟨1, 2⟩ (by decide), hd.2 ⟨2, 2⟩ (by decide), ?_⟩
  rw [h2 ⟨0, 1⟩]
  · decide
  · rintro ⟨k, g, _, _, hs, _⟩
    exact absurd hs (by decide)

/-- C6, which the code breaks: `staleScenario` is reachable under the Flip policy; its
Black stones at (0,0), (1,0), (0,1) form one registry group, connected, without a liberty
when the wall is none; yet `FlipOrRemoveAfter White` returns the board unchanged, under
every range order, because the `Color` field of that group still says White. -/
theorem flip_skips_dead_group :
    Reachable (fun cfg => cfg.FlipOrRemove = FlipRemove.Flip) 3 staleScenario ∧
      staleScenario.grp ⟨0, 0⟩ = some ⟨.White, ⟨0, 0⟩, some 0⟩ ∧
      staleScenario.members ⟨.White, ⟨0, 0⟩, some 0⟩ = [⟨0, 1⟩, ⟨1, 0⟩, ⟨0, 0⟩] ∧
      (∀ m ∈ staleScenario.members ⟨.White, ⟨0, 0⟩, some 0⟩,
        staleScenario.StoneAt m = some .Black) ∧
      staleScenario.HasLiberty ⟨false, .Flip⟩ ⟨.White, ⟨0, 0⟩, some 0⟩ = some false ∧
      ∀ ro : RangeOrder, ro.Allowed staleScenario →
        staleScenario.FlipOrRemoveAfter ⟨false, .Flip⟩ ro .White = some staleScenario := by
  refine ⟨?_, by decide, by decide, by decide, by decide, ?_⟩
  · have h1 : Reachable (fun cfg => cfg.FlipOrRemove = FlipRemove.Flip) 3 cornerFlipped :=
      Reachable.resolve ⟨false, .Flip⟩ RangeOrder.listOrder .Black
        (Reachable.playMoves cornerMoves Reachable.init (by decide)) rfl
        (listOrder_allowed cornerScenario) (by decide) (by decide)
    exact Reachable.playMoves [(.White, ⟨2, 0⟩), (.White, ⟨1, 1⟩), (.White, ⟨0, 2⟩)] h1
      (by decide)
  · intro ro hro
    have hnil : staleScenario.otherGroups ro .Black = [] := by
      unfold Board.otherGroups
      rw [List.filter_eq_nil_iff]
      intro g hg
      have hg' : g ∈ staleScenario.Groups.map Prod.snd := (hro.1 _).mem_iff.1 hg
      have hall : ∀ g ∈ staleScenario.Groups.map Prod.snd, g.Color = .White := by decide
      rw [hall g hg']
      decide
    simp only [Board.FlipOrRemoveAfter, otherColorOf, Option.some_bind, hnil]
    rfl

/-- C7 as stated fails: on the reachable board `cornerRemoved` the location (0,0) has the
entry (-1,-1) in `OfGroup`, which is no key of `Groups`. -/
theorem ofGroup_entry_without_group :
    ¬ ∀ (size : Nat) (b : Board), Reachable (fun _ => True) size b →
      ∀ x k, b.own x = some k → ∃ g, b.grp k = some g ∧ x ∈ b.members g := by
  intro H
  have hr : Reachable (fun _ => True) 3 cornerRemoved :=
    Reachable.resolve ⟨false, .Remove⟩ RangeOrder.listOrder .Black
      (Reachable.playMoves cornerMoves Reachable.init (by decide)) trivial
      (listOrder_allowed cornerScenario) (by decide) (by decide)
  obtain ⟨g, hg, _⟩ := H 3 cornerRemoved hr ⟨0, 0⟩ ⟨-1, -1⟩ (by decide)
  have hnone : cornerRemoved.grp ⟨-1, -1⟩ = none := by decide
  rw [hnone] at hg
  exact absurd hg (by simp)

/-- C7, amended: on every reachable board, a location that has an entry in `OfGroup` either
holds the entry (-1,-1) that `RemoveGroup` writes, its cell holding no stone, or maps to a
key present in `Groups` whose member set contains the location. -/
theorem ofGroup_entry_sentinel_or_group (size : Nat) (b : Board)
    (h : Reachable (fun _ => True) size b) :
    ∀ x k, b.own x = some k →
      (k = ⟨-1, -1⟩ ∧ ¬ b.Occupied x) ∨ ∃ g, b.grp k = some g ∧ x ∈ b.members g := by
  have w := h.inv.1
  intro x k hx
  by_cases hk : k = ⟨-1, -1⟩
  · left
    refine ⟨hk, ?_⟩
    intro ho
    obtain ⟨k', g, r, h1, h2, h3, _⟩ := w.owner x ho
    rw [hx] at h1
    injection h1 with h1
    subst h1
    obtain ⟨_, r', hr', _, hm⟩ := w.group k g h2
    obtain ⟨s, hs, _⟩ := (w.member k g r' h2 hr' k hm).2
    have hv := (w.stoneAt_isSome k).1 ⟨s, hs⟩
    rw [hk] at hv
    simp [Board.IsValid] at hv
  · right
    obtain ⟨k', g, r, h1, h2, h3, h4⟩ := w.owner x (w.stale x k hx hk)
    rw [hx] at h1
    injection h1 with h1
    subst h1
    exact ⟨g, h2, by rw [members_eq b g r h3]; exact h4⟩

/-- The amended C7 on the board `cornerRemoved`, where (0,0) holds the entry (-1,-1). -/
theorem ofGroup_entry_sentinel_or_group_witness :
    Reachable (fun _ => True) 3 cornerRemoved ∧
      ((⟨-1, -1⟩ : Location) = ⟨-1, -1⟩ ∧ ¬ cornerRemoved.Occupied ⟨0, 0⟩ ∨
        ∃ g, cornerRemoved.grp ⟨-1, -1⟩ = some g ∧ (⟨0, 0⟩ : Location) ∈ cornerRemoved.members g) :=
  have hr : Reachable (fun _ => True) 3 cornerRemoved :=
    Reachable.resolve ⟨false, .Remove⟩ RangeOrder.listOrder .Black
      (Reachable.playMoves cornerMoves Reachable.init (by decide)) trivial
      (listOrder_allowed cornerScenario) (by decide) (by decide)
  ⟨hr, ofGroup_entry_sentinel_or_group 3 cornerRemoved hr ⟨0, 0⟩ ⟨-1, -1⟩ (by decide)⟩

theorem MergeEffect.spec {b b' : Board} {gs gd : Group} {rs rd : Nat}
    (e : MergeEffect b b' gs.TopLeft gd.TopLeft rs rd) (w : b.WF)
    (hgs : b.grp gs.TopLeft = some gs) (hrs : gs.Members = some rs)
    (hrd : gd.Members = some rd) (hne : gs.TopLeft ≠ gd.TopLeft) : b.MergeSpec b' gs gd := by
  refine ⟨?_, ?_, ?_, ?_, ?_, ?_, ?_, e.points, e.size⟩
  · rw [e.grp, if_neg hne]
    exact hgs
  · rw [e.grp, if_pos rfl]
  · intro x
    rw [members_eq b' gs rs hrs, members_eq b gs rs hrs, members_eq b gd rd hrd]
    exact e.surv x
  · intro x hx
    rw [members_eq b gd rd hrd] at hx
    rw [e.own, if_pos hx]
  · intro k g hk1 hk2 hg
    refine ⟨by rw [e.grp, if_neg hk2]; exact hg, ?_⟩
    obtain ⟨_, r, hr, _, _⟩ := w.group k g hg
    rw [members_eq b' g r hr, members_eq b g r hr]
    apply e.other
    rintro rfl
    exact hk1 (w.ref_inj hg hgs hr hrs)
  · intro k hk
    rw [e.grp, if_neg hk]
  · intro x hx
    rw [members_eq b gd rd hrd] at hx
    rw [e.own, if_neg hx]

/-- C8: on a well-formed board (every reachable board is one), for two groups `g1`, `g2` of
the registry: when their anchors are equal `Merge` returns the board unchanged; when they
differ `Merge` returns a board on which one of the two anchors is still a key and the other
is deleted, the surviving group's member set is the union of both member sets, `OfGroup` of
every member of the discarded group is the surviving anchor, and every other registry group,
every other `OfGroup` entry and the whole grid are unchanged. -/
theorem merge_effect (b : Board) (g1 g2 : Group) (w : b.WF)
    (h1 : b.grp g1.TopLeft = some g1) (h2 : b.grp g2.TopLeft = some g2) :
    (g1.TopLeft = g2.TopLeft → b.Merge g1 g2 = some b) ∧
      (g1.TopLeft ≠ g2.TopLeft →
        ∃ b', b.Merge g1 g2 = some b' ∧ (b.MergeSpec b' g1 g2 ∨ b.MergeSpec b' g2 g1)) := by
  constructor
  · intro he
    simp [Board.Merge, he]
  · intro hne
    obtain ⟨_, r1, hr1, hl1, _⟩ := w.group _ g1 h1
    obtain ⟨_, r2, hr2, hl2, _⟩ := w.group _ g2 h2
    unfold Board.Merge
    rw [if_neg hne]
    by_cases hb : g2.TopLeft.IsBefore g1.TopLeft = true
    · rw [if_pos hb]
      obtain ⟨b', hb', e⟩ := mergeInto_effect b g2 g1 r2 r1 hr2 hr1 hl2
      exact ⟨b', hb', Or.inr (e.spec w h2 hr2 hr1 (Ne.symm hne))⟩
    · rw [if_neg hb]
      obtain ⟨b', hb', e⟩ := mergeInto_effect b g1 g2 r1 r2 hr1 hr2 hl1
      exact ⟨b', hb', Or.inl (e.spec w h1 hr1 hr2 hne)⟩

/-- The effect of `Merge` on the two Black groups of `cornerScenario`, keyed (0,1) and
(1,0). -/
theorem merge_effect_witness :
    cornerScenario.WF ∧
      cornerScenario.grp ⟨0, 1⟩ = some ⟨.Black, ⟨0, 1⟩, some 2⟩ ∧
      cornerScenario.grp ⟨1, 0⟩ = some ⟨.Black, ⟨1, 0⟩, some 1⟩ ∧
      ∃ b', cornerScenario.Merge ⟨.Black, ⟨0, 1⟩, some 2⟩ ⟨.Black, ⟨1, 0⟩, some 1⟩ = some b' ∧
        (cornerScenario.MergeSpec b' ⟨.Black, ⟨0, 1⟩, some 2⟩ ⟨.Black, ⟨1, 0⟩, some 1⟩ ∨
          cornerScenario.MergeSpec b' ⟨.Black, ⟨1, 0⟩, some 1⟩ ⟨.Black, ⟨0, 1⟩, some 2⟩) :=
  have hr : Reachable (fun _ => True) 3 cornerScenario :=
    Reachable.playMoves cornerMoves Reachable.init (by decide)
  ⟨hr.inv.1, by decide, by decide,
    (merge_effect cornerScenario ⟨.Black, ⟨0, 1⟩, some 2⟩ ⟨.Black, ⟨1, 0⟩, some 1⟩ hr.inv.1
      (by decide) (by decide)).2 (by decide)⟩

/-- C9, which the code breaks: on the reachable board `anchorScenario`, `PutAndMerge` of
Black at (0,1) puts a group anchored (0,1) and merges it with the group anchored (1,0);
the anchor (0,1) is the lesser one in the order by x, then y, yet `Merge` keeps (1,0) and
deletes (0,1). -/
theorem merge_survivor_not_least :
    Reachable (fun _ => True) 3 anchorScenario ∧
      anchorScenario.Put .Black ⟨0, 1⟩ = some anchorPut ∧
      anchorPut.grp ⟨0, 1⟩ = some ⟨.Black, ⟨0, 1⟩, some 2⟩ ∧
      anchorPut.grp ⟨1, 0⟩ = some ⟨.Black, ⟨1, 0⟩, some 0⟩ ∧
      Location.LexBefore ⟨0, 1⟩ ⟨1, 0⟩ ∧
      anchorPut.Merge ⟨.Black, ⟨0, 1⟩, some 2⟩ ⟨.Black, ⟨1, 0⟩, some 0⟩ = some anchorMerged ∧
      anchorScenario.PutAndMerge .Black ⟨0, 1⟩ = some anchorMerged ∧
      anchorMerged.grp ⟨1, 0⟩ = some ⟨.Black, ⟨1, 0⟩, some 0⟩ ∧
      anchorMerged.grp ⟨0, 1⟩ = none :=
  ⟨Reachable.playMoves [(.Black, ⟨1, 0⟩), (.Black, ⟨1, 1⟩)] Reachable.init (by decide),
    by decide, by decide, by decide, Or.inl (by decide), by decide, by decide, by decide,
    by decide⟩

/-- C10, which the code breaks: `IsBefore` is not asymmetric, (0,1) is before (1,0) and
(1,0) is before (0,1); so it is not transitive either, (0,1) not being before itself. -/
theorem isBefore_not_asymmetric :
    Location.IsBefore ⟨0, 1⟩ ⟨1, 0⟩ = true ∧ Location.IsBefore ⟨1, 0⟩ ⟨0, 1⟩ = true ∧
      Location.IsBefore ⟨0, 1⟩ ⟨0, 1⟩ = false := by
  decide

/-! ## Claims C11 to C15 -/

/-- C11, which the code breaks: the board `anchorPut` is built by `PutAndMerge` of Black at
(1,0), (1,1) and `Put` of Black at (0,1); its registry holds the groups anchored (0,1) and
(1,0). `Merge` of the two returns different boards for the two orders of the arguments: one
keeps the key (1,0) and deletes (0,1), the other keeps (0,1) and deletes (1,0), and `OfGroup`
of (1,1) differs. So do `MergeNeighborsAt` at (0,1) and at (1,1), which call `Merge` with
the arguments in the two orders. -/
theorem merge_not_commutative :
    Built 3 anchorPut ∧
      anchorPut.grp ⟨0, 1⟩ = some ⟨.Black, ⟨0, 1⟩, some 2⟩ ∧
      anchorPut.grp ⟨1, 0⟩ = some ⟨.Black, ⟨1, 0⟩, some 0⟩ ∧
      anchorPut.Merge ⟨.Black, ⟨0, 1⟩, some 2⟩ ⟨.Black, ⟨1, 0⟩, some 0⟩ = some anchorMerged ∧
      anchorPut.Merge ⟨.Black, ⟨1, 0⟩, some 0⟩ ⟨.Black, ⟨0, 1⟩, some 2⟩ =
        some anchorMergedSwap ∧
      anchorPut.MergeNeighborsAt ⟨0, 1⟩ = some anchorMerged ∧
      anchorPut.MergeNeighborsAt ⟨1, 1⟩ = some anchorMergedSwap ∧
      anchorMerged.grp ⟨1, 0⟩ = some ⟨.Black, ⟨1, 0⟩, some 0⟩ ∧
      anchorMerged.grp ⟨0, 1⟩ = none ∧
      anchorMergedSwap.grp ⟨0, 1⟩ = some ⟨.Black, ⟨0, 1⟩, some 2⟩ ∧
      anchorMergedSwap.grp ⟨1, 0⟩ = none ∧
      anchorMerged.own ⟨1, 1⟩ = some ⟨1, 0⟩ ∧ anchorMergedSwap.own ⟨1, 1⟩ = some ⟨0, 1⟩ :=
  ⟨Built.put .Black ⟨0, 1⟩
      (Built.ofMoves [(.Black, ⟨1, 0⟩), (.Black, ⟨1, 1⟩)] Built.init (by decide) :
        Built 3 anchorScenario)
      (by decide) (by decide) (by decide) (by decide),
    by decide, by decide, by decide, by decide, by decide, by decide, by decide, by decide,
    by decide, by decide, by decide, by decide⟩

/-- C12: on every board built from `NewBoard size` by `Put` and `PutAndMerge` of a stone on
a valid Empty cell and by `FlipOrRemoveAfter`, for every valid location `loc`,
`MergeNeighborsAt loc` returns a board `b'`, `MergeNeighborsAt loc` on `b'` returns `b'`
again, and when every neighbour of `loc` of its colour already has the owning key of `loc`
(or `loc` is Empty) the board `b'` is `b` itself. -/
theorem mergeNeighborsAt_idempotent (size : Nat) (b : Board) (h : Built size b)
    (loc : Location) (hv : b.IsValid loc = true) :
    ∃ b', b.MergeNeighborsAt loc = some b' ∧ b'.MergeNeighborsAt loc = some b' ∧
      ((∀ n, b.MaxPair loc n) → b' = b) := by
  have w := h.wf
  obtain ⟨s, hs⟩ := (w.stoneAt_isSome loc).2 hv
  obtain ⟨b', e, w', m, hmax, hid⟩ := MergeNeighborsAt_spec w hv
  have hv' : b'.IsValid loc = true := by
    simpa [Board.IsValid, (m s hs).size] using hv
  obtain ⟨b'', e', _, _, _, hid'⟩ := MergeNeighborsAt_spec w' hv'
  have hb : b'' = b' := hid' hmax
  rw [hb] at e'
  exact ⟨b', e, e', hid⟩

/-- The idempotence of `MergeNeighborsAt` at (0,1) on the board `anchorPut`, built with a
`Put` that leaves two adjacent Black groups unmerged. -/
theorem mergeNeighborsAt_idempotent_witness :
    Built 3 anchorPut ∧ anchorPut.IsValid ⟨0, 1⟩ = true ∧
      ∃ b', anchorPut.MergeNeighborsAt ⟨0, 1⟩ = some b' ∧
        b'.MergeNeighborsAt ⟨0, 1⟩ = some b' ∧
        ((∀ n, anchorPut.MaxPair ⟨0, 1⟩ n) → b' = anchorPut) :=
  have hb : Built 3 anchorPut :=
    Built.put .Black ⟨0, 1⟩
      (Built.ofMoves [(.Black, ⟨1, 0⟩), (.Black, ⟨1, 1⟩)] Built.init (by decide) :
        Built 3 anchorScenario)
      (by decide) (by decide) (by decide) (by decide)
  ⟨hb, by decide, mergeNeighborsAt_idempotent 3 anchorPut hb ⟨0, 1⟩ (by decide)⟩

/-- C13 as stated fails: on the reachable board `cornerScenario`, `RemoveGroup` of the
White group at (0,0) returns a board on which the member (0,0) still has an entry in
`OfGroup`, the location (-1,-1). -/
theorem removeGroup_keeps_ofGroup_entries :
    ¬ ∀ (size : Nat) (b : Board), Reachable (fun _ => True) size b →
      ∀ g, b.grp g.TopLeft = some g → ∀ b', b.RemoveGroup g = some b' →
        ∀ m ∈ b.members g, b'.own m = none := by
  intro H
  have hr : Reachable (fun _ => True) 3 cornerScenario :=
    Reachable.playMoves cornerMoves Reachable.init (by decide)
  have h1 := H 3 cornerScenario hr ⟨.White, ⟨0, 0⟩, some 0⟩ (by decide) cornerRemoved
    (by decide) ⟨0, 0⟩ (by decide)
  exact absurd h1 (by decide)

/-- C13, amended: on a well-formed board (every reachable board is one), `RemoveGroup` of a
registry group `g` returns a board on which every member's cell is Empty and every member's
entry in `OfGroup` is the location (-1,-1), the key of `g` is no longer in `Groups`, and the
cells and `OfGroup` entries of all other locations and all other registry groups with their
member sets are unchanged. -/
theorem removeGroup_sentinel_effect (b : Board) (g : Group) (w : b.WF)
    (hg : b.grp g.TopLeft = some g) :
    ∃ b', b.RemoveGroup g = some b' ∧ b.RemoveSpec b' g := by
  obtain ⟨b', e, _, eff⟩ := RemoveGroup_wf w hg
  exact ⟨b', e, eff.removeSpec⟩

/-- The amended C13 on the board `cornerScenario`, for its White group at (0,0). -/
theorem removeGroup_sentinel_effect_witness :
    cornerScenario.WF ∧ cornerScenario.grp ⟨0, 0⟩ = some ⟨.White, ⟨0, 0⟩, some 0⟩ ∧
      ∃ b', cornerScenario.RemoveGroup ⟨.White, ⟨0, 0⟩, some 0⟩ = some b' ∧
        cornerScenario.RemoveSpec b' ⟨.White, ⟨0, 0⟩, some 0⟩ :=
  have hr : Reachable (fun _ => True) 3 cornerScenario :=
    Reachable.playMoves cornerMoves Reachable.init (by decide)
  ⟨hr.inv.1, by decide,
    removeGroup_sentinel_effect cornerScenario ⟨.White, ⟨0, 0⟩, some 0⟩ hr.inv.1 (by decide)⟩

/-- C14: on every reachable board, for a registry group `g` and a member `loc` of it,
`RemoveGroup g` returns a board `b1`, and when no in-bounds neighbour of `loc` holds the
colour `c` on `b1`, `PutAndMerge c loc` returns a board whose registry has at the key `loc`
a group anchored `loc` with the member set `[loc]`, `OfGroup` of `loc` is `loc`, and no
other former member of `g` is in the member set of any registry group. -/
theorem remove_then_replace (size : Nat) (b : Board) (h : Reachable (fun _ => True) size b)
    (k : Location) (g : Group) (hg : b.grp k = some g) (loc : Location)
    (hm : loc ∈ b.members g) (c : Stone) :
    ∃ b1, b.RemoveGroup g = some b1 ∧
      ((∀ n, Adj loc n → b1.IsValid n = true → b1.StoneAt n ≠ some c) →
        ∃ b2 G, b1.PutAndMerge c loc = some b2 ∧ b2.grp loc = some G ∧ G.TopLeft = loc ∧
          b2.members G = [loc] ∧ b2.own loc = some loc ∧
          ∀ m ∈ b.members g, m ≠ loc → ∀ k' G', b2.grp k' = some G' → m ∉ b2.members G') := by
  have w := h.inv.1
  obtain ⟨ht, r, hr, _, _⟩ := w.group k g hg
  have hg' : b.grp g.TopLeft = some g := by rw [ht]; exact hg
  obtain ⟨b1, e1, w1, re⟩ := RemoveGroup_wf w hg'
  refine ⟨b1, e1, ?_⟩
  intro hn
  have hv : b.IsValid loc = true := by
    rw [members_eq b g r hr] at hm
    obtain ⟨s, hs, _⟩ := (w.member k g r hg hr loc hm).2
    exact (w.stoneAt_isSome loc).1 ⟨s, hs⟩
  have hv1 : b1.IsValid loc = true := by
    simpa [Board.IsValid, re.size] using hv
  obtain ⟨b2, _, pe, epm⟩ := PutAndMerge_isolated w1 c hv1 hn
  refine ⟨b2, ⟨c, loc, some b1.Sets.length⟩, epm, ?_, rfl, ?_, ?_, ?_⟩
  · rw [pe.grp, if_pos rfl]
  · rw [members_eq b2 _ b1.Sets.length rfl]
    exact pe.fresh
  · rw [pe.own, if_pos rfl]
  · intro m hmg hne k' G' hG' hmem
    rw [pe.grp] at hG'
    by_cases hk : k' = loc
    · rw [if_pos hk] at hG'
      injection hG' with hG'
      subst hG'
      rw [members_eq b2 _ b1.Sets.length rfl, pe.fresh] at hmem
      exact hne (List.mem_singleton.mp hmem)
    · rw [if_neg hk] at hG'
      obtain ⟨_, r', hr', hl', _⟩ := w1.group k' G' hG'
      rw [members_eq b2 G' r' hr', pe.other r' hl'] at hmem
      obtain ⟨s, hs, hse⟩ := (w1.member k' G' r' hG' hr' m hmem).2
      rw [re.stoneAt, if_pos hmg] at hs
      injection hs with hs
      exact hse hs.symm

/-- The round trip on the board `captureScenario`: the White group anchored (1,1), with the
members (1,1), (1,2), (2,2), is removed and a White stone put back at its anchor. -/
theorem remove_then_replace_witness :
    Reachable (fun _ => True) 4 captureScenario ∧
      captureScenario.grp ⟨1, 1⟩ = some ⟨.White, ⟨1, 1⟩, some 0⟩ ∧
      (⟨1, 1⟩ : Location) ∈ captureScenario.members ⟨.White, ⟨1, 1⟩, some 0⟩ ∧
      ∃ b1, captureScenario.RemoveGroup ⟨.White, ⟨1, 1⟩, some 0⟩ = some b1 ∧
        ((∀ n, Adj ⟨1, 1⟩ n → b1.IsValid n = true → b1.StoneAt n ≠ some .White) →
          ∃ b2 G, b1.PutAndMerge .White ⟨1, 1⟩ = some b2 ∧ b2.grp ⟨1, 1⟩ = some G ∧
            G.TopLeft = ⟨1, 1⟩ ∧ b2.members G = [⟨1, 1⟩] ∧ b2.own ⟨1, 1⟩ = some ⟨1, 1⟩ ∧
            ∀ m ∈ captureScenario.members ⟨.White, ⟨1, 1⟩, some 0⟩, m ≠ ⟨1, 1⟩ →
              ∀ k' G', b2.grp k' = some G' → m ∉ b2.members G') :=
  have hr : Reachable (fun _ => True) 4 captureScenario :=
    Reachable.playMoves captureMoves Reachable.init (by decide)
  ⟨hr, by decide, by decide,
    remove_then_replace 4 captureScenario hr ⟨1, 1⟩ ⟨.White, ⟨1, 1⟩, some 0⟩ (by decide)
      ⟨1, 1⟩ (by decide) .White⟩

/-- C15, which the code breaks: `Put` and `PutAndMerge` have no test of the cell. On every
reachable board, for every valid location whose cell holds a stone, both return a board, on
which the cell holds the new stone. On the reachable board `mergeScenario`, White on the
Black stone at (0,0) gives `overwriteScenario`: the only key of `Groups` is (0,0), a White
group with the one member (0,0), so the Black stone at (1,0) is in no registry group, and
its `OfGroup` entry names that White group. On the reachable board `overwriteBase`, White
on the Black anchor (1,1) gives `overwriteMerged`, where `OfGroup` of the Black stone at
(2,1) is (1,1), which is no key of `Groups`; the next `PutAndMerge`, of Black on the valid
Empty cell (2,2), fails. -/
theorem put_on_occupied_cell_corrupts :
    (∀ (size : Nat) (b : Board), Reachable (fun _ => True) size b →
      ∀ (stone : Stone) (loc : Location), b.IsValid loc = true → b.Occupied loc →
        ∃ b1 b2, b.Put stone loc = some b1 ∧ b1.StoneAt loc = some stone ∧
          b.PutAndMerge stone loc = some b2 ∧ b2.StoneAt loc = some stone) ∧
      Reachable (fun _ => True) 3 mergeScenario ∧
      mergeScenario.StoneAt ⟨0, 0⟩ = some .Black ∧
      mergeScenario.Put .White ⟨0, 0⟩ = some overwriteScenario ∧
      mergeScenario.PutAndMerge .White ⟨0, 0⟩ = some overwriteScenario ∧
      overwriteScenario.StoneAt ⟨0, 0⟩ = some .White ∧
      overwriteScenario.StoneAt ⟨1, 0⟩ = some .Black ∧
      overwriteScenario.Groups.map Prod.fst = [⟨0, 0⟩] ∧
      overwriteScenario.grp ⟨0, 0⟩ = some ⟨.White, ⟨0, 0⟩, some 2⟩ ∧
      overwriteScenario.members ⟨.White, ⟨0, 0⟩, some 2⟩ = [⟨0, 0⟩] ∧
      overwriteScenario.own ⟨1, 0⟩ = some ⟨0, 0⟩ ∧
      Reachable (fun _ => True) 3 overwriteBase ∧
      overwriteBase.StoneAt ⟨1, 1⟩ = some .Black ∧
      overwriteBase.PutAndMerge .White ⟨1, 1⟩ = some overwriteMerged ∧
      overwriteMerged.StoneAt ⟨2, 1⟩ = some .Black ∧
      overwriteMerged.own ⟨2, 1⟩ = some ⟨1, 1⟩ ∧
      overwriteMerged.grp ⟨1, 1⟩ = none ∧
      overwriteMerged.IsValid ⟨2, 2⟩ = true ∧
      overwriteMerged.StoneAt ⟨2, 2⟩ = some .Empty ∧
      overwriteMerged.PutAndMerge .Black ⟨2, 2⟩ = none := by
  refine ⟨?_, Reachable.playMoves [(.Black, ⟨0, 0⟩), (.Black, ⟨1, 0⟩)] Reachable.init
    (by decide), by decide, by decide, by decide, by decide, by decide, by decide, by decide,
    by decide, by decide, Reachable.playMoves overwriteMoves Reachable.init (by decide),
    by decide, by decide, by decide, by decide, by decide, by decide, by decide, by decide⟩
  intro size b h stone loc hv ho
  obtain ⟨b1, b2, e1, pe, e2, hp, _⟩ := PutAndMerge_occupied h.inv stone hv ho
  have h1 : b1.StoneAt loc = some stone := by rw [pe.stoneAt, if_pos rfl]
  exact ⟨b1, b2, e1, h1, e2, by rw [stoneAt_of_points hp]; exact h1⟩

/-! ## Claims C16 to C20 -/

/-- C16: on every reachable board, under every range order, `FlipOrRemoveAfter color` fails
if and only if `color` is Empty; a failure is the failure of the colour switch at the head
of the method, which comes before any cell, group or entry is written; for Black and White
the method returns a board. -/
theorem flipOrRemoveAfter_fails_iff (size : Nat) (b : Board)
    (h : Reachable (fun _ => True) size b) (cfg : Config) (ro : RangeOrder)
    (hro : ro.Allowed b) (color : Stone) :
    (b.FlipOrRemoveAfter cfg ro color = none ↔ color = Stone.Empty) ∧
      (b.FlipOrRemoveAfter cfg ro color = none → otherColorOf color = none) ∧
      (color = Stone.Black ∨ color = Stone.White →
        ∃ b', b.FlipOrRemoveAfter cfg ro color = some b') := by
  have key : color ≠ Stone.Empty → ∃ b', b.FlipOrRemoveAfter cfg ro color = some b' := by
    intro hc
    obtain ⟨b', e, _⟩ := FlipOrRemoveAfter_inv h.inv cfg hro hc
    exact ⟨b', e⟩
  have hiff : b.FlipOrRemoveAfter cfg ro color = none ↔ color = Stone.Empty := by
    constructor
    · intro hn
      by_contra hc
      obtain ⟨b', e⟩ := key hc
      rw [e] at hn
      exact absurd hn (by simp)
    · rintro rfl
      rfl
  refine ⟨hiff, ?_, ?_⟩
  · intro hn
    rw [hiff.1 hn]
    rfl
  · rintro (rfl | rfl) <;> exact key (by decide)

/-- The failure of `FlipOrRemoveAfter` with the colour Empty on the board
`cornerScenario`. -/
theorem flipOrRemoveAfter_fails_iff_witness :
    Reachable (fun _ => True) 3 cornerScenario ∧ RangeOrder.listOrder.Allowed cornerScenario ∧
      (cornerScenario.FlipOrRemoveAfter ⟨false, .Remove⟩ RangeOrder.listOrder .Empty = none ↔
        Stone.Empty = Stone.Empty) ∧
      (cornerScenario.FlipOrRemoveAfter ⟨false, .Remove⟩ RangeOrder.listOrder .Empty = none →
        otherColorOf .Empty = none) ∧
      (Stone.Empty = Stone.Black ∨ Stone.Empty = Stone.White →
        ∃ b', cornerScenario.FlipOrRemoveAfter ⟨false, .Remove⟩ RangeOrder.listOrder .Empty =
          some b') :=
  have hr : Reachable (fun _ => True) 3 cornerScenario :=
    Reachable.playMoves cornerMoves Reachable.init (by decide)
  ⟨hr, listOrder_allowed cornerScenario,
    flipOrRemoveAfter_fails_iff 3 cornerScenario hr ⟨false, .Remove⟩ RangeOrder.listOrder
      (listOrder_allowed cornerScenario) .Empty⟩

/-- C17, which the code breaks: the board `orderScenario` is reachable under the Flip
policy; the range orders `listOrder` and `reversed` both range every map over exactly its
keys, once each; `FlipOrRemoveAfter White` under Flip, the wall no liberty, returns with
the first a board whose only registry key is (0,2) and with the second a board whose only
registry key is (1,1), and `OfGroup` differs at every stone. -/
theorem resolution_depends_on_range_order :
    Reachable (fun cfg => cfg.FlipOrRemove = FlipRemove.Flip) 3 orderScenario ∧
      (∀ l, (RangeOrder.listOrder.groups l).Perm l) ∧
      (∀ g l, (RangeOrder.listOrder.members g l).Perm l) ∧
      (∀ l, (RangeOrder.reversed.groups l).Perm l) ∧
      (∀ g l, (RangeOrder.reversed.members g l).Perm l) ∧
      orderScenario.FlipOrRemoveAfter ⟨false, .Flip⟩ RangeOrder.listOrder .White =
        some orderListed ∧
      orderScenario.FlipOrRemoveAfter ⟨false, .Flip⟩ RangeOrder.reversed .White =
        some orderReversed ∧
      orderListed.Groups.map Prod.fst = [⟨0, 2⟩] ∧
      orderReversed.Groups.map Prod.fst = [⟨1, 1⟩] ∧
      orderListed.own ⟨2, 2⟩ = some ⟨0, 2⟩ ∧ orderReversed.own ⟨2, 2⟩ = some ⟨1, 1⟩ :=
  ⟨Reachable.playMoves orderMoves Reachable.init (by decide),
    fun l => List.Perm.refl l, fun _ l => List.Perm.refl l, fun l => List.Perm.refl l,
    fun _ l => List.reverse_perm l, by decide, by decide, by decide, by decide, by decide,
    by decide⟩

/-- C18: for stones, none Empty, on pairwise distinct valid cells of the board
`NewBoard size`, the calls of `Put` return a board `b`, the loop of `MergeNeighborsAt` over
`AllLocations` returns a board `b'` with the grid of `b`, and on `b'` the member sets of the
registry groups are exactly the 4-connected components of stones of one colour. -/
theorem batch_merge_components (size : Nat) (moves : List (Stone × Location))
    (hnd : (moves.map Prod.snd).Nodup)
    (hm : ∀ m ∈ moves, m.1 ≠ Stone.Empty ∧ (NewBoard size).IsValid m.2 = true) :
    ∃ b b', (NewBoard size).putAll moves = some b ∧ b.mergeAll = some b' ∧
      b'.Points = b.Points ∧ b'.Components := by
  obtain ⟨b, e, w, _⟩ := putAll_spec moves (NewBoard size) (NewBoard_inv size).1 hnd
    (fun m hmm => ⟨(hm m hmm).1, (hm m hmm).2, NewBoard_stoneAt size m.2 (hm m hmm).2⟩)
  obtain ⟨b', e', i', hp, _⟩ := mergeAll_spec w
  exact ⟨b, b', e, e', hp, i'.components⟩

set_option maxRecDepth 100000 in
/-- The board of `foobar`: after the seven calls of `Put` and the loop over `AllLocations`
the registry holds three groups, with the members (7,7); (7,5), (5,6), (6,5), (5,5); and
(0,1), (0,0). -/
theorem batch_merge_components_witness :
    (foobarMoves.map Prod.snd).Nodup ∧
      (∀ m ∈ foobarMoves, m.1 ≠ Stone.Empty ∧ (NewBoard 9).IsValid m.2 = true) ∧
      (∃ b b', (NewBoard 9).putAll foobarMoves = some b ∧ b.mergeAll = some b' ∧
        b'.Points = b.Points ∧ b'.Components) ∧
      ((NewBoard 9).putAll foobarMoves).bind Board.mergeAll = some foobarMerged ∧
      foobarMerged.Groups.map (fun p => foobarMerged.members p.2) =
        [[⟨7, 7⟩], [⟨7, 5⟩, ⟨5, 6⟩, ⟨6, 5⟩, ⟨5, 5⟩], [⟨0, 1⟩, ⟨0, 0⟩]] :=
  ⟨by decide, by decide, batch_merge_components 9 foobarMoves (by decide) (by decide),
    by decide, by decide⟩

/-- C19, which the code breaks: the board `cornerFlipped` is reachable under the Flip
policy (White at (0,0), Black at (1,0), (0,1), then `FlipOrRemoveAfter Black`); its registry
group at the key (0,0) has the `Color` field White, while the cell of its member (0,0) holds
a Black stone. -/
theorem flipped_group_color_stale :
    Reachable (fun cfg => cfg.FlipOrRemove = FlipRemove.Flip) 3 cornerFlipped ∧
      cornerFlipped.grp ⟨0, 0⟩ = some ⟨.White, ⟨0, 0⟩, some 0⟩ ∧
      (⟨0, 0⟩ : Location) ∈ cornerFlipped.members ⟨.White, ⟨0, 0⟩, some 0⟩ ∧
      cornerFlipped.StoneAt ⟨0, 0⟩ = some .Black :=
  ⟨Reachable.resolve ⟨false, .Flip⟩ RangeOrder.listOrder .Black
      (Reachable.playMoves cornerMoves Reachable.init (by decide)) rfl
      (listOrder_allowed cornerScenario) (by decide) (by decide),
    by decide, by decide, by decide⟩

/-- C20: on every reachable board, every key of `Groups` maps to a group anchored at the key
whose member set contains the key; `OfGroup` of every occupied location is a key of `Groups`
whose group has the location as a member; `OfGroup` of every member of a registry group is
the key of the group; and for every valid location `MergeNeighborsAt` returns a board, the
lookups `Groups[OfGroup[loc]]` and `Groups[OfGroup[n]]` of its loop finding their keys at
every neighbour. -/
theorem registry_well_formed (size : Nat) (b : Board)
    (h : Reachable (fun _ => True) size b) :
    b.RegistryOK ∧
      ∀ loc, b.IsValid loc = true →
        (∃ b', b.MergeNeighborsAt loc = some b') ∧
          ∀ s, s ≠ Stone.Empty → b.StoneAt loc = some s →
            Board.LookupsHit s loc b (b.NeighborLocations loc) := by
  have w := h.inv.1
  refine ⟨w.registryOK, ?_⟩
  intro loc hv
  constructor
  · obtain ⟨b', e, _⟩ := MergeNeighborsAt_spec w hv
    exact ⟨b', e⟩
  · intro s hs hloc
    exact lookupsHit_fold hs (b.NeighborLocations loc) b w hloc
      (fun n hn => (mem_neighborLocations b loc n).1 hn)

/-- The registry of the board `captureScenario`, and `MergeNeighborsAt` at (1,1). -/
theorem registry_well_formed_witness :
    Reachable (fun _ => True) 4 captureScenario ∧ captureScenario.RegistryOK ∧
      ∀ loc, captureScenario.IsValid loc = true →
        (∃ b', captureScenario.MergeNeighborsAt loc = some b') ∧
          ∀ s, s ≠ Stone.Empty → captureScenario.StoneAt loc = some s →
            Board.LookupsHit s loc captureScenario (captureScenario.NeighborLocations loc) :=
  have hr : Reachable (fun _ => True) 4 captureScenario :=
    Reachable.playMoves captureMoves Reachable.init (by decide)
  ⟨hr, registry_well_formed 4 captureScenario hr⟩

end Gomove
